import Mathlib

/-!
The progress bar formatter of rmlint (`src/formats/progressbar.c`).

A shallow embedding of the progress-bar output handler of rmlint and a set of
theorems about it.

Conventions of the embedding:

* C strings are `List Char`: the list holds the bytes before the terminating
  NUL, so `text_buf` is the string stored in the 1024-byte buffer.
* `FILE *out` is write-only: every function that prints returns the list of
  bytes it appends to the stream. `fflush` and the warning sent to the log
  (not to `out`) leave no trace.
* `guint32` fields are naturals kept below `2 ^ 32` by an explicit reduction
  at every store.
* `gdouble` is IEEE-754 binary64 with round-to-nearest, ties-to-even; finite
  values are carried as the exact rational they denote (signed zeros are not
  distinguished: no operation of this file can tell them apart).
-/

namespace Progressbar

/-! ## IEEE-754 binary64 arithmetic -/

/-- A `gdouble`: a finite value (an exact rational), an infinity or a NaN. -/
inductive Double where
  | fin (q : ℚ)
  | inf (neg : Bool)
  | nan
deriving DecidableEq

/-- Binary logarithm by repeated halving; the first argument bounds the
number of halvings. -/
def log2Fuel : Nat → Nat → Nat
  | 0, _ => 0
  | f + 1, n => if n < 2 then 0 else log2Fuel f (n / 2) + 1

/-- Floor of the binary logarithm of a positive natural (`0` for `0`). -/
def flog2 (n : Nat) : Nat := log2Fuel n n

/-- Floor of the binary logarithm of the positive rational `n / d`. -/
def ilog2 (n d : Nat) : Int :=
  let e0 : Int := (flog2 n : Int) - (flog2 d : Int)
  if d * 2 ^ e0.toNat ≤ n * 2 ^ (-e0).toNat then e0 else e0 - 1

/-- Nearest natural to `n / d`, ties going to the even neighbour. -/
def roundHalfEven (n d : Nat) : Nat :=
  let q := n / d
  let r := n % d
  if 2 * r < d then q
  else if d < 2 * r then q + 1
  else if q % 2 = 0 then q else q + 1

/-- Rounding of an exact rational to binary64 (53-bit significand, least
normal exponent `-1022`, overflow to infinity at `2 ^ 1024`). -/
def rnd (x : ℚ) : Double :=
  if x = 0 then .fin 0 else
  let n := x.num.natAbs
  let d := x.den
  let k : Int := max (ilog2 n d) (-1022) - 52
  let m := roundHalfEven (n * 2 ^ (-k).toNat) (d * 2 ^ k.toNat)
  let y : ℚ := (m : ℚ) * (2 : ℚ) ^ k
  if (2 : ℚ) ^ 1024 ≤ y then .inf (decide (x < 0))
  else .fin (if x < 0 then -y else y)

namespace Double

/-- Conversion of an integer to `double`. -/
def ofInt (i : Int) : Double := rnd i

/-- Conversion of an unsigned integer to `double`. -/
def ofNat (n : Nat) : Double := rnd n

/-- Negation. -/
def neg : Double → Double
  | fin q => fin (-q)
  | inf s => inf (!s)
  | nan => nan

/-- Addition of doubles. -/
def add : Double → Double → Double
  | fin a, fin b => rnd (a + b)
  | fin _, inf s => inf s
  | inf s, fin _ => inf s
  | inf s, inf t => if s = t then inf s else nan
  | _, _ => nan

/-- Subtraction of doubles. -/
def sub (a b : Double) : Double := add a (neg b)

/-- Multiplication of doubles. -/
def mul : Double → Double → Double
  | fin a, fin b => rnd (a * b)
  | fin a, inf s => if a = 0 then nan else inf (xor s (decide (a < 0)))
  | inf s, fin b => if b = 0 then nan else inf (xor s (decide (b < 0)))
  | inf s, inf t => inf (xor s t)
  | _, _ => nan

/-- Division of doubles. -/
def div : Double → Double → Double
  | fin a, fin b =>
    if b = 0 then (if a = 0 then nan else inf (decide (a < 0))) else rnd (a / b)
  | fin _, inf _ => fin 0
  | inf s, fin b => inf (xor s (decide (b < 0)))
  | _, _ => nan

/-- Integer part of a rational, rounding toward zero. -/
def truncQ (q : ℚ) : Int :=
  if 0 ≤ q.num then q.num / (q.den : Int) else -((-q.num) / (q.den : Int))

/-- Conversion of a `double` to `int`: the fractional part is discarded. ISO C
leaves the result undefined when the value is a NaN, an infinity or outside
the range of `int`; `indefinite` is the value the platform produces then. -/
def toInt (indefinite : Int) : Double → Int
  | fin q =>
    let t := truncQ q
    if -2147483648 ≤ t ∧ t ≤ 2147483647 then t else indefinite
  | _ => indefinite

end Double

/-- The literal `0.7`. -/
def lit_0_7 : Double := rnd (7 / 10)

/-- The literal `0.3`. -/
def lit_0_3 : Double := rnd (3 / 10)

/-- Whether a `double` is a finite value of the interval `[0, 1]`. -/
def Double.inUnit : Double → Bool
  | .fin q => decide (0 ≤ q) && decide (q ≤ 1)
  | _ => false

/-! ## Data model -/

/-- Modelled from the spec: the enumeration `RmFmtProgressState` of
`formats.h` (not under `src/`), "one of a fixed enumeration Init, Traverse,
Preprocess, Matching, Merge, Summary". -/
inductive RmFmtProgressState where
  | INIT
  | TRAVERSE
  | PREPROCESS
  | SHREDDER
  | MERGE
  | SUMMARY
deriving DecidableEq, Repr

/-- Modelled from the spec: the colour macros `GREEN`, `RED`, `YELLOW` and
`RESET` of the headers (not under `src/`): "optional ANSI color codes for up
to four semantic colors". Their bytes are a parameter of the embedding. -/
structure Colors where
  GREEN : List Char
  RED : List Char
  YELLOW : List Char
  RESET : List Char

/-- Modelled from the spec: the fields of `RmSession` (declared outside
`src/`) that the handler reads: the configured `update_interval` text (what
`rm_fmt_get_config_value` returns, `none` for `NULL`), the abort flag read by
`rm_session_was_aborted`, the colour switch and the unsigned counters. -/
structure RmSession where
  update_interval_str : Option (List Char)
  aborted : Bool
  color : Bool
  total_files : Nat
  ignored_files : Nat
  ignored_folders : Nat
  total_filtered_files : Nat
  other_lint_cnt : Nat
  dup_counter : Nat
  dup_group_counter : Nat
  shred_bytes_remaining : Nat
  shred_files_remaining : Nat

/-- The `struct winsize` of `<sys/ioctl.h>`. -/
structure winsize where
  ws_row : Nat
  ws_col : Nat
  ws_xpixel : Nat
  ws_ypixel : Nat
deriving DecidableEq

/-- What one call of the handler takes from its surroundings: the window
size reported by `ioctl(0, TIOCGWINSZ, ..)` (`none` when the call fails) and
the value an out-of-range conversion from `double` to `int` produces. -/
structure Env where
  ioctl : Option winsize
  indefinite : Int

/-- The user data of `RmFmtHandlerProgress` (the `parent` member holds
constants only). -/
structure RmFmtHandlerProgress where
  percent : Double
  text_buf : List Char
  text_len : Nat
  update_counter : Nat
  update_interval : Nat
  last_state : RmFmtProgressState
  terminal : winsize
deriving DecidableEq

/-- The static instance: members without an initialiser are zero. -/
def PROGRESS_HANDLER_IMPL : RmFmtHandlerProgress :=
  { percent := .fin 0
    text_buf := []
    text_len := 0
    update_counter := 0
    update_interval := 0
    last_state := .INIT
    terminal := { ws_row := 0, ws_col := 0, ws_xpixel := 0, ws_ypixel := 0 } }

/-- Failures of the embedded code. -/
inductive Fault where
  | divisionByZero
deriving DecidableEq, Repr

/-! ## Library functions -/

/-- The escape byte `\x1b` (written `\e` in the source). -/
def ESC : Char := Char.ofNat 27

/-- The line feed. -/
def LF : Char := Char.ofNat 10

/-- The carriage return. -/
def CR : Char := Char.ofNat 13

/-- The bytes of a C string: everything before the first NUL. -/
def cstr (s : List Char) : List Char := s.takeWhile (fun c => c != Char.ofNat 0)

/-- The function `strchr(s, c)` for a non-NUL `c`: offset of the first
occurrence, `none` for `NULL`. -/
def strchr (c : Char) : List Char → Option Nat
  | [] => none
  | x :: xs => if x = c then some 0 else (strchr c xs).map (· + 1)

/-- The function `g_snprintf(buf, size, ..)` applied to the expansion `s` of
its format: the buffer receives at most `size - 1` bytes and the return value
is the length of the whole expansion. -/
def g_snprintf (size : Nat) (s : List Char) : List Char × Nat :=
  (s.take (size - 1), s.length)

/-- The conversion `%llu`. -/
def fmt_LLU (n : Nat) : List Char := Nat.toDigits 10 n

/-- The conversion `%.2f`: two decimals, the exact value rounded to nearest,
ties to even. -/
def fmt_2f : Double → List Char
  | .fin q =>
    let h := roundHalfEven (q.num.natAbs * 100) q.den
    (if q < 0 then ['-'] else []) ++ Nat.toDigits 10 (h / 100) ++
      ['.', Nat.digitChar (h / 10 % 10), Nat.digitChar (h % 10)]
  | .inf s => (if s then ['-'] else []) ++ "inf".data
  | .nan => "nan".data

/-- The white space of the C locale. -/
def isspace (c : Char) : Bool :=
  c = ' ' || (9 ≤ c.toNat && c.toNat ≤ 13)

/-- The function `g_ascii_strtoull(s, NULL, 10)`: optional white space, an
optional sign, decimal digits; `G_MAXUINT64` on overflow; the value is
negated modulo `2 ^ 64` after a minus sign; `0` when there is no digit. -/
def g_ascii_strtoull (s : List Char) : Nat :=
  let s := s.dropWhile isspace
  let sg : Bool × List Char :=
    match s with
    | '-' :: r => (true, r)
    | '+' :: r => (false, r)
    | _ => (false, s)
  let v : Nat := (sg.2.takeWhile Char.isDigit).foldl (fun a c => a * 10 + (c.toNat - 48)) 0
  let r : Nat := if 18446744073709551615 < v then 18446744073709551615 else v
  if sg.1 then (18446744073709551616 - r) % 18446744073709551616 else r

/-- Modelled from the spec: the macros `MAYBE_GREEN` .. `MAYBE_RESET` of the
headers (not under `src/`): a colour sequence "only if the session has colors
enabled; otherwise no escape bytes are emitted". -/
def MAYBE_COLOR (session : RmSession) (col : List Char) : List Char :=
  if session.color then cstr col else []

/-! ## The handler -/

/-- Expansion of the format of the `TRAVERSE` case (lines 56-59). -/
def traverse_text (col : Colors) (session : RmSession) : List Char :=
  "Traversing (".data
    ++ MAYBE_COLOR session col.GREEN ++ fmt_LLU session.total_files
    ++ MAYBE_COLOR session col.RESET ++ " usable files / ".data
    ++ MAYBE_COLOR session col.RED ++ fmt_LLU session.ignored_files
    ++ MAYBE_COLOR session col.RESET ++ " + ".data
    ++ MAYBE_COLOR session col.RED ++ fmt_LLU session.ignored_folders
    ++ MAYBE_COLOR session col.RESET ++ " ignored files / folders)".data

/-- Expansion of the format of the `PREPROCESS` case (lines 66-68). -/
def preprocess_text (col : Colors) (session : RmSession) : List Char :=
  "Preprocessing (reduced files to ".data
    ++ MAYBE_COLOR session col.GREEN ++ fmt_LLU session.total_filtered_files
    ++ MAYBE_COLOR session col.RESET ++ " / found ".data
    ++ MAYBE_COLOR session col.RED ++ fmt_LLU session.other_lint_cnt
    ++ MAYBE_COLOR session col.RESET ++ " other lint)".data

/-- The argument `(double)session->shred_bytes_remaining / 1024 / 1024 / 1024`
of line 78. -/
def shred_gib (session : RmSession) : Double :=
  Double.div (Double.div (Double.div (Double.ofNat session.shred_bytes_remaining)
    (Double.ofInt 1024)) (Double.ofInt 1024)) (Double.ofInt 1024)

/-- Expansion of the format of the `SHREDDER` case (lines 75-79). -/
def shredder_text (col : Colors) (session : RmSession) : List Char :=
  "Matching files (".data
    ++ MAYBE_COLOR session col.RED ++ fmt_LLU session.dup_counter
    ++ MAYBE_COLOR session col.RESET ++ " dupes of ".data
    ++ MAYBE_COLOR session col.YELLOW ++ fmt_LLU session.dup_group_counter
    ++ MAYBE_COLOR session col.RESET ++ " originals; ".data
    ++ MAYBE_COLOR session col.GREEN ++ fmt_2f (shred_gib session)
    ++ MAYBE_COLOR session col.RESET ++ " GiB to scan in ".data
    ++ MAYBE_COLOR session col.GREEN ++ fmt_LLU session.shred_files_remaining
    ++ MAYBE_COLOR session col.RESET ++ " files)".data

/-- The format of the `MERGE` case (line 84); it ends in a line feed. -/
def merge_text : List Char := "Merging files into directories".data ++ [LF]

/-- The percentage of the `SHREDDER` case (line 72). -/
def shredder_percent (session : RmSession) : Double :=
  Double.div (Double.add (Double.ofNat session.dup_counter)
    (Double.ofNat session.dup_group_counter)) (Double.ofNat session.total_filtered_files)

/-- The loop "Get rid of colors" (lines 95-113) from the position `iter`:
the arguments are a bound on the iterations still to run, the string at
`iter`, `text_iter` and `text_len`; the result is the string left at `iter`
and the final `text_len`. -/
def strip_loop (max_len : Int) : Nat → List Char → Nat → Nat → List Char × Nat
  | 0, rest, _, text_len => (rest, text_len)
  | _ + 1, [], _, text_len => ([], text_len)
  | fuel + 1, c :: cs, text_iter, text_len =>
    match (if c = ESC then strchr 'm' (c :: cs) else none) with
    | some jump =>
      let r := strip_loop max_len fuel ((c :: cs).drop (jump + 1)) text_iter
        (((text_len : Int) - ((jump : Int) + 1)) % 4294967296).toNat
      ((c :: cs).take (jump + 1) ++ r.1, r.2)
    | none =>
      if max_len ≤ (text_iter : Int) then ([], text_iter % 4294967296)
      else
        let r := strip_loop max_len fuel cs (text_iter + 1) text_len
        (c :: r.1, r.2)

/-- The function `rm_fmt_progress_format_text` (lines 50-114). -/
def rm_fmt_progress_format_text (col : Colors) (session : RmSession)
    (self : RmFmtHandlerProgress) (max_len : Int) : RmFmtHandlerProgress :=
  let fill (percent : Double) (s : List Char) : RmFmtHandlerProgress :=
    { self with
      percent := percent
      text_buf := (g_snprintf 1024 s).1
      text_len := (g_snprintf 1024 s).2 % 4294967296 }
  let self1 : RmFmtHandlerProgress :=
    match self.last_state with
    | .TRAVERSE => fill (.fin 1) (traverse_text col session)
    | .PREPROCESS => fill (.fin 1) (preprocess_text col session)
    | .SHREDDER => fill (shredder_percent session) (shredder_text col session)
    | .MERGE => fill (.fin 1) merge_text
    | _ => { self with percent := .fin 0, text_buf := [] }
  let r := strip_loop max_len self1.text_buf.length self1.text_buf 0 self1.text_len
  { self1 with text_buf := r.1, text_len := r.2 }

/-- The function `rm_fmt_progress_print_text` (lines 116-124); the comparison
and the subtraction are done on 32-bit unsigned values. -/
def rm_fmt_progress_print_text (self : RmFmtHandlerProgress) (width : Int) : List Char :=
  (if (self.text_len : Int) < width % 4294967296 then
      List.replicate ((width - (self.text_len : Int)) % 4294967296).toNat ' '
    else []) ++ self.text_buf

/-- The body of the loop of `rm_fmt_progress_print_bar` (lines 131-137). -/
def bar_cell (cells i : Int) : Char :=
  if i < cells then '#' else if i = cells then '>' else '-'

/-- The loop of `rm_fmt_progress_print_bar` (lines 130-138): the number of
iterations left and the value of `i`. -/
def bar_loop (cells : Int) : Nat → Int → List Char
  | 0, _ => []
  | n + 1, i => bar_cell cells i :: bar_loop cells n (i + 1)

/-- The function `rm_fmt_progress_print_bar` (lines 126-140). -/
def rm_fmt_progress_print_bar (indefinite : Int) (self : RmFmtHandlerProgress)
    (width : Int) : List Char :=
  let cells : Int := Double.toInt indefinite (Double.mul (Double.ofInt width) self.percent)
  ['['] ++ bar_loop cells (width - 2).toNat 0 ++ [']']

/-- The sequence `\e[?25l` that hides the cursor. -/
def HIDE_CURSOR : List Char := [ESC, '[', '?', '2', '5', 'l']

/-- The sequence `\e[?25h` that shows the cursor. -/
def SHOW_CURSOR : List Char := [ESC, '[', '?', '2', '5', 'h']

/-- Lines 181-195 of `rm_fmt_prog`: the redraw that follows the throttle. -/
def rm_fmt_prog_redraw (col : Colors) (session : RmSession) (env : Env)
    (self : RmFmtHandlerProgress) (state : RmFmtProgressState) :
    RmFmtHandlerProgress × List Char :=
  let self1 : RmFmtHandlerProgress :=
    match env.ioctl with
    | some ws => { self with terminal := ws }
    | none => self
  let self2 : RmFmtHandlerProgress := { self1 with last_state := state }
  let text_width : Int := Double.toInt env.indefinite
    (Double.sub (Double.mul (Double.ofInt self2.terminal.ws_col) lit_0_7) (Double.ofInt 1))
  let self3 := rm_fmt_progress_format_text col session self2 text_width
  let bar := rm_fmt_progress_print_bar env.indefinite self3
    (Double.toInt env.indefinite (Double.mul (Double.ofInt self3.terminal.ws_col) lit_0_3))
  let text := rm_fmt_progress_print_text self3 text_width
  (self3, bar ++ text ++ (MAYBE_COLOR session col.RESET ++ [CR])
    ++ (if state = .SUMMARY then [LF] else []))

/-- The function `rm_fmt_prog` (lines 142-196): the new user data and the
bytes written to `out`. -/
def rm_fmt_prog (col : Colors) (session : RmSession) (env : Env)
    (self : RmFmtHandlerProgress) (state : RmFmtProgressState) :
    Except Fault (RmFmtHandlerProgress × List Char) :=
  if state = .INIT then
    let self1 : RmFmtHandlerProgress :=
      match session.update_interval_str with
      | some str => { self with update_interval := g_ascii_strtoull str % 4294967296 }
      | none => self
    let self2 : RmFmtHandlerProgress :=
      if self1.update_interval = 0 then { self1 with update_interval := 15 } else self1
    .ok (self2, HIDE_CURSOR)
  else if state = .SUMMARY ∨ session.aborted = true then
    .ok (self, SHOW_CURSOR)
  else if self.last_state ≠ state ∧ self.last_state ≠ .INIT then
    let r := rm_fmt_prog_redraw col session env self state
    .ok (r.1, LF :: r.2)
  else if self.update_interval = 0 then
    .error .divisionByZero
  else
    let self1 : RmFmtHandlerProgress :=
      { self with update_counter := (self.update_counter + 1) % 4294967296 }
    if self.update_counter % self.update_interval > 0 then .ok (self1, [])
    else .ok (rm_fmt_prog_redraw col session env self1 state)

/-- One call of the handler by the host. -/
structure Event where
  session : RmSession
  state : RmFmtProgressState
  env : Env

/-- A sequence of calls on the same handler: the final user data and what
each call wrote. -/
def run (col : Colors) : List Event → RmFmtHandlerProgress →
    Except Fault (RmFmtHandlerProgress × List (List Char))
  | [], self => .ok (self, [])
  | ev :: evs, self =>
    match rm_fmt_prog col ev.session ev.env self ev.state with
    | .error e => .error e
    | .ok r =>
      match run col evs r.1 with
      | .error e => .error e
      | .ok rs => .ok (rs.1, r.2 :: rs.2)

/-- The phases that draw a line: Traverse, Preprocess, Matching, Merge. -/
def isRendering : RmFmtProgressState → Bool
  | .TRAVERSE => true
  | .PREPROCESS => true
  | .SHREDDER => true
  | .MERGE => true
  | _ => false

/-- Whether a call wrote the progress line: throttled calls write nothing. -/
def redrawn (out : List Char) : Bool := !out.isEmpty

/-! ## Printable characters -/

/-- The message that `rm_fmt_progress_format_text` formats in each phase,
before it is stored in the buffer. -/
def formatted (col : Colors) (session : RmSession) : RmFmtProgressState → List Char
  | .TRAVERSE => traverse_text col session
  | .PREPROCESS => preprocess_text col session
  | .SHREDDER => shredder_text col session
  | .MERGE => merge_text
  | _ => []

/-- For each character of a string, whether it is printable, that is, lies
outside every span that runs from an escape byte through its terminating
`m`. The flag tells whether the string starts inside such a span. -/
def printableMask : Bool → List Char → List Bool
  | _, [] => []
  | true, c :: cs => false :: printableMask (c != 'm') cs
  | false, c :: cs =>
    if c = ESC ∧ 'm' ∈ cs then false :: printableMask true cs
    else true :: printableMask false cs

/-- The printable length of a string: the number of its characters outside
all escape spans. -/
def printableLen (s : List Char) : Nat := (printableMask false s).count true

/-- A colour sequence as a terminal expects it: empty, or an escape byte
followed by parameters and one `m`, which ends the sequence. -/
def wellFormedCode : List Char → Bool
  | [] => true
  | c :: cs => c == ESC && (strchr 'm' cs == some (cs.length - 1))

/-- A colour table whose four sequences are well formed. -/
def wellFormedColors (col : Colors) : Bool :=
  wellFormedCode (cstr col.GREEN) && wellFormedCode (cstr col.RED)
    && wellFormedCode (cstr col.YELLOW) && wellFormedCode (cstr col.RESET)

/-! ## Sample data -/

/-- A colour table of ANSI sequences. -/
def ansi : Colors :=
  { GREEN := ESC :: "[32;01m".data
    RED := ESC :: "[31;01m".data
    YELLOW := ESC :: "[33;01m".data
    RESET := ESC :: "[0m".data }

/-- A session snapshot in the middle of a run. -/
def sample : RmSession :=
  { update_interval_str := none
    aborted := false
    color := true
    total_files := 1200
    ignored_files := 7
    ignored_folders := 2
    total_filtered_files := 200
    other_lint_cnt := 3
    dup_counter := 40
    dup_group_counter := 10
    shred_bytes_remaining := 5368709120
    shred_files_remaining := 150 }

/-- An 80-column terminal. -/
def env80 : Env :=
  { ioctl := some { ws_row := 24, ws_col := 80, ws_xpixel := 0, ws_ypixel := 0 }
    indefinite := -2147483648 }

/-- A `MERGE` event of a running session. -/
def mergeEv : Event := { session := sample, state := .MERGE, env := env80 }

/-- The static instance after an `INIT` event configured with the text `3`. -/
def afterInit3 : RmFmtHandlerProgress := { PROGRESS_HANDLER_IMPL with update_interval := 3 }

/-- An `INIT` event whose configuration sets the interval to 3. -/
def initEv3 : Event :=
  { session := { sample with update_interval_str := some ['3'] }, state := .INIT, env := env80 }

/-- A `PREPROCESS` event of a running session. -/
def preEv : Event := { session := sample, state := .PREPROCESS, env := env80 }

/-- A `SHREDDER` event of a running session. -/
def shrEv : Event := { session := sample, state := .SHREDDER, env := env80 }

/-- A call whose window-size query fails. -/
def envNoTty : Env := { ioctl := none, indefinite := -2147483648 }

/-- A 90-column terminal. -/
def env90 : Env :=
  { ioctl := some { ws_row := 24, ws_col := 90, ws_xpixel := 0, ws_ypixel := 0 }
    indefinite := -2147483648 }

/-- The value of `text_width` (line 187) for `ws_col` columns. -/
def text_width (indefinite : Int) (ws_col : Nat) : Int :=
  Double.toInt indefinite
    (Double.sub (Double.mul (Double.ofInt ws_col) lit_0_7) (Double.ofInt 1))

/-- The width given to `rm_fmt_progress_print_bar` (line 189) for `ws_col`
columns. -/
def bar_width (indefinite : Int) (ws_col : Nat) : Int :=
  Double.toInt indefinite (Double.mul (Double.ofInt ws_col) lit_0_3)

/-- The window size in force during a redraw: the one the query reports, or
the cached one when the query fails. -/
def columns (env : Env) (self : RmFmtHandlerProgress) : Nat :=
  match env.ioctl with
  | some ws => ws.ws_col
  | none => self.terminal.ws_col

/-- The static instance after an `INIT` event without configuration. -/
def afterInit15 : RmFmtHandlerProgress := { PROGRESS_HANDLER_IMPL with update_interval := 15 }

/-- Whether every escape byte of a string that lies outside a span is
followed by an `m`, so that the spans of the string do not depend on what is
appended to it. The flag tells whether the string starts inside a span. -/
def spansClosed : Bool → List Char → Bool
  | _, [] => true
  | true, c :: cs => spansClosed (c != 'm') cs
  | false, c :: cs =>
    if c = ESC then decide ('m' ∈ cs) && spansClosed true cs else spansClosed false cs

/-! ## Evaluation checks -/

/-- The rounding function on a few values: exact values, the literal `0.7`,
the largest finite double, overflow and subnormal numbers. -/
theorem rnd_checks :
    rnd (1 / 4) = .fin (1 / 4) ∧
    lit_0_7 = .fin (6305039478318694 / 2 ^ 53) ∧
    rnd (2 ^ 1024) = .inf false ∧
    rnd (2 ^ 1024 - 2 ^ 970) = .inf false ∧
    rnd (2 ^ 1024 - 2 ^ 970 - 1) = .fin (2 ^ 1024 - 2 ^ 971) ∧
    rnd (1 / 2 ^ 1075) = .fin 0 ∧
    rnd (3 / 2 ^ 1075) = .fin (1 / 2 ^ 1073) ∧
    Double.div (Double.ofNat 0) (Double.ofNat 0) = .nan := by
  refine ⟨?_, ?_, ?_, ?_, ?_, ?_, ?_, ?_⟩ <;> decide!

/-- The text width `(int)(ws_col * 0.7 - 1)` for 0, 80 and 90 columns; for 90
columns the product is `63 - 2 ^ -47`. -/
theorem text_width_checks :
    Double.toInt 0 (Double.sub (Double.mul (Double.ofInt 0) lit_0_7) (Double.ofInt 1)) = -1 ∧
    Double.toInt 0 (Double.sub (Double.mul (Double.ofInt 80) lit_0_7) (Double.ofInt 1)) = 55 ∧
    Double.mul (Double.ofInt 90) lit_0_7 = .fin (63 - 1 / 2 ^ 47) ∧
    Double.toInt 0 (Double.sub (Double.mul (Double.ofInt 90) lit_0_7) (Double.ofInt 1)) = 61 := by
  refine ⟨?_, ?_, ?_, ?_⟩ <;> decide!

/-- The conversions `%.2f` and `%llu` and the parser of the interval. -/
theorem library_checks :
    fmt_2f (Double.div (Double.ofNat (2 ^ 27)) (Double.ofInt 1024)) = "131072.00".data ∧
    fmt_2f (.fin (1 / 8)) = "0.12".data ∧
    fmt_2f (.fin (3 / 8)) = "0.38".data ∧
    fmt_2f (.fin (1999 / 1000)) = "2.00".data ∧
    fmt_LLU 0 = "0".data ∧
    fmt_LLU 18446744073709551615 = "18446744073709551615".data ∧
    g_ascii_strtoull " 42x".data = 42 ∧
    g_ascii_strtoull "-1".data = 18446744073709551615 ∧
    g_ascii_strtoull "abc".data = 0 ∧
    g_ascii_strtoull "4294967296".data % 4294967296 = 0 ∧
    strchr 'm' [ESC, '[', '0', 'm', 'x'] = some 3 := by
  refine ⟨?_, ?_, ?_, ?_, ?_, ?_, ?_, ?_, ?_, ?_, ?_⟩ <;> decide!

/-- The matching message of the sample session without colours, and the
whole line drawn on an 80-column terminal when the phase changes. -/
theorem handler_checks :
    (rm_fmt_progress_format_text ansi { sample with color := false }
        { PROGRESS_HANDLER_IMPL with last_state := .SHREDDER } 200).text_buf
      = "Matching files (40 dupes of 10 originals; 5.00 GiB to scan in 150 files)".data ∧
    (rm_fmt_prog ansi { sample with color := false } env80
        { PROGRESS_HANDLER_IMPL with last_state := .TRAVERSE } .SHREDDER).toOption.map (·.2)
      = some (LF :: ("[######>---------------]".data
          ++ "Matching files (40 dupes of 10 originals; 5.00 GiB to s".data ++ [CR])) := by
  refine ⟨?_, ?_⟩ <;> decide!

/-! ## Rounding lemmas -/

theorem pow_log2Fuel_le (f : Nat) : ∀ n, 1 ≤ n → 2 ^ log2Fuel f n ≤ n := by
  induction f with
  | zero => intro n h; simpa [log2Fuel] using h
  | succ f ih =>
    intro n h
    unfold log2Fuel
    split
    · simpa using h
    · have h2 : 1 ≤ n / 2 := by omega
      have := ih (n / 2) h2
      rw [pow_succ]
      omega

theorem ilog2_nat_le (n : Nat) (h1 : 1 ≤ n) (h : n < 2 ^ 53) : ilog2 n 1 ≤ 52 := by
  have hp := pow_log2Fuel_le n n h1
  have hlt : flog2 n < 53 := by
    have : 2 ^ flog2 n < 2 ^ 53 := lt_of_le_of_lt hp h
    exact (Nat.pow_lt_pow_iff_right (by decide)).mp this
  have h0 : flog2 1 = 0 := by decide
  unfold ilog2
  rw [h0]
  simp only
  split <;> omega

theorem roundHalfEven_one (n : Nat) : roundHalfEven n 1 = n := by
  simp [roundHalfEven, Nat.mod_one]

theorem rnd_natCast (n : Nat) (h : n < 2 ^ 53) : rnd (n : ℚ) = .fin n := by
  unfold rnd
  by_cases h0 : n = 0
  · simp [h0]
  have hx : (n : ℚ) ≠ 0 := by exact_mod_cast h0
  simp only [hx, if_false, Rat.num_natCast, Int.natAbs_ofNat, Rat.den_natCast]
  have he := ilog2_nat_le n (by omega) h
  obtain ⟨j, hj⟩ : ∃ j : Nat, max (ilog2 n 1) (-1022) - 52 = -(j : Int) :=
    ⟨(-(max (ilog2 n 1) (-1022) - 52)).toNat, by omega⟩
  rw [hj]
  have e1 : (-(-(j : Int))).toNat = j := by simp
  have e2 : (-(j : Int)).toNat = 0 := by simp
  rw [e1, e2, pow_zero, Nat.mul_one, roundHalfEven_one]
  have hy : ((n * 2 ^ j : Nat) : ℚ) * (2 : ℚ) ^ (-(j : Int)) = n := by
    rw [zpow_neg, zpow_natCast]
    push_cast
    field_simp
  rw [hy]
  have hn : ¬ ((2 : ℚ) ^ 1024 ≤ n) := by
    have : (n : ℚ) < 2 ^ 53 := by exact_mod_cast h
    have : (2 : ℚ) ^ 53 ≤ 2 ^ 1024 := by norm_num
    linarith
  have hneg : ¬ ((n : ℚ) < 0) := by
    have : (0 : ℚ) ≤ n := Nat.cast_nonneg n
    linarith
  simp [hn, hneg]

theorem roundHalfEven_le (n d M : Nat) (hd : 0 < d) (h : n ≤ M * d) : roundHalfEven n d ≤ M := by
  have hq : n / d ≤ M := by
    calc n / d ≤ M * d / d := Nat.div_le_div_right h
      _ = M := Nat.mul_div_cancel _ hd
  unfold roundHalfEven
  simp only
  by_cases hr : n % d = 0
  · have : 2 * (n % d) < d := by omega
    simp [this, hq]
  · have hlt : n / d < M := by
      by_contra hc
      have hge : M ≤ n / d := by omega
      have hM : n / d = M := le_antisymm hq hge
      have := Nat.div_add_mod n d
      rw [hM] at this
      have : d * M = M * d := Nat.mul_comm _ _
      omega
    split
    · omega
    · split
      · omega
      · split <;> omega

theorem rnd_unit (x : ℚ) (h0 : 0 ≤ x) (h1 : x ≤ 1) : ∃ y, rnd x = .fin y ∧ 0 ≤ y ∧ y ≤ 1 := by
  unfold rnd
  by_cases hx : x = 0
  · exact ⟨0, by simp [hx], le_refl _, by norm_num⟩
  simp only [hx, if_false]
  have hnum : 0 ≤ x.num := Rat.num_nonneg.mpr h0
  have hden : 0 < x.den := x.den_pos
  have hle : x.num.natAbs ≤ x.den := by
    have : x.num ≤ x.den := by
      have := Rat.le_def.mp h1
      simpa using this
    omega
  have hneg : ¬ x < 0 := not_lt.mpr h0
  generalize max (ilog2 x.num.natAbs x.den) (-1022) - 52 = k
  have key : ((roundHalfEven (x.num.natAbs * 2 ^ (-k).toNat) (x.den * 2 ^ k.toNat) : Nat) : ℚ)
      * (2 : ℚ) ^ k ≤ 1 := by
    rcases le_or_lt k 0 with hk | hk
    · obtain ⟨j, hj⟩ : ∃ j : Nat, k = -(j : Int) := ⟨(-k).toNat, by omega⟩
      subst hj
      have e1 : (-(-(j : Int))).toNat = j := by simp
      have e2 : (-(j : Int)).toNat = 0 := by simp
      rw [e1, e2, pow_zero, Nat.mul_one]
      have hm := roundHalfEven_le (x.num.natAbs * 2 ^ j) x.den (2 ^ j) hden
        (by rw [Nat.mul_comm]; exact Nat.mul_le_mul_left _ hle)
      rw [zpow_neg, zpow_natCast]
      have h2 : (0 : ℚ) < 2 ^ j := by positivity
      rw [← div_eq_mul_inv, div_le_one h2]
      exact_mod_cast hm
    · obtain ⟨j, hj⟩ : ∃ j : Nat, k = (j : Int) + 1 := ⟨(k - 1).toNat, by omega⟩
      subst hj
      have e1 : (-((j : Int) + 1)).toNat = 0 := by omega
      have e2 : ((j : Int) + 1).toNat = j + 1 := by omega
      rw [e1, e2, pow_zero, Nat.mul_one]
      have hD : 2 * x.den ≤ x.den * 2 ^ (j + 1) := by
        have : 1 ≤ 2 ^ j := Nat.one_le_two_pow
        rw [pow_succ]
        nlinarith
      have hm : roundHalfEven x.num.natAbs (x.den * 2 ^ (j + 1)) = 0 := by
        have hq : x.num.natAbs / (x.den * 2 ^ (j + 1)) = 0 := Nat.div_eq_of_lt (by omega)
        have hr : x.num.natAbs % (x.den * 2 ^ (j + 1)) = x.num.natAbs :=
          Nat.mod_eq_of_lt (by omega)
        unfold roundHalfEven
        simp only [hq, hr]
        split
        · rfl
        · split
          · omega
          · rfl
      rw [hm]
      simp
  have hnn : (0 : ℚ) ≤ ((roundHalfEven (x.num.natAbs * 2 ^ (-k).toNat) (x.den * 2 ^ k.toNat) : Nat) : ℚ)
      * (2 : ℚ) ^ k := by positivity
  have hov : ¬ ((2 : ℚ) ^ 1024 ≤ ((roundHalfEven (x.num.natAbs * 2 ^ (-k).toNat) (x.den * 2 ^ k.toNat) : Nat) : ℚ)
      * (2 : ℚ) ^ k) := by
    have : (1 : ℚ) < 2 ^ 1024 := by norm_num
    linarith
  exact ⟨_, by simp only [hov, hneg, if_false], hnn, key⟩

theorem lt_pow_log2Fuel (f : Nat) : ∀ n, n ≤ f → n < 2 ^ (log2Fuel f n + 1) := by
  induction f with
  | zero => intro n h; simp [log2Fuel]; omega
  | succ f ih =>
    intro n h
    unfold log2Fuel
    split
    · simpa using (by omega : n < 2)
    · have := ih (n / 2) (by omega)
      rw [pow_succ]
      omega

theorem ilog2_le (n d M : Nat) (hn : 1 ≤ n) (hd : 1 ≤ d) (h : n ≤ M * d) (hM : M < 2 ^ 53) :
    ilog2 n d ≤ 52 := by
  have ha := pow_log2Fuel_le n n hn
  have hb := lt_pow_log2Fuel d d (le_refl _)
  unfold ilog2
  simp only
  split
  · rename_i hc
    by_contra hcon
    have he : 53 ≤ (flog2 n : Int) - (flog2 d : Int) := by omega
    obtain ⟨t, ht⟩ : ∃ t : Nat, (flog2 n : Int) - (flog2 d : Int) = (t : Int) :=
      ⟨((flog2 n : Int) - (flog2 d : Int)).toNat, by omega⟩
    rw [ht] at hc
    have e1 : (-(t : Int)).toNat = 0 := by omega
    rw [Int.toNat_ofNat, e1, pow_zero, Nat.mul_one] at hc
    have ht53 : 53 ≤ t := by omega
    have hp : 2 ^ 53 ≤ 2 ^ t := Nat.pow_le_pow_right (by decide) ht53
    have h3 : d * 2 ^ 53 ≤ M * d := le_trans (le_trans (Nat.mul_le_mul_left d hp) hc) h
    have h4 : M * d < 2 ^ 53 * d := Nat.mul_lt_mul_of_pos_right hM (by omega)
    rw [Nat.mul_comm d] at h3
    omega
  · by_contra hcon
    have he : 54 ≤ (flog2 n : Int) - (flog2 d : Int) := by omega
    have hfl : flog2 d + 1 + 53 ≤ flog2 n := by omega
    have hp : 2 ^ (flog2 d + 1 + 53) ≤ 2 ^ flog2 n := Nat.pow_le_pow_right (by decide) hfl
    have h1 : 2 ^ (flog2 d + 1) * 2 ^ 53 ≤ n := by
      rw [← pow_add]
      exact le_trans hp ha
    have h2 : d * 2 ^ 53 < 2 ^ (flog2 d + 1) * 2 ^ 53 :=
      Nat.mul_lt_mul_of_pos_right hb (by positivity)
    have h4 : M * d < 2 ^ 53 * d := Nat.mul_lt_mul_of_pos_right hM (by omega)
    rw [Nat.mul_comm d] at h2
    omega

theorem rnd_le_nat (x : ℚ) (M : Nat) (h0 : 0 ≤ x) (h1 : x ≤ M) (hM : M < 2 ^ 53) :
    ∃ y, rnd x = .fin y ∧ 0 ≤ y ∧ y ≤ M := by
  unfold rnd
  by_cases hx : x = 0
  · exact ⟨0, by simp [hx], le_refl _, Nat.cast_nonneg M⟩
  simp only [hx, if_false]
  have hnum : 0 < x.num := Rat.num_pos.mpr (lt_of_le_of_ne h0 (Ne.symm hx))
  have hden : 0 < x.den := x.den_pos
  have hle : x.num.natAbs ≤ M * x.den := by
    have hq : (x.num : ℚ) / (x.den : ℚ) ≤ (M : ℚ) := by rw [Rat.num_div_den]; exact h1
    have hd' : (0 : ℚ) < x.den := by exact_mod_cast hden
    rw [div_le_iff₀ hd'] at hq
    have : x.num ≤ (M : Int) * (x.den : Int) := by exact_mod_cast hq
    have habs : (x.num.natAbs : Int) = x.num := Int.natAbs_of_nonneg (le_of_lt hnum)
    have : (x.num.natAbs : Int) ≤ ((M * x.den : Nat) : Int) := by
      rw [habs]
      push_cast
      exact this
    exact_mod_cast this
  have hneg : ¬ x < 0 := not_lt.mpr h0
  have hk := ilog2_le x.num.natAbs x.den M (by omega) hden hle hM
  obtain ⟨j, hj⟩ : ∃ j : Nat, max (ilog2 x.num.natAbs x.den) (-1022) - 52 = -(j : Int) :=
    ⟨(-(max (ilog2 x.num.natAbs x.den) (-1022) - 52)).toNat, by omega⟩
  rw [hj]
  have e1 : (-(-(j : Int))).toNat = j := by simp
  have e2 : (-(j : Int)).toNat = 0 := by simp
  rw [e1, e2, pow_zero, Nat.mul_one]
  have hm := roundHalfEven_le (x.num.natAbs * 2 ^ j) x.den (M * 2 ^ j) hden
    (by calc x.num.natAbs * 2 ^ j ≤ M * x.den * 2 ^ j := Nat.mul_le_mul_right _ hle
          _ = M * 2 ^ j * x.den := by ring)
  have h2 : (0 : ℚ) < 2 ^ j := by positivity
  have key : ((roundHalfEven (x.num.natAbs * 2 ^ j) x.den : Nat) : ℚ) * (2 : ℚ) ^ (-(j : Int))
      ≤ M := by
    rw [zpow_neg, zpow_natCast, ← div_eq_mul_inv, div_le_iff₀ h2]
    exact_mod_cast hm
  have hnn : (0 : ℚ) ≤ ((roundHalfEven (x.num.natAbs * 2 ^ j) x.den : Nat) : ℚ)
      * (2 : ℚ) ^ (-(j : Int)) := by positivity
  have hov : ¬ ((2 : ℚ) ^ 1024 ≤ ((roundHalfEven (x.num.natAbs * 2 ^ j) x.den : Nat) : ℚ)
      * (2 : ℚ) ^ (-(j : Int))) := by
    have : (M : ℚ) < 2 ^ 53 := by exact_mod_cast hM
    have : (2 : ℚ) ^ 53 ≤ 2 ^ 1024 := by norm_num
    linarith
  exact ⟨_, by simp only [hov, hneg, if_false], hnn, key⟩

/-- The matching percentage is the correctly rounded quotient as long as the
counters convert to `double` without rounding. -/
theorem shredder_percent_eq (session : RmSession)
    (hc : 0 < session.total_filtered_files) (hc2 : session.total_filtered_files < 2 ^ 53)
    (hab : session.dup_counter + session.dup_group_counter < 2 ^ 53) :
    shredder_percent session
      = rnd (((session.dup_counter + session.dup_group_counter : Nat) : ℚ)
          / (session.total_filtered_files : ℚ)) := by
  unfold shredder_percent Double.ofNat
  rw [rnd_natCast _ (by omega), rnd_natCast session.dup_group_counter (by omega),
    rnd_natCast _ hc2]
  have hs : Double.add (.fin (session.dup_counter : ℚ)) (.fin (session.dup_group_counter : ℚ))
      = .fin ((session.dup_counter + session.dup_group_counter : Nat) : ℚ) := by
    show rnd _ = _
    rw [← Nat.cast_add, rnd_natCast _ hab]
  rw [hs]
  have hne : (session.total_filtered_files : ℚ) ≠ 0 := by
    have : session.total_filtered_files ≠ 0 := by omega
    exact_mod_cast this
  show (if (session.total_filtered_files : ℚ) = 0 then _ else _) = _
  rw [if_neg hne]

/-! ## Frame properties of the redraw -/

theorem format_text_frame (col : Colors) (session : RmSession)
    (self : RmFmtHandlerProgress) (max_len : Int) :
    (rm_fmt_progress_format_text col session self max_len).update_counter = self.update_counter ∧
    (rm_fmt_progress_format_text col session self max_len).update_interval = self.update_interval ∧
    (rm_fmt_progress_format_text col session self max_len).last_state = self.last_state ∧
    (rm_fmt_progress_format_text col session self max_len).terminal = self.terminal := by
  unfold rm_fmt_progress_format_text
  cases self.last_state <;> simp

theorem redraw_frame (col : Colors) (session : RmSession) (env : Env)
    (self : RmFmtHandlerProgress) (state : RmFmtProgressState) :
    (rm_fmt_prog_redraw col session env self state).1.update_counter = self.update_counter ∧
    (rm_fmt_prog_redraw col session env self state).1.update_interval = self.update_interval ∧
    (rm_fmt_prog_redraw col session env self state).1.last_state = state := by
  unfold rm_fmt_prog_redraw
  simp only [format_text_frame]
  cases env.ioctl <;> simp

theorem redraw_out_ne_nil (col : Colors) (session : RmSession) (env : Env)
    (self : RmFmtHandlerProgress) (state : RmFmtProgressState) :
    (rm_fmt_prog_redraw col session env self state).2 ≠ [] := by
  simp [rm_fmt_prog_redraw, rm_fmt_progress_print_bar]

/-- The bytes of a redraw: the bar, the text, the reset sequence with a
carriage return and, for `SUMMARY`, a line feed. -/
theorem redraw_shape (col : Colors) (session : RmSession) (env : Env)
    (self : RmFmtHandlerProgress) (state : RmFmtProgressState) :
    ∃ w tw : Int, (rm_fmt_prog_redraw col session env self state).2
      = rm_fmt_progress_print_bar env.indefinite
          (rm_fmt_prog_redraw col session env self state).1 w
        ++ rm_fmt_progress_print_text (rm_fmt_prog_redraw col session env self state).1 tw
        ++ (MAYBE_COLOR session col.RESET ++ [CR])
        ++ (if state = .SUMMARY then [LF] else []) := by
  unfold rm_fmt_prog_redraw
  exact ⟨_, _, rfl⟩

/-- After the first lines of `rm_fmt_prog` an `INIT` event leaves a positive
interval and writes the cursor-hide sequence, whatever the user data were. -/
theorem init_interval_pos (col : Colors) (session : RmSession) (env : Env)
    (self : RmFmtHandlerProgress) :
    ∃ r, rm_fmt_prog col session env self .INIT = .ok r ∧ 1 ≤ r.1.update_interval := by
  unfold rm_fmt_prog
  simp only [if_true]
  refine ⟨_, rfl, ?_⟩
  dsimp only
  split
  · simp
  · omega

/-- A call with a positive interval does not fail and keeps the interval. -/
theorem prog_ok_of_interval_pos (col : Colors) (session : RmSession) (env : Env)
    (self : RmFmtHandlerProgress) (state : RmFmtProgressState)
    (h : 1 ≤ self.update_interval) :
    ∃ r, rm_fmt_prog col session env self state = .ok r ∧ 1 ≤ r.1.update_interval := by
  by_cases hs : state = .INIT
  · subst hs
    exact init_interval_pos col session env self
  · unfold rm_fmt_prog
    simp only [hs, if_false]
    split
    · exact ⟨_, rfl, h⟩
    · split
      · exact ⟨_, rfl, by simpa [redraw_frame] using h⟩
      · have h0 : self.update_interval ≠ 0 := by omega
        simp only [h0, if_false]
        split
        · exact ⟨_, rfl, h⟩
        · exact ⟨_, rfl, by simpa [redraw_frame] using h⟩

/-- A sequence of calls on user data with a positive interval does not fail. -/
theorem run_ok_of_interval_pos (col : Colors) (evs : List Event) :
    ∀ self : RmFmtHandlerProgress, 1 ≤ self.update_interval →
      ∃ r, run col evs self = .ok r ∧ r.2.length = evs.length := by
  induction evs with
  | nil => intro self _; exact ⟨_, rfl, rfl⟩
  | cons ev evs ih =>
    intro self h
    obtain ⟨r, hr, hpos⟩ := prog_ok_of_interval_pos col ev.session ev.env self ev.state h
    obtain ⟨rs, hrs, hlen⟩ := ih r.1 hpos
    refine ⟨(rs.1, r.2 :: rs.2), ?_, by simp [hlen]⟩
    simp [run, hr, hrs]

/-! ## The percentage -/

theorem format_text_percent (col : Colors) (session : RmSession)
    (self : RmFmtHandlerProgress) (max_len : Int) :
    (rm_fmt_progress_format_text col session self max_len).percent =
      match self.last_state with
      | .TRAVERSE => .fin 1
      | .PREPROCESS => .fin 1
      | .SHREDDER => shredder_percent session
      | .MERGE => .fin 1
      | _ => .fin 0 := by
  unfold rm_fmt_progress_format_text
  cases self.last_state <;> rfl

/-- C6 (as stated, refuted): in the matching phase the percentage is 2 when
two duplicates are counted against one filtered file, a NaN when all three
counters are 0, and `1 + 2 ^ -52` for `2 ^ 53 + 3` duplicates and 3 groups
against `2 ^ 53 + 6` files (the conversions to `double` round). -/
theorem C6_counterexample :
    (rm_fmt_progress_format_text ansi
        { sample with dup_counter := 2, dup_group_counter := 0, total_filtered_files := 1 }
        { PROGRESS_HANDLER_IMPL with last_state := .SHREDDER } 54).percent = .fin 2 ∧
    Double.inUnit (rm_fmt_progress_format_text ansi
        { sample with dup_counter := 2, dup_group_counter := 0, total_filtered_files := 1 }
        { PROGRESS_HANDLER_IMPL with last_state := .SHREDDER } 54).percent = false ∧
    (rm_fmt_progress_format_text ansi
        { sample with dup_counter := 0, dup_group_counter := 0, total_filtered_files := 0 }
        { PROGRESS_HANDLER_IMPL with last_state := .SHREDDER } 54).percent = .nan ∧
    (rm_fmt_progress_format_text ansi
        { sample with dup_counter := 9007199254740995, dup_group_counter := 3,
                      total_filtered_files := 9007199254740998 }
        { PROGRESS_HANDLER_IMPL with last_state := .SHREDDER } 54).percent
      = .fin (1 + 1 / 2 ^ 52) := by
  simp only [format_text_percent]
  decide!

/-- C6 (amended): after `rm_fmt_progress_format_text` the percentage is 1 in
the phases Traverse, Preprocess and Merge for every snapshot, and in the
matching phase it lies in `[0, 1]` whenever `total_filtered_files` is
positive and below `2 ^ 53` and `dup_counter + dup_group_counter` does not
exceed it. -/
theorem C6_percent_range (col : Colors) (session : RmSession)
    (self : RmFmtHandlerProgress) (max_len : Int)
    (hst : isRendering self.last_state = true)
    (hsane : self.last_state = .SHREDDER →
      0 < session.total_filtered_files ∧ session.total_filtered_files < 2 ^ 53 ∧
      session.dup_counter + session.dup_group_counter ≤ session.total_filtered_files) :
    Double.inUnit (rm_fmt_progress_format_text col session self max_len).percent = true ∧
    (self.last_state ≠ .SHREDDER →
      (rm_fmt_progress_format_text col session self max_len).percent = .fin 1) := by
  rw [format_text_percent]
  cases hl : self.last_state with
  | SHREDDER =>
    obtain ⟨h1, h2, h3⟩ := hsane hl
    refine ⟨?_, fun h => absurd rfl h⟩
    show Double.inUnit (shredder_percent session) = true
    rw [shredder_percent_eq session h1 h2 (by omega)]
    have hc : (0 : ℚ) < (session.total_filtered_files : ℚ) := by exact_mod_cast h1
    obtain ⟨y, hy, hy0, hy1⟩ := rnd_unit
      (((session.dup_counter + session.dup_group_counter : Nat) : ℚ)
        / (session.total_filtered_files : ℚ))
      (by positivity)
      (by rw [div_le_one hc]; exact_mod_cast h3)
    rw [hy]
    simp [Double.inUnit, hy0, hy1]
  | TRAVERSE => exact ⟨by simp [Double.inUnit], fun _ => rfl⟩
  | PREPROCESS => exact ⟨by simp [Double.inUnit], fun _ => rfl⟩
  | MERGE => exact ⟨by simp [Double.inUnit], fun _ => rfl⟩
  | INIT => rw [hl] at hst; simp [isRendering] at hst
  | SUMMARY => rw [hl] at hst; simp [isRendering] at hst

/-- Witness of C6 (amended): 40 duplicates in 10 groups among 200 files. -/
theorem C6_percent_range_witness :
    isRendering ({ PROGRESS_HANDLER_IMPL with last_state := .SHREDDER }
      : RmFmtHandlerProgress).last_state = true ∧
    (0 < sample.total_filtered_files ∧ sample.total_filtered_files < 2 ^ 53 ∧
      sample.dup_counter + sample.dup_group_counter ≤ sample.total_filtered_files) ∧
    Double.inUnit (rm_fmt_progress_format_text ansi sample
      { PROGRESS_HANDLER_IMPL with last_state := .SHREDDER } 54).percent = true :=
  ⟨rfl, by decide,
    (C6_percent_range ansi sample { PROGRESS_HANDLER_IMPL with last_state := .SHREDDER } 54
      rfl (fun _ => by decide)).1⟩

/-- C7 (as stated, refuted): one duplicate among three filtered files gives
the double nearest to one third, `6004799503160661 / 2 ^ 54`, not the
rational `1 / 3`. -/
theorem C7_counterexample :
    (rm_fmt_progress_format_text ansi
        { sample with dup_counter := 1, dup_group_counter := 0, total_filtered_files := 3 }
        { PROGRESS_HANDLER_IMPL with last_state := .SHREDDER } 54).percent
      = .fin (6004799503160661 / 18014398509481984) ∧
    (rm_fmt_progress_format_text ansi
        { sample with dup_counter := 1, dup_group_counter := 0, total_filtered_files := 3 }
        { PROGRESS_HANDLER_IMPL with last_state := .SHREDDER } 54).percent
      ≠ .fin (((1 + 0 : Nat) : ℚ) / ((3 : Nat) : ℚ)) := by
  simp only [format_text_percent]
  decide!

/-- C7 (amended): in the matching phase, with `total_filtered_files > 0` and
the counters below `2 ^ 53`, `rm_fmt_progress_format_text` sets the percentage
to the double nearest to `(dup_counter + dup_group_counter) /
total_filtered_files` (ties to even), which is the exact quotient whenever
that is a double; in Traverse, Preprocess and Merge it sets it to 1. -/
theorem C7_matching_percent (col : Colors) (session : RmSession)
    (self : RmFmtHandlerProgress) (max_len : Int)
    (hst : isRendering self.last_state = true)
    (hsane : self.last_state = .SHREDDER →
      0 < session.total_filtered_files ∧ session.total_filtered_files < 2 ^ 53 ∧
      session.dup_counter + session.dup_group_counter < 2 ^ 53) :
    (self.last_state = .SHREDDER →
      (rm_fmt_progress_format_text col session self max_len).percent
        = rnd (((session.dup_counter + session.dup_group_counter : Nat) : ℚ)
            / (session.total_filtered_files : ℚ)) ∧
      (rnd (((session.dup_counter + session.dup_group_counter : Nat) : ℚ)
            / (session.total_filtered_files : ℚ))
          = .fin (((session.dup_counter + session.dup_group_counter : Nat) : ℚ)
            / (session.total_filtered_files : ℚ)) →
        (rm_fmt_progress_format_text col session self max_len).percent
          = .fin (((session.dup_counter + session.dup_group_counter : Nat) : ℚ)
            / (session.total_filtered_files : ℚ)))) ∧
    (self.last_state ≠ .SHREDDER →
      (rm_fmt_progress_format_text col session self max_len).percent = .fin 1) := by
  rw [format_text_percent]
  cases hl : self.last_state with
  | SHREDDER =>
    obtain ⟨h1, h2, h3⟩ := hsane hl
    refine ⟨fun _ => ?_, fun h => absurd rfl h⟩
    have he := shredder_percent_eq session h1 h2 h3
    exact ⟨he, fun hr => he.trans hr⟩
  | TRAVERSE => exact ⟨fun h => (by cases h), fun _ => rfl⟩
  | PREPROCESS => exact ⟨fun h => (by cases h), fun _ => rfl⟩
  | MERGE => exact ⟨fun h => (by cases h), fun _ => rfl⟩
  | INIT => rw [hl] at hst; simp [isRendering] at hst
  | SUMMARY => rw [hl] at hst; simp [isRendering] at hst

/-- Witness of C7 (amended): 40 duplicates in 10 groups among 200 files give
the percentage 0.25. -/
theorem C7_matching_percent_witness :
    isRendering ({ PROGRESS_HANDLER_IMPL with last_state := .SHREDDER }
      : RmFmtHandlerProgress).last_state = true ∧
    (0 < sample.total_filtered_files ∧ sample.total_filtered_files < 2 ^ 53 ∧
      sample.dup_counter + sample.dup_group_counter < 2 ^ 53) ∧
    (rm_fmt_progress_format_text ansi sample
      { PROGRESS_HANDLER_IMPL with last_state := .SHREDDER } 54).percent = .fin (1 / 4) :=
  ⟨rfl, by decide,
    ((C7_matching_percent ansi sample { PROGRESS_HANDLER_IMPL with last_state := .SHREDDER } 54
      rfl (fun _ => by decide)).1 rfl).2 (by decide!) |>.trans (by decide!)⟩

/-! ## The bar -/

theorem bar_loop_eq (cells : Int) (n : Nat) :
    ∀ i0 : Int, bar_loop cells n i0
      = (List.range n).map (fun i : Nat => bar_cell cells (i0 + (i : Int))) := by
  induction n with
  | zero => intro i0; rfl
  | succ n ih =>
    intro i0
    rw [bar_loop, ih, List.range_succ_eq_map, List.map_cons, List.map_map]
    congr 1
    · simp
    · apply List.map_congr_left
      intro i _
      simp only [Function.comp, Nat.cast_succ]
      congr 1
      ring

theorem truncQ_of_nonneg (y : ℚ) (h : 0 ≤ y) : Double.truncQ y = ⌊y⌋ := by
  unfold Double.truncQ
  rw [if_pos (Rat.num_nonneg.mpr h), Rat.floor_def]

/-- C10 (as stated, refuted): for `percent = 0.5` and `width = 10` the bar is
`[#####>--]`, eight cells between the brackets, not `[#####>----]`; and for
the double nearest to one third and `width = 3` the product rounds to 1.0, so
the single cell is `#` although `floor (3 * percent) = 0`. -/
theorem C10_counterexample :
    rm_fmt_progress_print_bar (-2147483648)
      { PROGRESS_HANDLER_IMPL with percent := .fin (1 / 2) } 10 = "[#####>--]".data ∧
    rm_fmt_progress_print_bar (-2147483648)
      { PROGRESS_HANDLER_IMPL with percent := .fin (1 / 2) } 10 ≠ "[#####>----]".data ∧
    rnd (1 / 3) = .fin (6004799503160661 / 18014398509481984) ∧
    rm_fmt_progress_print_bar (-2147483648)
      { PROGRESS_HANDLER_IMPL with percent := rnd (1 / 3) } 3 = ['[', '#', ']'] ∧
    ⌊(3 : ℚ) * (6004799503160661 / 18014398509481984)⌋ = 0 := by
  refine ⟨by decide!, by decide!, by decide!, by decide!, ?_⟩
  rw [Int.floor_eq_iff]
  norm_num

/-- C10 (amended): `rm_fmt_progress_print_bar` writes `[`, then
`max 0 (width - 2)` cells, then `]`; with `filled` the integer part of the
double product `width * percent`, cell `i` is `#` if `i < filled`, `>` if
`i = filled` and `-` otherwise. For a percentage in `[0, 1]` and a width from
0 to `INT_MAX` the product is a finite value between 0 and `width`, `filled`
is its floor, and the product is `width * percent` itself whenever that is a
double. -/
theorem C10_bar (indefinite : Int) (self : RmFmtHandlerProgress) (width : Int) :
    rm_fmt_progress_print_bar indefinite self width
      = ['['] ++ (List.range (width - 2).toNat).map (fun i : Nat =>
            if (i : Int) < Double.toInt indefinite (Double.mul (Double.ofInt width) self.percent)
            then '#'
            else if (i : Int)
              = Double.toInt indefinite (Double.mul (Double.ofInt width) self.percent)
            then '>' else '-') ++ [']'] ∧
    (∀ q : ℚ, self.percent = .fin q → 0 ≤ q → q ≤ 1 → 0 ≤ width → width ≤ 2147483647 →
      ∃ y : ℚ, Double.mul (Double.ofInt width) self.percent = .fin y ∧
        0 ≤ y ∧ y ≤ width ∧
        Double.toInt indefinite (Double.mul (Double.ofInt width) self.percent) = ⌊y⌋ ∧
        (rnd ((width : ℚ) * q) = .fin ((width : ℚ) * q) → y = (width : ℚ) * q)) := by
  constructor
  · unfold rm_fmt_progress_print_bar
    simp only [bar_loop_eq, bar_cell, zero_add]
  · intro q hq h0 h1 hw0 hw1
    obtain ⟨n, hn⟩ : ∃ n : Nat, width = (n : Int) := ⟨width.toNat, by omega⟩
    subst hn
    have hn53 : n < 2 ^ 53 := by
      have : (2147483647 : Nat) < 2 ^ 53 := by norm_num
      omega
    have hof : Double.ofInt (n : Int) = .fin (n : ℚ) := by
      unfold Double.ofInt
      rw [Int.cast_natCast]
      exact rnd_natCast n hn53
    have hmul : Double.mul (Double.ofInt (n : Int)) self.percent = rnd ((n : ℚ) * q) := by
      rw [hof, hq]
      rfl
    have hn0 : (0 : ℚ) ≤ (n : ℚ) := Nat.cast_nonneg n
    obtain ⟨y, hy, hy0, hy1⟩ := rnd_le_nat ((n : ℚ) * q) n (mul_nonneg hn0 h0)
      (by nlinarith) hn53
    refine ⟨y, by rw [hmul, hy], hy0, by simpa using hy1, ?_, ?_⟩
    · rw [hmul, hy]
      unfold Double.toInt
      simp only [truncQ_of_nonneg y hy0]
      have hf0 : 0 ≤ ⌊y⌋ := Int.floor_nonneg.mpr hy0
      have hf1 : ⌊y⌋ ≤ (n : Int) := by
        have : ⌊y⌋ ≤ ⌊(n : ℚ)⌋ := Int.floor_le_floor hy1
        simpa using this
      rw [if_pos ⟨by omega, by omega⟩]
    · intro hr
      rw [Int.cast_natCast] at hr
      rw [hr] at hy
      cases hy
      simp

/-- Witness of C10 (amended): half of a bar of width 10. -/
theorem C10_bar_witness :
    ({ PROGRESS_HANDLER_IMPL with percent := .fin (1 / 2) } : RmFmtHandlerProgress).percent
      = .fin (1 / 2) ∧ (0 : ℚ) ≤ 1 / 2 ∧ (1 / 2 : ℚ) ≤ 1 ∧ (0 : Int) ≤ 10 ∧
    (10 : Int) ≤ 2147483647 ∧
    ∃ y : ℚ, Double.mul (Double.ofInt 10)
        ({ PROGRESS_HANDLER_IMPL with percent := .fin (1 / 2) } : RmFmtHandlerProgress).percent
        = .fin y ∧
      0 ≤ y ∧ y ≤ ((10 : Int) : ℚ) ∧
      Double.toInt 0 (Double.mul (Double.ofInt 10)
        ({ PROGRESS_HANDLER_IMPL with percent := .fin (1 / 2) } : RmFmtHandlerProgress).percent)
        = ⌊y⌋ ∧
      (rnd (((10 : Int) : ℚ) * (1 / 2)) = .fin (((10 : Int) : ℚ) * (1 / 2)) →
        y = ((10 : Int) : ℚ) * (1 / 2)) :=
  ⟨rfl, by norm_num, by norm_num, by decide, by decide,
    (C10_bar 0 { PROGRESS_HANDLER_IMPL with percent := .fin (1 / 2) } 10).2 (1 / 2) rfl
      (by norm_num) (by norm_num) (by decide) (by decide)⟩

/-! ## The colour-stripping loop -/

theorem strchr_cons (c x : Char) (xs : List Char) :
    strchr c (x :: xs) = if x = c then some 0 else (strchr c xs).map (· + 1) := rfl

theorem strchr_none_not_mem (c : Char) : ∀ s : List Char, strchr c s = none → c ∉ s := by
  intro s
  induction s with
  | nil => intro _; simp
  | cons x xs ih =>
    intro h
    rw [strchr_cons] at h
    by_cases hx : x = c
    · simp [hx] at h
    · simp only [hx, if_false, Option.map_eq_none'] at h
      simp [ih h, Ne.symm hx]

theorem strchr_some_mem_take (c : Char) :
    ∀ (s : List Char) (i : Nat), strchr c s = some i → c ∈ s.take (i + 1) := by
  intro s
  induction s with
  | nil => intro i h; simp [strchr] at h
  | cons x xs ih =>
    intro i h
    rw [strchr_cons] at h
    by_cases hx : x = c
    · simp [hx]
    · simp only [hx, if_false, Option.map_eq_some'] at h
      obtain ⟨k, hk, rfl⟩ := h
      simp [ih k hk]

theorem strchr_lt_length (c : Char) :
    ∀ (s : List Char) (i : Nat), strchr c s = some i → i < s.length := by
  intro s
  induction s with
  | nil => intro i h; simp [strchr] at h
  | cons x xs ih =>
    intro i h
    rw [strchr_cons] at h
    by_cases hx : x = c
    · simp only [hx, if_true, Option.some.injEq] at h
      subst h
      simp
    · simp only [hx, if_false, Option.map_eq_some'] at h
      obtain ⟨k, hk, rfl⟩ := h
      simpa using ih k hk

theorem mask_cons_true (c : Char) (cs : List Char) :
    printableMask true (c :: cs) = false :: printableMask (c != 'm') cs := rfl

theorem mask_cons_false (c : Char) (cs : List Char) :
    printableMask false (c :: cs)
      = if c = ESC ∧ 'm' ∈ cs then false :: printableMask true cs
        else true :: printableMask false cs := rfl

/-- Inside a span, everything up to the first `m` is not printable. -/
theorem mask_in_span : ∀ (cs : List Char) (i : Nat), strchr 'm' cs = some i →
    ∀ t : List Char, printableMask true (cs.take (i + 1) ++ t)
      = List.replicate (i + 1) false ++ printableMask false t := by
  intro cs
  induction cs with
  | nil => intro i h; simp [strchr] at h
  | cons x xs ih =>
    intro i h t
    rw [strchr_cons] at h
    by_cases hx : x = 'm'
    · simp only [hx, if_true, Option.some.injEq] at h
      subst h
      subst hx
      simp [printableMask]
    · simp only [hx, if_false, Option.map_eq_some'] at h
      obtain ⟨k, hk, rfl⟩ := h
      have := ih k hk t
      rw [List.take_succ_cons, List.cons_append, mask_cons_true,
        show (x != 'm') = true by simp [hx], this]
      rfl

/-- A span that starts at an escape byte and ends at the first `m`. -/
theorem mask_span (cs : List Char) (j : Nat) (h : strchr 'm' (ESC :: cs) = some j)
    (t : List Char) :
    printableMask false ((ESC :: cs).take (j + 1) ++ t)
      = List.replicate (j + 1) false ++ printableMask false t := by
  rw [strchr_cons] at h
  have hne : ¬ (ESC = 'm') := by decide
  simp only [hne, if_false, Option.map_eq_some'] at h
  obtain ⟨k, hk, rfl⟩ := h
  have hmem : 'm' ∈ cs.take (k + 1) ++ t :=
    List.mem_append_left _ (strchr_some_mem_take 'm' cs k hk)
  rw [List.take_succ_cons, List.cons_append, mask_cons_false, if_pos ⟨rfl, hmem⟩,
    mask_in_span cs k hk t]
  rfl

theorem mask_length : ∀ (s : List Char) (b : Bool), (printableMask b s).length = s.length := by
  intro s
  induction s with
  | nil => intro b; cases b <;> rfl
  | cons c cs ih =>
    intro b
    cases b
    · rw [mask_cons_false]
      split <;> simp [ih]
    · simp [mask_cons_true, ih]

theorem count_true_add_false (l : List Bool) : l.count true + l.count false = l.length := by
  induction l with
  | nil => rfl
  | cons b l ih => cases b <;> simp [List.count_cons] <;> omega

/-- What the loop sees at a character that does not start a span. -/
theorem jump_none (c : Char) (cs : List Char)
    (h : (if c = ESC then strchr 'm' (c :: cs) else none) = none) :
    (c = ESC → 'm' ∉ cs) ∧
    printableMask false (c :: cs) = true :: printableMask false cs := by
  have h1 : c = ESC → 'm' ∉ cs := by
    intro hc
    rw [if_pos hc] at h
    have := strchr_none_not_mem 'm' _ h
    exact fun hm => this (List.mem_cons_of_mem _ hm)
  refine ⟨h1, ?_⟩
  rw [mask_cons_false, if_neg]
  rintro ⟨hc, hm⟩
  exact h1 hc hm

/-- What the loop sees at an escape byte that starts a span. -/
theorem jump_some (c : Char) (cs : List Char) (j : Nat)
    (h : (if c = ESC then strchr 'm' (c :: cs) else none) = some j) :
    c = ESC ∧ strchr 'm' (ESC :: cs) = some j ∧ j + 1 ≤ (c :: cs).length := by
  by_cases hc : c = ESC
  · rw [if_pos hc] at h
    subst hc
    exact ⟨rfl, h, strchr_lt_length 'm' _ j h⟩
  · rw [if_neg hc] at h
    cases h

theorem strip_loop_cons (max_len : Int) (fuel : Nat) (c : Char) (cs : List Char)
    (text_iter text_len : Nat) :
    strip_loop max_len (fuel + 1) (c :: cs) text_iter text_len =
      match (if c = ESC then strchr 'm' (c :: cs) else none) with
      | some jump =>
        ((c :: cs).take (jump + 1) ++ (strip_loop max_len fuel ((c :: cs).drop (jump + 1))
            text_iter (((text_len : Int) - ((jump : Int) + 1)) % 4294967296).toNat).1,
          (strip_loop max_len fuel ((c :: cs).drop (jump + 1))
            text_iter (((text_len : Int) - ((jump : Int) + 1)) % 4294967296).toNat).2)
      | none =>
        if max_len ≤ (text_iter : Int) then ([], text_iter % 4294967296)
        else (c :: (strip_loop max_len fuel cs (text_iter + 1) text_len).1,
          (strip_loop max_len fuel cs (text_iter + 1) text_len).2) := rfl

/-- When the printable budget covers the rest of the string, the loop keeps
the string and subtracts the length of every span from `text_len`. -/
theorem strip_loop_keep (max_len : Int) : ∀ (fuel : Nat) (rest : List Char) (ti tl : Nat),
    rest.length ≤ fuel →
    (ti : Int) + ((printableMask false rest).count true : Int) ≤ max_len →
    (printableMask false rest).count false ≤ tl → tl < 4294967296 →
    strip_loop max_len fuel rest ti tl
      = (rest, tl - (printableMask false rest).count false) := by
  intro fuel
  induction fuel with
  | zero =>
    intro rest ti tl hlen _ _ _
    have : rest = [] := List.length_eq_zero.mp (by omega)
    subst this
    rfl
  | succ fuel ih =>
    intro rest ti tl hlen hbud hcf htl
    cases rest with
    | nil => rfl
    | cons c cs =>
      rw [strip_loop_cons]
      split
      · rename_i j hj
        obtain ⟨hc, hs, hjl⟩ := jump_some c cs j hj
        subst hc
        have hm := mask_span cs j hs ((ESC :: cs).drop (j + 1))
        rw [List.take_append_drop] at hm
        rw [hm, List.count_append] at hbud hcf
        have c1 : (List.replicate (j + 1) false).count true = 0 := by
          rw [List.count_replicate]; simp
        have c2 : (List.replicate (j + 1) false).count false = j + 1 := by
          rw [List.count_replicate]; simp
        rw [c1] at hbud
        rw [c2] at hcf
        have htl2 : (((tl : Int) - ((j : Int) + 1)) % 4294967296).toNat = tl - (j + 1) := by
          omega
        have hd : ((ESC :: cs).drop (j + 1)).length ≤ fuel := by
          rw [List.length_drop]
          simp only [List.length_cons] at hlen hjl ⊢
          omega
        rw [htl2, ih _ ti (tl - (j + 1)) hd (by simpa using hbud) (by omega) (by omega)]
        simp only [List.take_append_drop]
        rw [hm, List.count_append, c2]
        congr 1
        omega
      · rename_i hj
        obtain ⟨_, hm⟩ := jump_none c cs hj
        rw [hm] at hbud hcf
        simp only [List.count_cons_self, List.count_cons_of_ne (by decide : true ≠ false),
          Nat.cast_add, Nat.cast_one] at hbud hcf
        have hlt : ¬ max_len ≤ (ti : Int) := by omega
        rw [if_neg hlt, ih cs (ti + 1) tl (by simpa using hlen) (by push_cast; omega) hcf htl,
          hm]
        simp

/-- When the printable budget ends before the string does, the loop cuts the
string in front of a printable character, outside every span, after exactly
the budgeted number of printable characters, and stores that number. -/
theorem strip_loop_cut (max_len : Int) (hmax : max_len < 4294967296) :
    ∀ (fuel : Nat) (rest : List Char) (ti tl : Nat),
    rest.length ≤ fuel → (ti : Int) ≤ max_len →
    max_len < (ti : Int) + ((printableMask false rest).count true : Int) →
    ∃ (c : Char) (tail : List Char),
      rest = (strip_loop max_len fuel rest ti tl).1 ++ c :: tail ∧
      printableMask false rest
        = printableMask false (strip_loop max_len fuel rest ti tl).1
          ++ true :: printableMask false tail ∧
      (((printableMask false (strip_loop max_len fuel rest ti tl).1).count true : Nat) : Int)
        = max_len - ti ∧
      (((strip_loop max_len fuel rest ti tl).2 : Nat) : Int) = max_len := by
  intro fuel
  induction fuel with
  | zero =>
    intro rest ti tl hlen hle hlt
    have : rest = [] := List.length_eq_zero.mp (by omega)
    subst this
    simp [printableMask] at hlt
    omega
  | succ fuel ih =>
    intro rest ti tl hlen hle hlt
    cases rest with
    | nil =>
      simp [printableMask] at hlt
      omega
    | cons c cs =>
      rw [strip_loop_cons]
      split
      · rename_i j hj
        obtain ⟨hc, hs, hjl⟩ := jump_some c cs j hj
        subst hc
        have hm := mask_span cs j hs ((ESC :: cs).drop (j + 1))
        rw [List.take_append_drop] at hm
        have c1 : (List.replicate (j + 1) false).count true = 0 := by
          rw [List.count_replicate]; simp
        rw [hm, List.count_append, c1] at hlt
        have hd : ((ESC :: cs).drop (j + 1)).length ≤ fuel := by
          rw [List.length_drop]
          simp only [List.length_cons] at hlen hjl ⊢
          omega
        obtain ⟨c', tail, h1, h2, h3, h4⟩ := ih ((ESC :: cs).drop (j + 1)) ti
          (((tl : Int) - ((j : Int) + 1)) % 4294967296).toNat hd hle (by simpa using hlt)
        refine ⟨c', tail, ?_, ?_, ?_, h4⟩
        · dsimp only
          rw [List.append_assoc, ← h1, List.take_append_drop]
        · dsimp only
          rw [mask_span cs j hs, hm, h2, List.append_assoc]
        · dsimp only
          rw [mask_span cs j hs, List.count_append, c1]
          simpa using h3
      · rename_i hj
        obtain ⟨hnm, hm⟩ := jump_none c cs hj
        rw [hm] at hlt
        simp only [List.count_cons_self, Nat.cast_add, Nat.cast_one] at hlt
        by_cases hcut : max_len ≤ (ti : Int)
        · rw [if_pos hcut]
          refine ⟨c, cs, rfl, ?_, ?_, ?_⟩
          · simpa [printableMask] using hm
          · simp [printableMask]; omega
          · dsimp only
            omega
        · rw [if_neg hcut]
          obtain ⟨c', tail, h1, h2, h3, h4⟩ := ih cs (ti + 1) tl (by simpa using hlen)
            (by push_cast; omega) (by push_cast; omega)
          have hnm2 : ¬ (c = ESC ∧ 'm' ∈ (strip_loop max_len fuel cs (ti + 1) tl).1) := by
            rintro ⟨hc, hmem⟩
            apply hnm hc
            rw [h1]
            exact List.mem_append_left _ hmem
          refine ⟨c', tail, ?_, ?_, ?_, h4⟩
          · dsimp only
            rw [List.cons_append, ← h1]
          · dsimp only
            rw [hm, mask_cons_false, if_neg hnm2, h2]
            rfl
          · dsimp only
            rw [mask_cons_false, if_neg hnm2, List.count_cons_self]
            push_cast at h3 ⊢
            omega

/-- The text members after `rm_fmt_progress_format_text` when the message
fits the buffer: the result of the loop on the whole message. -/
theorem format_text_text (col : Colors) (session : RmSession)
    (self : RmFmtHandlerProgress) (max_len : Int)
    (hst : isRendering self.last_state = true)
    (hfit : (formatted col session self.last_state).length ≤ 1023) :
    (rm_fmt_progress_format_text col session self max_len).text_buf
      = (strip_loop max_len (formatted col session self.last_state).length
          (formatted col session self.last_state) 0
          (formatted col session self.last_state).length).1 ∧
    (rm_fmt_progress_format_text col session self max_len).text_len
      = (strip_loop max_len (formatted col session self.last_state).length
          (formatted col session self.last_state) 0
          (formatted col session self.last_state).length).2 := by
  have hsn : ∀ m : List Char, m.length ≤ 1023 →
      (g_snprintf 1024 m).1 = m ∧ (g_snprintf 1024 m).2 % 4294967296 = m.length := by
    intro m hm
    refine ⟨List.take_of_length_le (by simpa using hm), ?_⟩
    show m.length % 4294967296 = m.length
    omega
  unfold rm_fmt_progress_format_text
  cases hl : self.last_state with
  | TRAVERSE =>
    rw [hl] at hfit
    obtain ⟨e1, e2⟩ := hsn _ hfit
    simp only [formatted] at e1 e2 ⊢
    simp only [e1, e2, and_self]
  | PREPROCESS =>
    rw [hl] at hfit
    obtain ⟨e1, e2⟩ := hsn _ hfit
    simp only [formatted] at e1 e2 ⊢
    simp only [e1, e2, and_self]
  | SHREDDER =>
    rw [hl] at hfit
    obtain ⟨e1, e2⟩ := hsn _ hfit
    simp only [formatted] at e1 e2 ⊢
    simp only [e1, e2, and_self]
  | MERGE =>
    rw [hl] at hfit
    obtain ⟨e1, e2⟩ := hsn _ hfit
    simp only [formatted] at e1 e2 ⊢
    simp only [e1, e2, and_self]
  | INIT => rw [hl] at hst; simp [isRendering] at hst
  | SUMMARY => rw [hl] at hst; simp [isRendering] at hst

theorem printableLen_le_length (s : List Char) : printableLen s ≤ s.length := by
  unfold printableLen
  have := List.count_le_length true (printableMask false s)
  rwa [mask_length] at this

/-- With a budget that covers the message, the buffer keeps the message and
`text_len` is its printable length. -/
theorem format_text_keep (col : Colors) (session : RmSession)
    (self : RmFmtHandlerProgress) (max_len : Int)
    (hst : isRendering self.last_state = true)
    (hfit : (formatted col session self.last_state).length ≤ 1023)
    (hmax : (printableLen (formatted col session self.last_state) : Int) ≤ max_len) :
    (rm_fmt_progress_format_text col session self max_len).text_buf
      = formatted col session self.last_state ∧
    (rm_fmt_progress_format_text col session self max_len).text_len
      = printableLen (formatted col session self.last_state) := by
  obtain ⟨e1, e2⟩ := format_text_text col session self max_len hst hfit
  have hcnt := count_true_add_false (printableMask false (formatted col session self.last_state))
  rw [mask_length] at hcnt
  have hk := strip_loop_keep max_len (formatted col session self.last_state).length
    (formatted col session self.last_state) 0 (formatted col session self.last_state).length
    (le_refl _) (by simpa [printableLen] using hmax) (by omega) (by omega)
  rw [e1, e2, hk]
  refine ⟨rfl, ?_⟩
  show _ = printableLen (formatted col session self.last_state)
  unfold printableLen
  omega

/-! ## Printable length of the messages -/

theorem digitChar_ne_ESC : ∀ d : Nat, d < 10 → Nat.digitChar d ≠ ESC := by decide

theorem toDigitsCore_no_ESC : ∀ (fuel n : Nat) (ds : List Char), ESC ∉ ds →
    ESC ∉ Nat.toDigitsCore 10 fuel n ds := by
  intro fuel
  induction fuel with
  | zero => intro n ds h; simpa [Nat.toDigitsCore] using h
  | succ fuel ih =>
    intro n ds h
    have hd : ESC ∉ Nat.digitChar (n % 10) :: ds := by
      intro hm
      rcases List.mem_cons.mp hm with h1 | h1
      · exact digitChar_ne_ESC (n % 10) (Nat.mod_lt _ (by decide)) h1.symm
      · exact h h1
    unfold Nat.toDigitsCore
    dsimp only
    split
    · exact hd
    · exact ih _ _ hd

theorem fmt_LLU_no_ESC (n : Nat) : ESC ∉ fmt_LLU n :=
  toDigitsCore_no_ESC _ _ _ (by simp)

theorem fmt_2f_no_ESC (d : Double) : ESC ∉ fmt_2f d := by
  cases d with
  | fin q =>
    unfold fmt_2f
    have h1 := toDigitsCore_no_ESC
      (roundHalfEven (q.num.natAbs * 100) q.den / 100 + 1)
      (roundHalfEven (q.num.natAbs * 100) q.den / 100) [] (by simp)
    have h2 := digitChar_ne_ESC (roundHalfEven (q.num.natAbs * 100) q.den / 10 % 10)
      (Nat.mod_lt _ (by decide))
    have h3 := digitChar_ne_ESC (roundHalfEven (q.num.natAbs * 100) q.den % 10)
      (Nat.mod_lt _ (by decide))
    have h4 : ESC ≠ '.' := by decide
    have h5 : ESC ≠ '-' := by decide
    simp only [List.mem_append, List.mem_cons, List.mem_singleton, not_or, List.not_mem_nil,
      not_false_eq_true, and_true]
    refine ⟨⟨?_, h1⟩, h4, Ne.symm h2, Ne.symm h3⟩
    split
    · simpa using h5
    · simp
  | inf s => cases s <;> decide
  | nan => decide

/-- Text without an escape byte is printable. -/
theorem mask_plain : ∀ (s t : List Char), ESC ∉ s →
    printableMask false (s ++ t) = List.replicate s.length true ++ printableMask false t := by
  intro s
  induction s with
  | nil => intro t _; rfl
  | cons c cs ih =>
    intro t h
    have hc : c ≠ ESC := fun e => h (by simp [e])
    have hcs : ESC ∉ cs := fun e => h (List.mem_cons_of_mem _ e)
    rw [List.cons_append, mask_cons_false, if_neg (fun hh => hc hh.1), ih t hcs]
    rfl

theorem strchr_append (c : Char) : ∀ (s t : List Char) (i : Nat), strchr c s = some i →
    strchr c (s ++ t) = some i := by
  intro s
  induction s with
  | nil => intro t i h; simp [strchr] at h
  | cons x xs ih =>
    intro t i h
    rw [strchr_cons] at h
    rw [List.cons_append, strchr_cons]
    by_cases hx : x = c
    · simpa [hx] using h
    · simp only [hx, if_false, Option.map_eq_some'] at h ⊢
      obtain ⟨k, hk, rfl⟩ := h
      exact ⟨k, ih t k hk, rfl⟩

/-- A well-formed colour sequence is not printable, whatever follows it. -/
theorem mask_code (code t : List Char) (h : wellFormedCode code = true) :
    printableMask false (code ++ t)
      = List.replicate code.length false ++ printableMask false t := by
  cases code with
  | nil => rfl
  | cons c cs =>
    simp only [wellFormedCode, Bool.and_eq_true, beq_iff_eq] at h
    obtain ⟨hc, hs⟩ := h
    subst hc
    have hlen := strchr_lt_length 'm' cs _ hs
    have hs2 : strchr 'm' (ESC :: (cs ++ t)) = some (cs.length - 1 + 1) := by
      rw [strchr_cons, if_neg (by decide), strchr_append 'm' cs t _ hs]
      rfl
    have hm := mask_span (cs ++ t) (cs.length - 1 + 1) hs2 t
    have e : cs.length - 1 + 1 = cs.length := by omega
    rw [e] at hm
    have htk : (ESC :: (cs ++ t)).take (cs.length + 1) = ESC :: cs := by
      rw [List.take_succ_cons, List.take_left']
      rfl
    rw [htk] at hm
    exact hm

/-- The printable length of a message over well-formed colour sequences is
the length of the same message without colours. -/
theorem printableLen_formatted (col : Colors) (session : RmSession)
    (state : RmFmtProgressState) (hwf : wellFormedColors col = true) :
    printableLen (formatted col session state)
      = (formatted col { session with color := false } state).length := by
  simp only [wellFormedColors, Bool.and_eq_true] at hwf
  obtain ⟨⟨⟨hg, hr⟩, hy⟩, hre⟩ := hwf
  have wf : ∀ code, wellFormedCode (cstr code) = true →
      wellFormedCode (MAYBE_COLOR session code) = true := by
    intro code h
    unfold MAYBE_COLOR
    split
    · exact h
    · rfl
  have hG := wf _ hg
  have hR := wf _ hr
  have hY := wf _ hy
  have hRe := wf _ hre
  have off : ∀ code, MAYBE_COLOR { session with color := false } code = [] := fun _ => rfl
  have cT : ∀ (n : Nat) (l : List Bool),
      (List.replicate n true ++ l).count true = n + l.count true := by
    intro n l; rw [List.count_append, List.count_replicate]; simp
  have cF : ∀ (n : Nat) (l : List Bool),
      (List.replicate n false ++ l).count true = l.count true := by
    intro n l; rw [List.count_append, List.count_replicate]; simp
  have plainEnd : ∀ s : List Char, ESC ∉ s →
      (printableMask false s).count true = s.length := by
    intro s hs
    have := mask_plain s [] hs
    rw [List.append_nil] at this
    rw [this]
    simp [printableMask]
  unfold printableLen
  cases state with
  | TRAVERSE =>
    simp only [formatted, traverse_text, off, List.append_assoc, List.nil_append]
    generalize MAYBE_COLOR session col.GREEN = g at hG
    generalize MAYBE_COLOR session col.RED = r at hR
    generalize MAYBE_COLOR session col.RESET = z at hRe
    rw [mask_plain _ _ (by decide), cT, mask_code g _ hG, cF,
      mask_plain _ _ (fmt_LLU_no_ESC _), cT, mask_code z _ hRe, cF,
      mask_plain _ _ (by decide), cT, mask_code r _ hR, cF,
      mask_plain _ _ (fmt_LLU_no_ESC _), cT, mask_code z _ hRe, cF,
      mask_plain _ _ (by decide), cT, mask_code r _ hR, cF,
      mask_plain _ _ (fmt_LLU_no_ESC _), cT, mask_code z _ hRe, cF,
      plainEnd _ (by decide)]
    simp only [List.length_append]
  | PREPROCESS =>
    simp only [formatted, preprocess_text, off, List.append_assoc, List.nil_append]
    generalize MAYBE_COLOR session col.GREEN = g at hG
    generalize MAYBE_COLOR session col.RED = r at hR
    generalize MAYBE_COLOR session col.RESET = z at hRe
    rw [mask_plain _ _ (by decide), cT, mask_code g _ hG, cF,
      mask_plain _ _ (fmt_LLU_no_ESC _), cT, mask_code z _ hRe, cF,
      mask_plain _ _ (by decide), cT, mask_code r _ hR, cF,
      mask_plain _ _ (fmt_LLU_no_ESC _), cT, mask_code z _ hRe, cF,
      plainEnd _ (by decide)]
    simp only [List.length_append]
  | SHREDDER =>
    simp only [formatted, shredder_text, off, List.append_assoc, List.nil_append]
    have hgib : shred_gib { session with color := false } = shred_gib session := rfl
    generalize MAYBE_COLOR session col.GREEN = g at hG
    generalize MAYBE_COLOR session col.RED = r at hR
    generalize MAYBE_COLOR session col.YELLOW = y at hY
    generalize MAYBE_COLOR session col.RESET = z at hRe
    rw [mask_plain _ _ (by decide), cT, mask_code r _ hR, cF,
      mask_plain _ _ (fmt_LLU_no_ESC _), cT, mask_code z _ hRe, cF,
      mask_plain _ _ (by decide), cT, mask_code y _ hY, cF,
      mask_plain _ _ (fmt_LLU_no_ESC _), cT, mask_code z _ hRe, cF,
      mask_plain _ _ (by decide), cT, mask_code g _ hG, cF,
      mask_plain _ _ (fmt_2f_no_ESC _), cT, mask_code z _ hRe, cF,
      mask_plain _ _ (by decide), cT, mask_code g _ hG, cF,
      mask_plain _ _ (fmt_LLU_no_ESC _), cT, mask_code z _ hRe, cF,
      plainEnd _ (by decide), hgib]
    simp only [List.length_append]
  | MERGE =>
    simp only [formatted]
    exact plainEnd _ (by decide)
  | INIT => rfl
  | SUMMARY => rfl

/-- C8: in each of the four rendering phases, for every snapshot, colours on
or off, when the message fits the 1024-byte buffer and `max_len` is at least
its printable length, after `rm_fmt_progress_format_text` the buffer holds the
whole formatted message and `text_len` is the number of characters of
`text_buf` outside every span from an escape byte through its terminating
`m`; with well-formed colour sequences this is the length of the message
written without colours. -/
theorem C8_colour_stripping (col : Colors) (session : RmSession)
    (self : RmFmtHandlerProgress) (max_len : Int)
    (hst : isRendering self.last_state = true)
    (hfit : (formatted col session self.last_state).length ≤ 1023)
    (hmax : (printableLen (formatted col session self.last_state) : Int) ≤ max_len) :
    (rm_fmt_progress_format_text col session self max_len).text_buf
      = formatted col session self.last_state ∧
    (rm_fmt_progress_format_text col session self max_len).text_len
      = printableLen (rm_fmt_progress_format_text col session self max_len).text_buf ∧
    (wellFormedColors col = true →
      (rm_fmt_progress_format_text col session self max_len).text_len
        = (formatted col { session with color := false } self.last_state).length) := by
  obtain ⟨e1, e2⟩ := format_text_keep col session self max_len hst hfit hmax
  rw [e1]
  refine ⟨rfl, e2, fun hwf => ?_⟩
  rw [e2]
  exact printableLen_formatted col session self.last_state hwf

/-- Witness of C8: the coloured matching message, 120 bytes of which 72 are
printable, with room for 200 printable characters. -/
theorem C8_colour_stripping_witness :
    isRendering ({ PROGRESS_HANDLER_IMPL with last_state := .SHREDDER }
      : RmFmtHandlerProgress).last_state = true ∧
    (formatted ansi sample .SHREDDER).length = 120 ∧
    printableLen (formatted ansi sample .SHREDDER) = 72 ∧
    wellFormedColors ansi = true ∧
    (rm_fmt_progress_format_text ansi sample
        { PROGRESS_HANDLER_IMPL with last_state := .SHREDDER } 200).text_buf
      = formatted ansi sample .SHREDDER ∧
    (rm_fmt_progress_format_text ansi sample
        { PROGRESS_HANDLER_IMPL with last_state := .SHREDDER } 200).text_len
      = printableLen (rm_fmt_progress_format_text ansi sample
        { PROGRESS_HANDLER_IMPL with last_state := .SHREDDER } 200).text_buf ∧
    (wellFormedColors ansi = true →
      (rm_fmt_progress_format_text ansi sample
          { PROGRESS_HANDLER_IMPL with last_state := .SHREDDER } 200).text_len
        = (formatted ansi { sample with color := false } .SHREDDER).length) :=
  ⟨rfl, by decide!, by decide!, by decide,
    C8_colour_stripping ansi sample { PROGRESS_HANDLER_IMPL with last_state := .SHREDDER } 200
      rfl (by decide!) (by decide!)⟩

/-- C9: in each rendering phase, for every snapshot and colour setting whose
message fits the buffer and every `max_len ≥ 0`, after
`rm_fmt_progress_format_text` the printable length of the buffer is `text_len`
and is at most `max_len` and at most 1024; when `max_len` is smaller than the
printable length of the message, the buffer is the message cut in front of a
printable character `c`, the spans of the message are those of the buffer
followed by those of the discarded part (no span is cut), the buffer has
exactly `max_len` printable characters and `text_len = max_len`. -/
theorem C9_truncation (col : Colors) (session : RmSession)
    (self : RmFmtHandlerProgress) (max_len : Int)
    (hst : isRendering self.last_state = true)
    (hfit : (formatted col session self.last_state).length ≤ 1023)
    (h0 : 0 ≤ max_len) :
    ((printableLen (rm_fmt_progress_format_text col session self max_len).text_buf : Nat) : Int)
      ≤ max_len ∧
    printableLen (rm_fmt_progress_format_text col session self max_len).text_buf ≤ 1024 ∧
    (rm_fmt_progress_format_text col session self max_len).text_len
      = printableLen (rm_fmt_progress_format_text col session self max_len).text_buf ∧
    (max_len < (printableLen (formatted col session self.last_state) : Int) →
      ∃ (c : Char) (tail : List Char),
        formatted col session self.last_state
          = (rm_fmt_progress_format_text col session self max_len).text_buf ++ c :: tail ∧
        printableMask false (formatted col session self.last_state)
          = printableMask false (rm_fmt_progress_format_text col session self max_len).text_buf
            ++ true :: printableMask false tail ∧
        ((printableLen (rm_fmt_progress_format_text col session self max_len).text_buf : Nat)
          : Int) = max_len ∧
        (((rm_fmt_progress_format_text col session self max_len).text_len : Nat) : Int)
          = max_len) := by
  have hpl := printableLen_le_length (formatted col session self.last_state)
  by_cases hlt : max_len < (printableLen (formatted col session self.last_state) : Int)
  · obtain ⟨e1, e2⟩ := format_text_text col session self max_len hst hfit
    obtain ⟨c, tail, h1, h2, h3, h4⟩ := strip_loop_cut max_len (by omega)
      (formatted col session self.last_state).length
      (formatted col session self.last_state) 0 (formatted col session self.last_state).length
      (le_refl _) (by simpa using h0) (by simpa [printableLen] using hlt)
    rw [← e1] at h1 h2 h3
    rw [← e2] at h4
    have h3' : ((printableLen (rm_fmt_progress_format_text col session self max_len).text_buf
        : Nat) : Int) = max_len := by
      unfold printableLen
      simpa using h3
    refine ⟨by omega, by omega, by omega, fun _ => ⟨c, tail, h1, h2, h3', h4⟩⟩
  · obtain ⟨e1, e2⟩ := format_text_keep col session self max_len hst hfit (by omega)
    rw [e1, e2]
    exact ⟨by omega, by omega, rfl, fun h => absurd h hlt⟩

/-- Witness of C9: the coloured matching message cut to 20 printable
characters keeps the colour sequences around the first number whole. -/
theorem C9_truncation_witness :
    isRendering ({ PROGRESS_HANDLER_IMPL with last_state := .SHREDDER }
      : RmFmtHandlerProgress).last_state = true ∧
    (formatted ansi sample .SHREDDER).length ≤ 1023 ∧ (0 : Int) ≤ 20 ∧
    (20 : Int) < (printableLen (formatted ansi sample .SHREDDER) : Int) ∧
    (rm_fmt_progress_format_text ansi sample
        { PROGRESS_HANDLER_IMPL with last_state := .SHREDDER } 20).text_buf
      = "Matching files (".data ++ ESC :: "[31;01m40".data ++ ESC :: "[0m d".data ∧
    ∃ (c : Char) (tail : List Char),
      formatted ansi sample .SHREDDER
        = (rm_fmt_progress_format_text ansi sample
            { PROGRESS_HANDLER_IMPL with last_state := .SHREDDER } 20).text_buf ++ c :: tail ∧
      printableMask false (formatted ansi sample .SHREDDER)
        = printableMask false (rm_fmt_progress_format_text ansi sample
            { PROGRESS_HANDLER_IMPL with last_state := .SHREDDER } 20).text_buf
          ++ true :: printableMask false tail ∧
      ((printableLen (rm_fmt_progress_format_text ansi sample
          { PROGRESS_HANDLER_IMPL with last_state := .SHREDDER } 20).text_buf : Nat) : Int)
        = 20 ∧
      (((rm_fmt_progress_format_text ansi sample
          { PROGRESS_HANDLER_IMPL with last_state := .SHREDDER } 20).text_len : Nat) : Int)
        = 20 :=
  ⟨rfl, by decide!, by decide, by decide!, by decide!,
    (C9_truncation ansi sample { PROGRESS_HANDLER_IMPL with last_state := .SHREDDER } 20
      rfl (by decide!) (by decide)).2.2.2 (by decide!)⟩

/-! ## Throttling -/

/-- An event of the current phase (or the first event after `INIT`) passes
the throttle exactly when the counter is a multiple of the interval; the
counter is incremented modulo `2 ^ 32` either way. -/
theorem same_phase_step (col : Colors) (session : RmSession) (env : Env)
    (self : RmFmtHandlerProgress) (P : RmFmtProgressState)
    (hP : isRendering P = true) (hab : session.aborted = false)
    (hN : 1 ≤ self.update_interval)
    (hl : self.last_state = P ∨ self.last_state = .INIT) :
    ∃ r, rm_fmt_prog col session env self P = .ok r ∧
      r.1.update_interval = self.update_interval ∧
      r.1.update_counter = (self.update_counter + 1) % 4294967296 ∧
      (r.1.last_state = P ∨ r.1.last_state = .INIT) ∧
      redrawn r.2 = decide (self.update_counter % self.update_interval = 0) := by
  have h1 : P ≠ .INIT := by rintro rfl; simp [isRendering] at hP
  have h2 : P ≠ .SUMMARY := by rintro rfl; simp [isRendering] at hP
  have h3 : ¬ (self.last_state ≠ P ∧ self.last_state ≠ .INIT) := by
    rcases hl with h | h <;> simp [h]
  have h0 : self.update_interval ≠ 0 := by omega
  unfold rm_fmt_prog
  simp only [h1, h2, hab, h3, h0, if_false, false_or, Bool.false_eq_true]
  by_cases hc : self.update_counter % self.update_interval > 0
  · simp only [hc, if_true]
    refine ⟨_, rfl, rfl, rfl, hl, ?_⟩
    have : ¬ self.update_counter % self.update_interval = 0 := by omega
    simp [redrawn, this]
  · simp only [hc, if_false]
    refine ⟨_, rfl, ?_, ?_, ?_, ?_⟩
    · simp [redraw_frame]
    · simp [redraw_frame]
    · left; simp [redraw_frame]
    · have : self.update_counter % self.update_interval = 0 := by omega
      have hne := redraw_out_ne_nil col session env
        { self with update_counter := (self.update_counter + 1) % 4294967296 } P
      cases hq : (rm_fmt_prog_redraw col session env
        { self with update_counter := (self.update_counter + 1) % 4294967296 } P).2 with
      | nil => exact absurd hq hne
      | cons a l => simp [redrawn, this]

/-- A run of events of one phase: the event at position `i` redraws exactly
when the 32-bit counter, started at `c`, is a multiple of the interval. -/
theorem same_phase_run (col : Colors) (P : RmFmtProgressState) (N : Nat)
    (hP : isRendering P = true) (hN : 1 ≤ N) (evs : List Event)
    (hev : ∀ ev ∈ evs, ev.state = P ∧ ev.session.aborted = false) :
    ∀ self : RmFmtHandlerProgress, self.update_interval = N →
      (self.last_state = P ∨ self.last_state = .INIT) → self.update_counter < 4294967296 →
      ∃ r, run col evs self = .ok r ∧
        r.2.map redrawn = (List.range evs.length).map
          (fun i => decide ((self.update_counter + i) % 4294967296 % N = 0)) := by
  induction evs with
  | nil => intro self _ _ _; exact ⟨_, rfl, rfl⟩
  | cons ev evs ih =>
    intro self hi hl hc
    have hev0 := hev ev (List.mem_cons_self _ _)
    obtain ⟨r, hr, hri, hrc, hrl, hrd⟩ := same_phase_step col ev.session ev.env self P hP hev0.2
      (by omega) hl
    rw [← hev0.1] at hr
    have hlt : r.1.update_counter < 4294967296 := by rw [hrc]; omega
    obtain ⟨rs, hrs, hflags⟩ := ih (fun e he => hev e (List.mem_cons_of_mem _ he)) r.1
      (by rw [hri, hi]) hrl hlt
    refine ⟨(rs.1, r.2 :: rs.2), by simp [run, hr, hrs], ?_⟩
    simp only [List.map_cons, List.length_cons, List.range_succ_eq_map, List.map_map]
    congr 1
    · rw [hrd, hi]
      have : (self.update_counter + 0) % 4294967296 = self.update_counter := by omega
      rw [this]
    · rw [hflags]
      apply List.map_congr_left
      intro i _
      have : (r.1.update_counter + i) % 4294967296
          = (self.update_counter + (i + 1)) % 4294967296 := by rw [hrc]; omega
      simp [this]

/-- The flags of a run of `M + 1` events when the counter wraps at `M`. -/
theorem wrapped_flags (M N : Nat) :
    (List.range (M + 1)).map (fun i => decide (i % M % N = 0))
      = (List.range M).map (fun i => decide (i % N = 0)) ++ [true] := by
  rw [List.range_succ, List.map_append]
  have h1 : (List.range M).map (fun i => decide (i % M % N = 0))
      = (List.range M).map (fun i => decide (i % N = 0)) :=
    List.map_congr_left (fun i hi => by rw [Nat.mod_eq_of_lt (List.mem_range.mp hi)])
  rw [h1]
  simp

/-- Among the first `n` positions, `⌈n / N⌉` are multiples of `N`. -/
theorem count_multiples (N : Nat) (hN : 1 ≤ N) (n : Nat) :
    (((List.range n).map (fun i => decide (i % N = 0))).count true) = (n + N - 1) / N := by
  induction n with
  | zero =>
    have : (N - 1) / N = 0 := Nat.div_eq_of_lt (by omega)
    simp [this]
  | succ n ih =>
    rw [List.range_succ, List.map_append, List.count_append, ih]
    have hdm := Nat.div_add_mod n N
    have hlt := Nat.mod_lt n (show 0 < N by omega)
    have e1 : (n + 1 + N - 1) / N = n / N + 1 := by
      have : n + 1 + N - 1 = (n % N + N) + N * (n / N) := by omega
      rw [this, Nat.add_mul_div_left _ _ (show 0 < N by omega),
        Nat.add_div_right _ (show 0 < N by omega), Nat.div_eq_of_lt hlt]
      omega
    rw [e1]
    by_cases hz : n % N = 0
    · have e2 : (n + N - 1) / N = n / N := by
        have : n + N - 1 = (N - 1) + N * (n / N) := by omega
        rw [this, Nat.add_mul_div_left _ _ (show 0 < N by omega),
          Nat.div_eq_of_lt (show N - 1 < N by omega)]
        omega
      simp [hz, e2]
    · have e2 : (n + N - 1) / N = n / N + 1 := by
        have : n + N - 1 = (n % N - 1 + N) + N * (n / N) := by omega
        rw [this, Nat.add_mul_div_left _ _ (show 0 < N by omega),
          Nat.add_div_right _ (show 0 < N by omega),
          Nat.div_eq_of_lt (show n % N - 1 < N by omega)]
        omega
      simp [hz, e2]

/-- C1 (as stated, refuted): with interval 3, in a run of `2 ^ 32 + 1` events
of one phase started right after `INIT`, the 32-bit counter has wrapped to 0
at position `2 ^ 32`, which is not a multiple of 3, and that event redraws;
the run has one redraw more than `⌈count / 3⌉`. -/
theorem C1_counterexample :
    rm_fmt_prog ansi { sample with update_interval_str := some ['3'] } env80
        PROGRESS_HANDLER_IMPL .INIT = .ok (afterInit3, HIDE_CURSOR) ∧
    (run ansi (List.replicate 4294967297 mergeEv) afterInit3).map
        (fun r => (r.2.map redrawn)[4294967296]?) = .ok (some true) ∧
    4294967296 % 3 ≠ 0 ∧
    (run ansi (List.replicate 4294967297 mergeEv) afterInit3).map
        (fun r => decide ((r.2.map redrawn).count true = (4294967297 + 3 - 1) / 3))
      = .ok false := by
  obtain ⟨r, hr, hf⟩ := same_phase_run ansi .MERGE 3 rfl (by decide)
    (List.replicate 4294967297 mergeEv)
    (fun ev h => by rw [List.eq_of_mem_replicate h]; exact ⟨rfl, rfl⟩)
    afterInit3 rfl (Or.inr rfl) (by decide)
  have hc0 : afterInit3.update_counter = 0 := rfl
  simp only [List.length_replicate, hc0, Nat.zero_add] at hf
  refine ⟨rfl, ?_, by decide, ?_⟩
  · rw [hr]
    show Except.ok ((r.2.map redrawn)[4294967296]?) = _
    rw [hf, List.getElem?_map, List.getElem?_range (by decide)]
    rfl
  · rw [hr]
    have hsplit : (List.range 4294967297).map (fun i => decide (i % 4294967296 % 3 = 0))
        = (List.range 4294967296).map (fun i => decide (i % 3 = 0)) ++ [true] :=
      wrapped_flags 4294967296 3
    have hcnt := count_multiples 3 (by decide) 4294967296
    show Except.ok (decide ((r.2.map redrawn).count true = (4294967297 + 3 - 1) / 3)) = _
    rw [hf, hsplit, List.count_append, hcnt]
    rfl

/-- C1 (amended): for every interval `N ≥ 1` and every count between 1 and
`2 ^ 32`, when a renderer that has just handled `INIT` (counter 0, last phase
the sentinel) receives `count` consecutive events of one rendering phase with
the abort flag clear, the events that redraw are those at the positions
`0, N, 2N, ..`: `⌈count / N⌉` of them, the first event among them. -/
theorem C1_throttle (col : Colors) (P : RmFmtProgressState) (N : Nat) (evs : List Event)
    (self : RmFmtHandlerProgress)
    (hP : isRendering P = true) (hN : 1 ≤ N)
    (hlen1 : 1 ≤ evs.length) (hlen2 : evs.length ≤ 4294967296)
    (hev : ∀ ev ∈ evs, ev.state = P ∧ ev.session.aborted = false)
    (hc : self.update_counter = 0) (hl : self.last_state = .INIT)
    (hi : self.update_interval = N) :
    ∃ r, run col evs self = .ok r ∧ r.2.length = evs.length ∧
      r.2.map redrawn = (List.range evs.length).map (fun i => decide (i % N = 0)) ∧
      (r.2.map redrawn).count true = (evs.length + N - 1) / N ∧
      (r.2.map redrawn).head? = some true := by
  obtain ⟨r, hr, hf⟩ := same_phase_run col P N hP hN evs hev self hi (Or.inr hl)
    (by rw [hc]; decide)
  have hf2 : r.2.map redrawn = (List.range evs.length).map (fun i => decide (i % N = 0)) := by
    rw [hf]
    apply List.map_congr_left
    intro i hmem
    have : i < evs.length := List.mem_range.mp hmem
    rw [hc, Nat.zero_add, Nat.mod_eq_of_lt (show i < 4294967296 by omega)]
  have hlen : r.2.length = evs.length := by
    have := congrArg List.length hf2
    simpa using this
  refine ⟨r, hr, hlen, hf2, ?_, ?_⟩
  · rw [hf2]
    exact count_multiples N hN evs.length
  · rw [hf2]
    obtain ⟨n, hn⟩ : ∃ n, evs.length = n + 1 := ⟨evs.length - 1, by omega⟩
    rw [hn, List.range_succ_eq_map]
    simp

/-- Witness of C1 (amended): three `MERGE` events after `INIT`, interval 3. -/
theorem C1_throttle_witness :
    ∃ r, run ansi [mergeEv, mergeEv, mergeEv] afterInit3 = .ok r ∧
      r.2.length = [mergeEv, mergeEv, mergeEv].length ∧
      r.2.map redrawn
        = (List.range [mergeEv, mergeEv, mergeEv].length).map (fun i => decide (i % 3 = 0)) ∧
      (r.2.map redrawn).count true = ([mergeEv, mergeEv, mergeEv].length + 3 - 1) / 3 ∧
      (r.2.map redrawn).head? = some true :=
  C1_throttle ansi .MERGE 3 [mergeEv, mergeEv, mergeEv] afterInit3 rfl (by decide) (by decide)
    (by decide) (by decide) rfl rfl rfl

/-- C2: when the last phase is a rendering phase and an event of a different
rendering phase arrives with the abort flag clear, `rm_fmt_prog` redraws
whatever the counter and the interval are: it writes a line feed, then the bar
(which opens with `[`), then the text and the reset sequence with a carriage
return; afterwards the last phase is the new phase (the counter is left as it
was). -/
theorem C2_phase_change (col : Colors) (session : RmSession) (env : Env)
    (self : RmFmtHandlerProgress) (state : RmFmtProgressState)
    (hlast : isRendering self.last_state = true) (hstate : isRendering state = true)
    (hne : state ≠ self.last_state) (hab : session.aborted = false) :
    ∃ (s : RmFmtHandlerProgress) (w tw : Int) (cells : List Char),
      rm_fmt_prog col session env self state
        = .ok (s, [LF] ++ rm_fmt_progress_print_bar env.indefinite s w
            ++ rm_fmt_progress_print_text s tw ++ MAYBE_COLOR session col.RESET ++ [CR]) ∧
      rm_fmt_progress_print_bar env.indefinite s w = '[' :: cells ∧
      s.last_state = state ∧
      s.update_counter = self.update_counter ∧
      s.update_interval = self.update_interval := by
  have h1 : state ≠ .INIT := by rintro rfl; simp [isRendering] at hstate
  have h2 : state ≠ .SUMMARY := by rintro rfl; simp [isRendering] at hstate
  have h3 : self.last_state ≠ .INIT := by
    intro h; rw [h] at hlast; simp [isRendering] at hlast
  have h4 : self.last_state ≠ state := fun h => hne h.symm
  have hfr := redraw_frame col session env self state
  obtain ⟨w, tw, hsh⟩ := redraw_shape col session env self state
  refine ⟨(rm_fmt_prog_redraw col session env self state).1, w, tw,
    bar_loop (Double.toInt env.indefinite (Double.mul (Double.ofInt w)
      (rm_fmt_prog_redraw col session env self state).1.percent)) (w - 2).toNat 0 ++ [']'],
    ?_, ?_, hfr.2.2, hfr.1, hfr.2.1⟩
  · unfold rm_fmt_prog
    simp only [h1, h2, h3, h4, hab, if_false, false_or, Bool.false_eq_true, ne_eq,
      not_false_eq_true, and_self, if_true]
    rw [hsh]
    simp only [h2, if_false, List.append_nil, List.append_assoc,
      List.singleton_append, List.cons_append, List.nil_append]
  · simp only [rm_fmt_progress_print_bar, List.singleton_append, List.cons_append,
      List.nil_append]

/-- Witness of C2: a `SHREDDER` event arrives while the last phase is
`PREPROCESS`, with a counter (7) that the interval (15) would throttle. -/
theorem C2_phase_change_witness :
    ∃ (s : RmFmtHandlerProgress) (w tw : Int) (cells : List Char),
      rm_fmt_prog ansi sample env80
          { PROGRESS_HANDLER_IMPL with
            last_state := .PREPROCESS, update_counter := 7, update_interval := 15 } .SHREDDER
        = .ok (s, [LF] ++ rm_fmt_progress_print_bar env80.indefinite s w
            ++ rm_fmt_progress_print_text s tw ++ MAYBE_COLOR sample ansi.RESET ++ [CR]) ∧
      rm_fmt_progress_print_bar env80.indefinite s w = '[' :: cells ∧
      s.last_state = .SHREDDER ∧
      s.update_counter = ({ PROGRESS_HANDLER_IMPL with
            last_state := .PREPROCESS, update_counter := 7, update_interval := 15 }
          : RmFmtHandlerProgress).update_counter ∧
      s.update_interval = ({ PROGRESS_HANDLER_IMPL with
            last_state := .PREPROCESS, update_counter := 7, update_interval := 15 }
          : RmFmtHandlerProgress).update_interval :=
  C2_phase_change ansi sample env80
    { PROGRESS_HANDLER_IMPL with
      last_state := .PREPROCESS, update_counter := 7, update_interval := 15 } .SHREDDER
    rfl rfl (by decide) rfl

/-- C3 (as stated, refuted): a `TRAVERSE` event that reaches the static
`PROGRESS_HANDLER_IMPL` before any `INIT` event evaluates
`update_counter % update_interval` with `update_interval = 0`. -/
theorem C3_counterexample :
    run ansi [{ session := sample, state := .TRAVERSE, env := env80 }] PROGRESS_HANDLER_IMPL
      = .error .divisionByZero := by
  rfl

/-- C3 (amended): every finite sequence of events that starts with `INIT`,
delivered to the static instance, runs to the end without a division by zero
(the only failure of the embedding), every event producing its output; the
divisor `update_interval` is at least 1 from the `INIT` event on. -/
theorem C3_init_first_never_divides_by_zero (col : Colors) (ev : Event) (evs : List Event)
    (h : ev.state = .INIT) :
    ∃ r, run col (ev :: evs) PROGRESS_HANDLER_IMPL = .ok r ∧ r.2.length = (ev :: evs).length ∧
      ∀ k, ∃ rk, run col ((ev :: evs).take (k + 1)) PROGRESS_HANDLER_IMPL = .ok rk ∧
        1 ≤ rk.1.update_interval := by
  obtain ⟨r0, hr0, hpos⟩ := init_interval_pos col ev.session ev.env PROGRESS_HANDLER_IMPL
  rw [← h] at hr0
  have key : ∀ l : List Event, ∃ r, run col (ev :: l) PROGRESS_HANDLER_IMPL = .ok r ∧
      r.2.length = (ev :: l).length ∧ 1 ≤ r.1.update_interval := by
    intro l
    have aux : ∀ (l : List Event) (self : RmFmtHandlerProgress), 1 ≤ self.update_interval →
        ∃ r, run col l self = .ok r ∧ r.2.length = l.length ∧ 1 ≤ r.1.update_interval := by
      intro l
      induction l with
      | nil => intro self hs; exact ⟨_, rfl, rfl, hs⟩
      | cons e l ih =>
        intro self hs
        obtain ⟨r, hr, hp⟩ := prog_ok_of_interval_pos col e.session e.env self e.state hs
        obtain ⟨rs, hrs, hlen, hp2⟩ := ih r.1 hp
        exact ⟨(rs.1, r.2 :: rs.2), by simp [run, hr, hrs], by simp [hlen], hp2⟩
    obtain ⟨rs, hrs, hlen, hp2⟩ := aux l r0.1 hpos
    exact ⟨(rs.1, r0.2 :: rs.2), by simp [run, hr0, hrs], by simp [hlen], hp2⟩
  obtain ⟨r, hr, hlen, _⟩ := key evs
  refine ⟨r, hr, hlen, ?_⟩
  intro k
  obtain ⟨rk, hrk, _, hp⟩ := key (evs.take k)
  exact ⟨rk, by simpa [List.take_succ_cons] using hrk, hp⟩

/-- Witness of C3 (amended): `INIT` followed by a `TRAVERSE` event. -/
theorem C3_init_first_witness :
    (({ session := sample, state := .INIT, env := env80 } : Event).state = .INIT) ∧
    ∃ r, run ansi [{ session := sample, state := .INIT, env := env80 },
        { session := sample, state := .TRAVERSE, env := env80 }] PROGRESS_HANDLER_IMPL = .ok r ∧
      r.2.length = 2 ∧
      ∀ k, ∃ rk, run ansi (([{ session := sample, state := .INIT, env := env80 },
          { session := sample, state := .TRAVERSE, env := env80 }] : List Event).take (k + 1))
          PROGRESS_HANDLER_IMPL = .ok rk ∧ 1 ≤ rk.1.update_interval :=
  ⟨rfl, C3_init_first_never_divides_by_zero ansi
    { session := sample, state := .INIT, env := env80 }
    [{ session := sample, state := .TRAVERSE, env := env80 }] rfl⟩

/-- C4: an `INIT` event on the static instance writes the cursor-hide
sequence `ESC [ ? 2 5 l` and nothing else, changes no member but
`update_interval`, and leaves `update_interval` at least 1: 15 when the option
is absent, 15 when the configured text parses (base 10, reduced to 32 bits)
to zero, and the parsed value otherwise. -/
theorem C4_init (col : Colors) (session : RmSession) (env : Env) :
    ∃ n : Nat,
      rm_fmt_prog col session env PROGRESS_HANDLER_IMPL .INIT
        = .ok ({ PROGRESS_HANDLER_IMPL with update_interval := n },
            [ESC, '[', '?', '2', '5', 'l']) ∧
      1 ≤ n ∧
      (session.update_interval_str = none → n = 15) ∧
      (∀ str, session.update_interval_str = some str →
        (g_ascii_strtoull str % 4294967296 = 0 → n = 15) ∧
        (g_ascii_strtoull str % 4294967296 ≠ 0 → n = g_ascii_strtoull str % 4294967296)) := by
  unfold rm_fmt_prog
  simp only [if_true]
  cases hc : session.update_interval_str with
  | none =>
    refine ⟨15, ?_, by omega, fun _ => rfl, fun str h => by cases h⟩
    simp [PROGRESS_HANDLER_IMPL, HIDE_CURSOR]
  | some str =>
    by_cases hz : g_ascii_strtoull str % 4294967296 = 0
    · refine ⟨15, ?_, by omega, fun h => (by cases h), fun str2 h => ?_⟩
      · simp [PROGRESS_HANDLER_IMPL, HIDE_CURSOR, hz]
      · cases h
        exact ⟨fun _ => rfl, fun h2 => absurd hz h2⟩
    · refine ⟨g_ascii_strtoull str % 4294967296, ?_, by omega, fun h => (by cases h),
        fun str2 h => ?_⟩
      · simp [PROGRESS_HANDLER_IMPL, HIDE_CURSOR, hz]
      · cases h
        exact ⟨fun h2 => absurd h2 hz, fun _ => rfl⟩

/-- C5: a `SUMMARY` event, and any event other than `INIT` delivered while the
session is aborted, writes the cursor-show sequence `ESC [ ? 2 5 h` and
nothing else and leaves the user data unchanged; the call returns before the
redraw, so the line feed that the redraw appends for `SUMMARY` is never
written. -/
theorem C5_summary_or_abort (col : Colors) (session : RmSession) (env : Env)
    (self : RmFmtHandlerProgress) (state : RmFmtProgressState)
    (h : state = .SUMMARY ∨ (state ≠ .INIT ∧ session.aborted = true)) :
    rm_fmt_prog col session env self state = .ok (self, [ESC, '[', '?', '2', '5', 'h']) ∧
    ∀ r, rm_fmt_prog col session env self state = .ok r → LF ∉ r.2 := by
  have h1 : rm_fmt_prog col session env self state
      = .ok (self, [ESC, '[', '?', '2', '5', 'h']) := by
    unfold rm_fmt_prog
    rcases h with h | ⟨h, ha⟩
    · subst h
      simp [SHOW_CURSOR]
    · simp [h, ha, SHOW_CURSOR]
  refine ⟨h1, ?_⟩
  intro r hr
  rw [h1] at hr
  cases hr
  show LF ∉ [ESC, '[', '?', '2', '5', 'h']
  decide

/-- Witness of C5: the abort flag is raised in the middle of the matching
phase. -/
theorem C5_summary_or_abort_witness :
    (RmFmtProgressState.SHREDDER = .SUMMARY ∨
      (RmFmtProgressState.SHREDDER ≠ .INIT ∧ ({ sample with aborted := true }).aborted = true)) ∧
    (rm_fmt_prog ansi { sample with aborted := true } env80
        { PROGRESS_HANDLER_IMPL with last_state := .SHREDDER, update_interval := 15 } .SHREDDER
      = .ok ({ PROGRESS_HANDLER_IMPL with last_state := .SHREDDER, update_interval := 15 },
          [ESC, '[', '?', '2', '5', 'h']) ∧
    ∀ r, rm_fmt_prog ansi { sample with aborted := true } env80
        { PROGRESS_HANDLER_IMPL with last_state := .SHREDDER, update_interval := 15 } .SHREDDER
      = .ok r → LF ∉ r.2) :=
  ⟨Or.inr ⟨by decide, rfl⟩,
    C5_summary_or_abort ansi { sample with aborted := true } env80
      { PROGRESS_HANDLER_IMPL with last_state := .SHREDDER, update_interval := 15 } .SHREDDER
      (Or.inr ⟨by decide, rfl⟩)⟩

/-! ## The counter across phases -/

/-- An event of a new rendering phase, after a rendering phase, redraws behind
a line feed and leaves the counter alone. -/
theorem phase_change_step (col : Colors) (session : RmSession) (env : Env)
    (self : RmFmtHandlerProgress) (state : RmFmtProgressState)
    (hlast : isRendering self.last_state = true) (hstate : isRendering state = true)
    (hne : state ≠ self.last_state) (hab : session.aborted = false) :
    rm_fmt_prog col session env self state
      = .ok ((rm_fmt_prog_redraw col session env self state).1,
          LF :: (rm_fmt_prog_redraw col session env self state).2) := by
  have h1 : state ≠ .INIT := by rintro rfl; simp [isRendering] at hstate
  have h2 : state ≠ .SUMMARY := by rintro rfl; simp [isRendering] at hstate
  have h3 : self.last_state ≠ .INIT := by
    intro h; rw [h] at hlast; simp [isRendering] at hlast
  have h4 : self.last_state ≠ state := fun h => hne h.symm
  unfold rm_fmt_prog
  simp only [h1, h2, h3, h4, hab, if_false, false_or, Bool.false_eq_true, ne_eq,
    not_false_eq_true, and_self, if_true]

/-- C18: with `update_interval ≥ 1`, an event of the current rendering phase
(abort flag clear) that meets `update_counter % update_interval ≠ 0` writes
nothing and changes nothing but `update_counter`, which becomes
`(update_counter + 1) mod 2 ^ 32`. -/
theorem C18_throttled_silent (col : Colors) (session : RmSession) (env : Env)
    (self : RmFmtHandlerProgress) (state : RmFmtProgressState)
    (hN : 1 ≤ self.update_interval) (hst : isRendering state = true)
    (hl : self.last_state = state) (hab : session.aborted = false)
    (hc : self.update_counter % self.update_interval ≠ 0) :
    rm_fmt_prog col session env self state
      = .ok ({ self with update_counter := (self.update_counter + 1) % 4294967296 }, []) := by
  have h1 : state ≠ .INIT := by rintro rfl; simp [isRendering] at hst
  have h2 : state ≠ .SUMMARY := by rintro rfl; simp [isRendering] at hst
  have h0 : self.update_interval ≠ 0 := by omega
  have h5 : self.update_counter % self.update_interval > 0 := by omega
  unfold rm_fmt_prog
  simp only [h1, h2, hab, hl, h0, h5, if_false, false_or, Bool.false_eq_true, ne_eq,
    not_true_eq_false, false_and, if_true]

/-- Witness of C18: the eighth `SHREDDER` event in a row with interval 15. -/
theorem C18_throttled_silent_witness :
    rm_fmt_prog ansi sample env80
        { PROGRESS_HANDLER_IMPL with
          last_state := .SHREDDER, update_counter := 7, update_interval := 15 } .SHREDDER
      = .ok ({ ({ PROGRESS_HANDLER_IMPL with
          last_state := .SHREDDER, update_counter := 7, update_interval := 15 }
          : RmFmtHandlerProgress) with update_counter := (7 + 1) % 4294967296 }, []) :=
  C18_throttled_silent ansi sample env80
    { PROGRESS_HANDLER_IMPL with
      last_state := .SHREDDER, update_counter := 7, update_interval := 15 } .SHREDDER
    (by decide) rfl rfl rfl (by decide)

/-- C14 (as stated, refuted): with interval 3, after `INIT` and three
`PREPROCESS` events the first `SHREDDER` event after the phase entry redraws
at once, while after `INIT` and one `PREPROCESS` event it is the third one
that redraws: the counter is not restarted by the phase change. -/
theorem C14_counterexample :
    (run ansi [initEv3, preEv, preEv, preEv, shrEv, shrEv, shrEv, shrEv]
        PROGRESS_HANDLER_IMPL).toOption.map (fun r => (r.1.update_counter, r.2.map redrawn))
      = some (6, [true, true, false, false, true, true, false, false]) ∧
    (run ansi [initEv3, preEv, shrEv, shrEv, shrEv, shrEv]
        PROGRESS_HANDLER_IMPL).toOption.map (fun r => (r.1.update_counter, r.2.map redrawn))
      = some (4, [true, true, true, false, false, true]) := by
  constructor <;> decide!

/-- C14 (amended): `update_counter` counts, modulo `2 ^ 32`, the events that
went through the throttle since the start; an event whose rendering phase
differs from the last rendering phase redraws and leaves the counter as it
is, and in the run of events of the new phase that follows, the event at
position `i` redraws exactly when `(c + i) mod 2 ^ 32` is a multiple of the
interval, `c` being the counter at the phase change. -/
theorem C14_counter_across_phases (col : Colors) (P : RmFmtProgressState) (N : Nat)
    (ev : Event) (evs : List Event) (self : RmFmtHandlerProgress)
    (hP : isRendering P = true) (hlast : isRendering self.last_state = true)
    (hne : P ≠ self.last_state) (hN : 1 ≤ N) (hi : self.update_interval = N)
    (hc : self.update_counter < 4294967296)
    (hev0 : ev.state = P ∧ ev.session.aborted = false)
    (hev : ∀ e ∈ evs, e.state = P ∧ e.session.aborted = false) :
    (∃ r0, rm_fmt_prog col ev.session ev.env self ev.state = .ok r0 ∧
      redrawn r0.2 = true ∧ r0.1.update_counter = self.update_counter) ∧
    ∃ r, run col (ev :: evs) self = .ok r ∧
      r.2.map redrawn = true :: (List.range evs.length).map
        (fun i => decide ((self.update_counter + i) % 4294967296 % N = 0)) := by
  have hstep := phase_change_step col ev.session ev.env self P hlast hP hne hev0.2
  rw [← hev0.1] at hstep
  have hfr := redraw_frame col ev.session ev.env self ev.state
  obtain ⟨r, hr, hf⟩ := same_phase_run col P N hP hN evs hev
    (rm_fmt_prog_redraw col ev.session ev.env self ev.state).1
    (by rw [hfr.2.1, hi]) (Or.inl (by rw [hfr.2.2, hev0.1])) (by rw [hfr.1]; exact hc)
  rw [hfr.1] at hf
  refine ⟨⟨_, hstep, by simp [redrawn], hfr.1⟩,
    (r.1, (LF :: (rm_fmt_prog_redraw col ev.session ev.env self ev.state).2) :: r.2), ?_, ?_⟩
  · simp [run, hstep, hr]
  · simp [hf, redrawn]

/-- Witness of C14 (amended): the matching phase entered with the counter at
1 and interval 3. -/
theorem C14_counter_across_phases_witness :
    (∃ r0, rm_fmt_prog ansi shrEv.session shrEv.env
        { PROGRESS_HANDLER_IMPL with
          last_state := .PREPROCESS, update_counter := 1, update_interval := 3 } shrEv.state
        = .ok r0 ∧ redrawn r0.2 = true ∧
      r0.1.update_counter = ({ PROGRESS_HANDLER_IMPL with
          last_state := .PREPROCESS, update_counter := 1, update_interval := 3 }
          : RmFmtHandlerProgress).update_counter) ∧
    ∃ r, run ansi (shrEv :: [shrEv, shrEv, shrEv])
        { PROGRESS_HANDLER_IMPL with
          last_state := .PREPROCESS, update_counter := 1, update_interval := 3 } = .ok r ∧
      r.2.map redrawn = true :: (List.range [shrEv, shrEv, shrEv].length).map
        (fun i => decide ((({ PROGRESS_HANDLER_IMPL with
          last_state := .PREPROCESS, update_counter := 1, update_interval := 3 }
          : RmFmtHandlerProgress).update_counter + i) % 4294967296 % 3 = 0)) :=
  C14_counter_across_phases ansi .SHREDDER 3 shrEv [shrEv, shrEv, shrEv]
    { PROGRESS_HANDLER_IMPL with
      last_state := .PREPROCESS, update_counter := 1, update_interval := 3 }
    rfl rfl (by decide) (by decide) rfl (by decide) ⟨rfl, rfl⟩ (by decide)

/-! ## The default case and the Merge message -/

/-- Outside the four rendering phases `rm_fmt_progress_format_text` clears the
percentage and the buffer and leaves every other member, `text_len` included,
as it was. -/
theorem format_text_default (col : Colors) (session : RmSession)
    (self : RmFmtHandlerProgress) (max_len : Int)
    (hst : isRendering self.last_state = false) :
    rm_fmt_progress_format_text col session self max_len
      = { self with percent := .fin 0, text_buf := [] } := by
  unfold rm_fmt_progress_format_text
  cases hl : self.last_state with
  | INIT => rfl
  | SUMMARY => rfl
  | TRAVERSE => rw [hl] at hst; simp [isRendering] at hst
  | PREPROCESS => rw [hl] at hst; simp [isRendering] at hst
  | SHREDDER => rw [hl] at hst; simp [isRendering] at hst
  | MERGE => rw [hl] at hst; simp [isRendering] at hst

/-- C16, counterexample: with the last phase `SUMMARY` and the members left by
an earlier matching line (72 printable characters),
`rm_fmt_progress_format_text` empties the buffer and zeroes the percentage but
`text_len` is still 72, not the printable length 0 of the empty text. -/
theorem C16_counterexample :
    rm_fmt_progress_format_text ansi sample
        { PROGRESS_HANDLER_IMPL with
          last_state := .SUMMARY, percent := .fin (1 / 4),
          text_buf := formatted ansi sample .SHREDDER, text_len := 72 } 54
      = { PROGRESS_HANDLER_IMPL with
          last_state := .SUMMARY, percent := .fin 0, text_buf := [], text_len := 72 } ∧
    printableLen (rm_fmt_progress_format_text ansi sample
        { PROGRESS_HANDLER_IMPL with
          last_state := .SUMMARY, percent := .fin (1 / 4),
          text_buf := formatted ansi sample .SHREDDER, text_len := 72 } 54).text_buf = 0 ∧
    (rm_fmt_progress_format_text ansi sample
        { PROGRESS_HANDLER_IMPL with
          last_state := .SUMMARY, percent := .fin (1 / 4),
          text_buf := formatted ansi sample .SHREDDER, text_len := 72 } 54).text_len = 72 := by
  refine ⟨?_, ?_, ?_⟩ <;> decide!

/-- C12 (the code at the failing input): in the Merge phase with room for 54
printable characters the buffer holds the 31 bytes of the format, the literal
followed by a line feed, and `text_len` is 31; with `max_len = 30` the line
feed is cut off. -/
theorem C12_merge_message_has_line_feed :
    (rm_fmt_progress_format_text ansi sample
        { PROGRESS_HANDLER_IMPL with last_state := .MERGE } 54).text_buf
      = "Merging files into directories".data ++ [LF] ∧
    (rm_fmt_progress_format_text ansi sample
        { PROGRESS_HANDLER_IMPL with last_state := .MERGE } 54).text_len = 31 ∧
    (rm_fmt_progress_format_text ansi sample
        { PROGRESS_HANDLER_IMPL with last_state := .MERGE } 54).percent = .fin 1 ∧
    (rm_fmt_progress_format_text ansi sample
        { PROGRESS_HANDLER_IMPL with last_state := .MERGE } 30).text_buf
      = "Merging files into directories".data ∧
    (rm_fmt_progress_format_text ansi sample
        { PROGRESS_HANDLER_IMPL with last_state := .MERGE } 30).text_len = 30 := by
  refine ⟨?_, ?_, ?_, ?_, ?_⟩ <;> decide!

/-- C13 (the code at the failing input): on an 80-column terminal a `MERGE`
event that redraws while the last phase is already `MERGE` writes a line feed
(the one that ends the Merge message), and a `MERGE` event that follows the
matching phase writes two. -/
theorem C13_merge_line_feed_mid_phase :
    (rm_fmt_prog ansi sample env80
        { PROGRESS_HANDLER_IMPL with
          last_state := .MERGE, update_counter := 15, update_interval := 15 }
        .MERGE).toOption.map (fun r => r.2.count LF) = some 1 ∧
    (rm_fmt_prog ansi sample env80
        { PROGRESS_HANDLER_IMPL with
          last_state := .MERGE, update_counter := 15, update_interval := 15 }
        .MERGE).toOption.map (fun r => r.2)
      = some ("[######################]".data ++ List.replicate 24 ' '
          ++ "Merging files into directories".data ++ [LF] ++ ESC :: "[0m".data ++ [CR]) ∧
    (rm_fmt_prog ansi sample env80
        { PROGRESS_HANDLER_IMPL with
          last_state := .SHREDDER, update_counter := 15, update_interval := 15 }
        .MERGE).toOption.map (fun r => r.2.count LF) = some 2 := by
  refine ⟨?_, ?_, ?_⟩ <;> decide!

/-! ## The redrawn line -/

/-- The user data after a redraw: the formatting of the text for the current
width, applied to the data with the new window size and phase. -/
theorem redraw_fst (col : Colors) (session : RmSession) (env : Env)
    (self : RmFmtHandlerProgress) (state : RmFmtProgressState) :
    (rm_fmt_prog_redraw col session env self state).1
      = rm_fmt_progress_format_text col session
          { (match env.ioctl with
              | some ws => { self with terminal := ws }
              | none => self) with last_state := state }
          (text_width env.indefinite (columns env self)) := by
  unfold rm_fmt_prog_redraw text_width columns
  cases env.ioctl <;> rfl

theorem redraw_columns (col : Colors) (session : RmSession) (env : Env)
    (self : RmFmtHandlerProgress) (state : RmFmtProgressState) :
    (rm_fmt_prog_redraw col session env self state).1.terminal.ws_col = columns env self := by
  rw [redraw_fst, (format_text_frame _ _ _ _).2.2.2]
  unfold columns
  cases env.ioctl <;> rfl

/-- The bytes of a redraw in terms of the two widths. -/
theorem redraw_snd (col : Colors) (session : RmSession) (env : Env)
    (self : RmFmtHandlerProgress) (state : RmFmtProgressState) :
    (rm_fmt_prog_redraw col session env self state).2
      = rm_fmt_progress_print_bar env.indefinite
          (rm_fmt_prog_redraw col session env self state).1
          (bar_width env.indefinite (columns env self))
        ++ rm_fmt_progress_print_text (rm_fmt_prog_redraw col session env self state).1
          (text_width env.indefinite (columns env self))
        ++ (MAYBE_COLOR session col.RESET ++ [CR])
        ++ (if state = .SUMMARY then [LF] else []) := by
  have hc := redraw_columns col session env self state
  unfold columns at hc ⊢
  unfold text_width bar_width
  unfold rm_fmt_prog_redraw at hc ⊢
  cases hio : env.ioctl with
  | none =>
    simp only [hio] at hc ⊢
    rw [hc]
  | some ws =>
    simp only [hio] at hc ⊢
    rw [hc]

/-- An event of the current phase (or the first one after `INIT`) whose
counter is a multiple of the interval redraws. -/
theorem same_phase_redraw (col : Colors) (session : RmSession) (env : Env)
    (self : RmFmtHandlerProgress) (state : RmFmtProgressState)
    (hst : isRendering state = true) (hab : session.aborted = false)
    (hN : 1 ≤ self.update_interval)
    (hl : self.last_state = state ∨ self.last_state = .INIT)
    (hc : self.update_counter % self.update_interval = 0) :
    rm_fmt_prog col session env self state
      = .ok (rm_fmt_prog_redraw col session env
          { self with update_counter := (self.update_counter + 1) % 4294967296 } state) := by
  have h1 : state ≠ .INIT := by rintro rfl; simp [isRendering] at hst
  have h2 : state ≠ .SUMMARY := by rintro rfl; simp [isRendering] at hst
  have h3 : ¬ (self.last_state ≠ state ∧ self.last_state ≠ .INIT) := by
    rcases hl with h | h <;> simp [h]
  have h0 : self.update_interval ≠ 0 := by omega
  have h5 : ¬ self.update_counter % self.update_interval > 0 := by omega
  unfold rm_fmt_prog
  simp only [h1, h2, hab, h3, h0, h5, if_false, false_or, Bool.false_eq_true]

/-- C11 (the code at the failing input): a fresh renderer whose window-size
query fails keeps `ws_col = 0`, so `text_width` is -1; the first `TRAVERSE`
event after `INIT` then cuts the text to nothing and the comparison and the
subtraction of `rm_fmt_progress_print_text`, done on unsigned values, make it
write 4294967295 spaces. -/
theorem C11_zero_columns_padding :
    rm_fmt_prog ansi sample envNoTty PROGRESS_HANDLER_IMPL .INIT
      = .ok (afterInit15, HIDE_CURSOR) ∧
    text_width envNoTty.indefinite (columns envNoTty afterInit15) = -1 ∧
    rm_fmt_prog ansi sample envNoTty afterInit15 .TRAVERSE
      = .ok ({ afterInit15 with
            percent := .fin 1, update_counter := 1, last_state := .TRAVERSE },
          ['[', ']'] ++ List.replicate 4294967295 ' ' ++ (ESC :: "[0m".data ++ [CR])) := by
  refine ⟨rfl, by decide!, ?_⟩
  rw [same_phase_redraw ansi sample envNoTty afterInit15 .TRAVERSE rfl rfl (by decide)
    (Or.inr rfl) (by decide)]
  have h1 : (rm_fmt_prog_redraw ansi sample envNoTty
      { afterInit15 with update_counter := (afterInit15.update_counter + 1) % 4294967296 }
      .TRAVERSE).1
      = { afterInit15 with
            percent := .fin 1, update_counter := 1, last_state := .TRAVERSE } := by
    decide!
  have h2 := redraw_snd ansi sample envNoTty
      { afterInit15 with update_counter := (afterInit15.update_counter + 1) % 4294967296 }
      .TRAVERSE
  have htw : text_width envNoTty.indefinite (columns envNoTty
      { afterInit15 with update_counter := (afterInit15.update_counter + 1) % 4294967296 })
      = -1 := by decide!
  have hb : rm_fmt_progress_print_bar envNoTty.indefinite
      { afterInit15 with percent := .fin 1, update_counter := 1, last_state := .TRAVERSE }
      (bar_width envNoTty.indefinite (columns envNoTty
        { afterInit15 with update_counter := (afterInit15.update_counter + 1) % 4294967296 }))
      = ['[', ']'] := by decide!
  have hp : rm_fmt_progress_print_text
      { afterInit15 with percent := .fin 1, update_counter := 1, last_state := .TRAVERSE } (-1)
      = List.replicate 4294967295 ' ' := by
    unfold rm_fmt_progress_print_text
    have e1 : (({ afterInit15 with
        percent := .fin 1, update_counter := 1, last_state := .TRAVERSE }
        : RmFmtHandlerProgress).text_len : Int) = 0 := rfl
    have e2 : ({ afterInit15 with
        percent := .fin 1, update_counter := 1, last_state := .TRAVERSE }
        : RmFmtHandlerProgress).text_buf = [] := rfl
    rw [e1, e2, if_pos (by decide), List.append_nil]
    have e3 : ((-1 - 0 : Int) % 4294967296).toNat = 4294967295 := by decide
    rw [e3]
  rw [h1, htw, hb, hp] at h2
  have h3 : (if RmFmtProgressState.TRAVERSE = RmFmtProgressState.SUMMARY then [LF] else [])
      = ([] : List Char) := rfl
  have h4 : MAYBE_COLOR sample ansi.RESET = ESC :: "[0m".data := by decide
  rw [h3, h4, List.append_nil] at h2
  rw [← h1, ← h2]

/-! ## Colours disabled -/

/-- On a string without escape byte the loop keeps the characters that the
budget allows and, when it cuts, stores their number. -/
theorem strip_loop_plain (max_len : Int) : ∀ (fuel : Nat) (rest : List Char) (ti tl : Nat),
    rest.length ≤ fuel → ESC ∉ rest →
    strip_loop max_len fuel rest ti tl
      = (rest.take (max_len - ti).toNat,
          if rest.length ≤ (max_len - ti).toNat then tl
          else (ti + (max_len - ti).toNat) % 4294967296) := by
  intro fuel
  induction fuel with
  | zero =>
    intro rest ti tl hlen _
    have : rest = [] := List.length_eq_zero.mp (by omega)
    subst this
    simp [strip_loop]
  | succ fuel ih =>
    intro rest ti tl hlen hesc
    cases rest with
    | nil => simp [strip_loop]
    | cons c cs =>
      have hc : c ≠ ESC := fun e => hesc (by simp [e])
      have hcs : ESC ∉ cs := fun e => hesc (List.mem_cons_of_mem _ e)
      rw [strip_loop_cons, if_neg hc]
      dsimp only
      by_cases hcut : max_len ≤ (ti : Int)
      · have e0 : (max_len - (ti : Int)).toNat = 0 := by omega
        rw [if_pos hcut, e0]
        simp
      · rw [if_neg hcut, ih cs (ti + 1) tl (by simpa using hlen) hcs]
        obtain ⟨k, hk⟩ : ∃ k : Nat, (max_len - (ti : Int)).toNat = k + 1 :=
          ⟨(max_len - (ti : Int)).toNat - 1, by omega⟩
        have e1 : (max_len - ((ti + 1 : Nat) : Int)).toNat = k := by omega
        rw [hk, e1, List.take_succ_cons]
        congr 1
        simp only [List.length_cons, Nat.add_le_add_iff_right]
        congr 2
        omega

/-- Without colours the messages hold no escape byte. -/
theorem formatted_off_no_ESC (col : Colors) (session : RmSession)
    (state : RmFmtProgressState) (hcol : session.color = false) :
    ESC ∉ formatted col session state := by
  have off : ∀ code, MAYBE_COLOR session code = [] := by
    intro code; unfold MAYBE_COLOR; rw [hcol]; rfl
  have hl := fmt_LLU_no_ESC
  have hf := fmt_2f_no_ESC
  cases state with
  | TRAVERSE =>
    simp only [formatted, traverse_text, off, List.append_nil, List.mem_append, not_or]
    exact ⟨⟨⟨⟨⟨⟨by decide, hl _⟩, by decide⟩, hl _⟩, by decide⟩, hl _⟩, by decide⟩
  | PREPROCESS =>
    simp only [formatted, preprocess_text, off, List.append_nil, List.mem_append, not_or]
    exact ⟨⟨⟨⟨by decide, hl _⟩, by decide⟩, hl _⟩, by decide⟩
  | SHREDDER =>
    simp only [formatted, shredder_text, off, List.append_nil, List.mem_append, not_or]
    exact ⟨⟨⟨⟨⟨⟨⟨⟨by decide, hl _⟩, by decide⟩, hl _⟩, by decide⟩, hf _⟩, by decide⟩, hl _⟩,
      by decide⟩
  | MERGE =>
    show ESC ∉ merge_text
    decide
  | INIT => simp [formatted]
  | SUMMARY => simp [formatted]

/-- The text members after `rm_fmt_progress_format_text` in a rendering
phase: the result of the loop on what `g_snprintf` stored. -/
theorem format_text_fields (col : Colors) (session : RmSession)
    (self : RmFmtHandlerProgress) (max_len : Int)
    (hst : isRendering self.last_state = true) :
    (rm_fmt_progress_format_text col session self max_len).text_buf
      = (strip_loop max_len ((formatted col session self.last_state).take 1023).length
          ((formatted col session self.last_state).take 1023) 0
          ((formatted col session self.last_state).length % 4294967296)).1 ∧
    (rm_fmt_progress_format_text col session self max_len).text_len
      = (strip_loop max_len ((formatted col session self.last_state).take 1023).length
          ((formatted col session self.last_state).take 1023) 0
          ((formatted col session self.last_state).length % 4294967296)).2 := by
  have e1 : ∀ m : List Char, (g_snprintf 1024 m).1 = m.take 1023 := fun _ => rfl
  have e2 : ∀ m : List Char, (g_snprintf 1024 m).2 = m.length := fun _ => rfl
  unfold rm_fmt_progress_format_text
  cases hl : self.last_state with
  | TRAVERSE => simp only [formatted, e1, e2, and_self]
  | PREPROCESS => simp only [formatted, e1, e2, and_self]
  | SHREDDER => simp only [formatted, e1, e2, and_self]
  | MERGE => simp only [formatted, e1, e2, and_self]
  | INIT => rw [hl] at hst; simp [isRendering] at hst
  | SUMMARY => rw [hl] at hst; simp [isRendering] at hst

/-- Without colours the text members are the message cut to the budget and
the length of what is kept. -/
theorem format_text_off (col : Colors) (session : RmSession)
    (self : RmFmtHandlerProgress) (max_len : Int)
    (hcol : session.color = false) (hst : isRendering self.last_state = true) :
    (rm_fmt_progress_format_text col session self max_len).text_buf
      = ((formatted col session self.last_state).take 1023).take max_len.toNat ∧
    ((formatted col session self.last_state).length ≤ 1023 →
      (rm_fmt_progress_format_text col session self max_len).text_len
        = (rm_fmt_progress_format_text col session self max_len).text_buf.length) := by
  have hno := formatted_off_no_ESC col session self.last_state hcol
  have hno2 : ESC ∉ (formatted col session self.last_state).take 1023 :=
    fun h => hno (List.mem_of_mem_take h)
  obtain ⟨e1, e2⟩ := format_text_fields col session self max_len hst
  rw [strip_loop_plain max_len _ _ 0 _ (le_refl _) hno2] at e1 e2
  simp only [Nat.cast_zero, sub_zero, Nat.zero_add] at e1 e2
  refine ⟨e1, fun hfit => ?_⟩
  rw [e1, e2, List.take_of_length_le (by omega : (formatted col session self.last_state).length
    ≤ 1023)]
  simp only [List.length_take]
  split <;> omega

theorem bar_loop_no_ESC (cells : Int) : ∀ (n : Nat) (i : Int), ESC ∉ bar_loop cells n i := by
  intro n
  induction n with
  | zero => intro i; simp [bar_loop]
  | succ n ih =>
    intro i
    have hc : ESC ≠ bar_cell cells i := by
      unfold bar_cell
      split
      · decide
      · split <;> decide
    simp only [bar_loop, List.mem_cons, not_or]
    exact ⟨hc, ih _⟩

/-- Without colours a redraw writes no escape byte. -/
theorem redraw_off_no_ESC (col : Colors) (session : RmSession) (env : Env)
    (self : RmFmtHandlerProgress) (state : RmFmtProgressState)
    (hcol : session.color = false) (hst : isRendering state = true) :
    ESC ∉ (rm_fmt_prog_redraw col session env self state).2 := by
  have off : MAYBE_COLOR session col.RESET = [] := by
    unfold MAYBE_COLOR; rw [hcol]; rfl
  have hbuf : ESC ∉ (rm_fmt_prog_redraw col session env self state).1.text_buf := by
    rw [redraw_fst, (format_text_off col session _ _ hcol hst).1]
    intro h
    exact formatted_off_no_ESC col session state hcol
      (List.mem_of_mem_take (List.mem_of_mem_take h))
  rw [redraw_snd, off]
  unfold rm_fmt_progress_print_bar rm_fmt_progress_print_text
  simp only [List.mem_append, List.mem_cons, List.mem_singleton, List.not_mem_nil, not_or,
    or_false, false_or]
  refine ⟨⟨⟨⟨⟨by decide, bar_loop_no_ESC _ _ _⟩, by decide⟩, ?_, hbuf⟩, by decide⟩, ?_⟩
  · split
    · intro h
      have := List.eq_of_mem_replicate h
      revert this
      decide
    · simp
  · split <;> simp [LF, ESC]

/-- C15: when the colour flag of the snapshot is off, every colour and reset
field expands to the empty string; in each rendering phase the text that
`rm_fmt_progress_format_text` stores holds no escape byte and, when the
message fits the buffer, `text_len` is the byte length of the (possibly cut)
text; and every event of a rendering phase with the abort flag clear writes
no escape byte. -/
theorem C15_colours_disabled (col : Colors) (session : RmSession) (env : Env)
    (self : RmFmtHandlerProgress) (state : RmFmtProgressState) (max_len : Int)
    (hcol : session.color = false) :
    (∀ code, MAYBE_COLOR session code = []) ∧
    (isRendering self.last_state = true →
      ESC ∉ (rm_fmt_progress_format_text col session self max_len).text_buf ∧
      ((formatted col session self.last_state).length ≤ 1023 →
        (rm_fmt_progress_format_text col session self max_len).text_len
          = (rm_fmt_progress_format_text col session self max_len).text_buf.length)) ∧
    (isRendering state = true → session.aborted = false →
      ∀ r, rm_fmt_prog col session env self state = .ok r → ESC ∉ r.2) := by
  refine ⟨?_, ?_, ?_⟩
  · intro code; unfold MAYBE_COLOR; rw [hcol]; rfl
  · intro hst
    obtain ⟨e1, e2⟩ := format_text_off col session self max_len hcol hst
    refine ⟨?_, e2⟩
    rw [e1]
    intro h
    exact formatted_off_no_ESC col session self.last_state hcol
      (List.mem_of_mem_take (List.mem_of_mem_take h))
  · intro hst hab r hr
    have h1 : state ≠ .INIT := by rintro rfl; simp [isRendering] at hst
    have h2 : state ≠ .SUMMARY := by rintro rfl; simp [isRendering] at hst
    unfold rm_fmt_prog at hr
    simp only [h1, h2, hab, if_false, false_or, Bool.false_eq_true] at hr
    split at hr
    · cases hr
      simp only [List.mem_cons, not_or]
      exact ⟨by decide, redraw_off_no_ESC col session env self state hcol hst⟩
    · split at hr
      · cases hr
      · split at hr
        · cases hr
          simp
        · cases hr
          exact redraw_off_no_ESC col session env _ state hcol hst

/-- Witness of C15: the matching line of the sample session without colours
on an 80-column terminal. -/
theorem C15_colours_disabled_witness :
    ({ sample with color := false } : RmSession).color = false ∧
    (∀ code, MAYBE_COLOR { sample with color := false } code = []) ∧
    (isRendering ({ PROGRESS_HANDLER_IMPL with
        last_state := .SHREDDER, update_interval := 15 } : RmFmtHandlerProgress).last_state
        = true →
      ESC ∉ (rm_fmt_progress_format_text ansi { sample with color := false }
        { PROGRESS_HANDLER_IMPL with last_state := .SHREDDER, update_interval := 15 }
        55).text_buf ∧
      ((formatted ansi { sample with color := false }
          ({ PROGRESS_HANDLER_IMPL with last_state := .SHREDDER, update_interval := 15 }
            : RmFmtHandlerProgress).last_state).length ≤ 1023 →
        (rm_fmt_progress_format_text ansi { sample with color := false }
          { PROGRESS_HANDLER_IMPL with last_state := .SHREDDER, update_interval := 15 }
          55).text_len
          = (rm_fmt_progress_format_text ansi { sample with color := false }
            { PROGRESS_HANDLER_IMPL with last_state := .SHREDDER, update_interval := 15 }
            55).text_buf.length)) ∧
    (isRendering RmFmtProgressState.SHREDDER = true →
      ({ sample with color := false } : RmSession).aborted = false →
      ∀ r, rm_fmt_prog ansi { sample with color := false } env80
        { PROGRESS_HANDLER_IMPL with last_state := .SHREDDER, update_interval := 15 }
        .SHREDDER = .ok r → ESC ∉ r.2) :=
  ⟨rfl, C15_colours_disabled ansi { sample with color := false } env80
    { PROGRESS_HANDLER_IMPL with last_state := .SHREDDER, update_interval := 15 }
    .SHREDDER 55 rfl⟩

/-! ## Correct rounding -/

theorem ilog2_lt (n d j : Nat) (hn : 1 ≤ n) (h : n < d * 2 ^ j) :
    ilog2 n d < (j : Int) := by
  have ha := pow_log2Fuel_le n n hn
  have hb := lt_pow_log2Fuel d d (le_refl _)
  unfold ilog2
  simp only
  split
  · rename_i hc
    by_contra hcon
    obtain ⟨t, ht⟩ : ∃ t : Nat, (flog2 n : Int) - (flog2 d : Int) = (t : Int) :=
      ⟨((flog2 n : Int) - (flog2 d : Int)).toNat, by omega⟩
    rw [ht] at hc hcon
    have e1 : (-(t : Int)).toNat = 0 := by omega
    rw [Int.toNat_ofNat, e1, pow_zero, Nat.mul_one] at hc
    have htj : j ≤ t := by omega
    have hp : 2 ^ j ≤ 2 ^ t := Nat.pow_le_pow_right (by decide) htj
    have h3 : d * 2 ^ j ≤ d * 2 ^ t := Nat.mul_le_mul_left d hp
    omega
  · by_contra hcon
    have hfl : flog2 d + 1 + j ≤ flog2 n := by omega
    have hp : 2 ^ (flog2 d + 1 + j) ≤ 2 ^ flog2 n := Nat.pow_le_pow_right (by decide) hfl
    have h1 : 2 ^ (flog2 d + 1) * 2 ^ j ≤ n := by
      rw [← pow_add]
      exact le_trans hp ha
    have h2 : d * 2 ^ j < 2 ^ (flog2 d + 1) * 2 ^ j :=
      Nat.mul_lt_mul_of_pos_right hb (by positivity)
    omega

theorem ilog2_ge (n d j : Nat) (hd : 1 ≤ d) (h : d * 2 ^ j ≤ n) :
    (j : Int) ≤ ilog2 n d := by
  have ha := lt_pow_log2Fuel n n (le_refl _)
  have hb := pow_log2Fuel_le d d hd
  have hlt : 2 ^ (flog2 d + j) < 2 ^ (flog2 n + 1) := by
    have h1 : 2 ^ (flog2 d + j) ≤ d * 2 ^ j := by
      rw [pow_add]
      exact Nat.mul_le_mul_right _ hb
    exact lt_of_le_of_lt (le_trans h1 h) ha
  have hexp : flog2 d + j < flog2 n + 1 := (Nat.pow_lt_pow_iff_right (by decide)).mp hlt
  unfold ilog2
  simp only
  split
  · omega
  · rename_i hc
    by_contra hcon
    have he : (flog2 n : Int) - (flog2 d : Int) = (j : Int) := by omega
    rw [he] at hc
    have e1 : (-(j : Int)).toNat = 0 := by omega
    rw [Int.toNat_ofNat, e1, pow_zero, Nat.mul_one] at hc
    exact hc h

theorem roundHalfEven_ge (n d M : Nat) (hd : 0 < d) (h : M * d ≤ n) :
    M ≤ roundHalfEven n d := by
  have hq : M ≤ n / d := (Nat.le_div_iff_mul_le hd).mpr h
  unfold roundHalfEven
  simp only
  split
  · exact hq
  · split
    · omega
    · split <;> omega

theorem roundHalfEven_near (n d Y : Nat) (hd : 0 < d) (hY : 1 ≤ Y) (h1 : n ≤ Y * d)
    (h2 : 2 * (Y * d) < 2 * n + d) : roundHalfEven n d = Y := by
  by_cases he : n = Y * d
  · have hq : n / d = Y := by rw [he]; exact Nat.mul_div_cancel _ hd
    have hr : n % d = 0 := by rw [he]; exact Nat.mul_mod_left _ _
    unfold roundHalfEven
    simp only [hq, hr]
    rw [if_pos (by omega)]
  · have hYd : (Y - 1 + 1) * d = Y * d := by rw [Nat.sub_add_cancel hY]
    have hYd2 : (Y - 1) * d + d = Y * d := by rw [← hYd, Nat.add_mul, Nat.one_mul]
    have hq : n / d = Y - 1 := Nat.div_eq_of_lt_le (by omega) (by omega)
    have hdm := Nat.div_add_mod n d
    rw [hq, Nat.mul_comm] at hdm
    unfold roundHalfEven
    simp only [hq]
    rw [if_neg (by omega), if_pos (by omega)]
    omega

/-- A value between two multiples of `2 ^ -s` that are doubles rounds to a
double between them. -/
theorem rnd_between (x : ℚ) (L U s : Nat) (hL : (L : ℚ) / 2 ^ s ≤ x)
    (hU : x ≤ (U : ℚ) / 2 ^ s) (hU53 : U < 2 ^ 53) (hs : s ≤ 53) :
    ∃ y, rnd x = .fin y ∧ (L : ℚ) / 2 ^ s ≤ y ∧ y ≤ (U : ℚ) / 2 ^ s := by
  have h2s : (0 : ℚ) < 2 ^ s := by positivity
  have h0 : 0 ≤ x := le_trans (by positivity) hL
  unfold rnd
  by_cases hx : x = 0
  · rw [hx] at hL hU
    exact ⟨0, by simp [hx], hL, hU⟩
  simp only [hx, if_false]
  have hnum : 0 < x.num := Rat.num_pos.mpr (lt_of_le_of_ne h0 (Ne.symm hx))
  have hden : 0 < x.den := x.den_pos
  have habs : (x.num.natAbs : Int) = x.num := Int.natAbs_of_nonneg (le_of_lt hnum)
  have hxq : x = (x.num.natAbs : ℚ) / (x.den : ℚ) := by
    have : ((x.num.natAbs : Int) : ℚ) = (x.num : ℚ) := by rw [habs]
    rw [← Int.cast_natCast, this, Rat.num_div_den]
  have hd' : (0 : ℚ) < x.den := by exact_mod_cast hden
  have hUn : x.num.natAbs * 2 ^ s ≤ U * x.den := by
    have h1 : (x.num.natAbs : ℚ) / (x.den : ℚ) ≤ (U : ℚ) / 2 ^ s := by rw [← hxq]; exact hU
    rw [div_le_div_iff₀ hd' h2s] at h1
    exact_mod_cast h1
  have hLn : L * x.den ≤ x.num.natAbs * 2 ^ s := by
    have h1 : (L : ℚ) / 2 ^ s ≤ (x.num.natAbs : ℚ) / (x.den : ℚ) := by rw [← hxq]; exact hL
    rw [div_le_div_iff₀ h2s hd'] at h1
    exact_mod_cast h1
  have hneg : ¬ x < 0 := not_lt.mpr h0
  have hk : ilog2 x.num.natAbs x.den < ((53 - s : Nat) : Int) := by
    apply ilog2_lt _ _ _ (by omega)
    have h1 : x.num.natAbs * 2 ^ s < x.den * 2 ^ 53 := by
      calc x.num.natAbs * 2 ^ s ≤ U * x.den := hUn
        _ < 2 ^ 53 * x.den := Nat.mul_lt_mul_of_pos_right hU53 hden
        _ = x.den * 2 ^ 53 := Nat.mul_comm _ _
    have h2 : x.den * 2 ^ 53 = x.den * 2 ^ (53 - s) * 2 ^ s := by
      rw [Nat.mul_assoc, ← pow_add, Nat.sub_add_cancel hs]
    rw [h2] at h1
    exact Nat.lt_of_mul_lt_mul_right h1
  obtain ⟨j, hj⟩ : ∃ j : Nat, max (ilog2 x.num.natAbs x.den) (-1022) - 52 = -((j + s : Nat) : Int) :=
    ⟨(-(max (ilog2 x.num.natAbs x.den) (-1022) - 52)).toNat - s, by omega⟩
  rw [hj]
  have e1 : (-(-((j + s : Nat) : Int))).toNat = j + s := by omega
  have e2 : (-((j + s : Nat) : Int)).toNat = 0 := by omega
  rw [e1, e2, pow_zero, Nat.mul_one]
  have hup := roundHalfEven_le (x.num.natAbs * 2 ^ (j + s)) x.den (U * 2 ^ j) hden
    (by calc x.num.natAbs * 2 ^ (j + s) = x.num.natAbs * 2 ^ s * 2 ^ j := by ring
          _ ≤ U * x.den * 2 ^ j := Nat.mul_le_mul_right _ hUn
          _ = U * 2 ^ j * x.den := by ring)
  have hlo := roundHalfEven_ge (x.num.natAbs * 2 ^ (j + s)) x.den (L * 2 ^ j) hden
    (by calc L * 2 ^ j * x.den = L * x.den * 2 ^ j := by ring
          _ ≤ x.num.natAbs * 2 ^ s * 2 ^ j := Nat.mul_le_mul_right _ hLn
          _ = x.num.natAbs * 2 ^ (j + s) := by ring)
  have h2j : (0 : ℚ) < 2 ^ (j + s) := by positivity
  have hpw : (2 : ℚ) ^ (j + s) = 2 ^ j * 2 ^ s := pow_add 2 j s
  have keyU : ((roundHalfEven (x.num.natAbs * 2 ^ (j + s)) x.den : Nat) : ℚ)
      * (2 : ℚ) ^ (-((j + s : Nat) : Int)) ≤ (U : ℚ) / 2 ^ s := by
    rw [zpow_neg, zpow_natCast, ← div_eq_mul_inv, div_le_div_iff₀ h2j h2s, hpw]
    have : ((roundHalfEven (x.num.natAbs * 2 ^ (j + s)) x.den : Nat) : ℚ) ≤ (U : ℚ) * 2 ^ j := by
      exact_mod_cast hup
    nlinarith
  have keyL : (L : ℚ) / 2 ^ s ≤ ((roundHalfEven (x.num.natAbs * 2 ^ (j + s)) x.den : Nat) : ℚ)
      * (2 : ℚ) ^ (-((j + s : Nat) : Int)) := by
    rw [zpow_neg, zpow_natCast, ← div_eq_mul_inv, div_le_div_iff₀ h2s h2j, hpw]
    have : (L : ℚ) * 2 ^ j ≤ ((roundHalfEven (x.num.natAbs * 2 ^ (j + s)) x.den : Nat) : ℚ) := by
      exact_mod_cast hlo
    nlinarith
  have hov : ¬ ((2 : ℚ) ^ 1024 ≤ ((roundHalfEven (x.num.natAbs * 2 ^ (j + s)) x.den : Nat) : ℚ)
      * (2 : ℚ) ^ (-((j + s : Nat) : Int))) := by
    have h1 : (U : ℚ) < 2 ^ 53 := by exact_mod_cast hU53
    have h2 : (U : ℚ) / 2 ^ s ≤ U := div_le_self (by positivity) (one_le_pow₀ (by norm_num))
    have h3 : (2 : ℚ) ^ 53 ≤ 2 ^ 1024 := by norm_num
    linarith
  exact ⟨_, by simp only [hov, hneg, if_false], keyL, keyU⟩

/-- A value just below a natural number `n`, closer to it than half a unit in
the last place, rounds to `n`. -/
theorem rnd_near_nat (x : ℚ) (n j : Nat) (hj : (2 : ℚ) ^ j ≤ x) (hx : x ≤ n)
    (hn : n < 2 ^ 53) (hj52 : j ≤ 52) (hclose : ((n : ℚ) - x) * 2 ^ (53 - j) < 1) :
    rnd x = .fin n := by
  have hpos : (0 : ℚ) < x := lt_of_lt_of_le (by positivity) hj
  have hx0 : x ≠ 0 := ne_of_gt hpos
  unfold rnd
  simp only [hx0, if_false]
  have hnum : 0 < x.num := Rat.num_pos.mpr hpos
  have hden : 0 < x.den := x.den_pos
  have habs : (x.num.natAbs : Int) = x.num := Int.natAbs_of_nonneg (le_of_lt hnum)
  have hxq : x = (x.num.natAbs : ℚ) / (x.den : ℚ) := by
    have : ((x.num.natAbs : Int) : ℚ) = (x.num : ℚ) := by rw [habs]
    rw [← Int.cast_natCast, this, Rat.num_div_den]
  have hd' : (0 : ℚ) < x.den := by exact_mod_cast hden
  have hxd : x * (x.den : ℚ) = (x.num.natAbs : ℚ) := by
    have h : ((x.num.natAbs : Int) : ℚ) = (x.num : ℚ) := congrArg _ habs
    rw [Rat.mul_den_eq_num, ← h, Int.cast_natCast]
  have hle : x.num.natAbs ≤ n * x.den := by
    have : (x.num.natAbs : ℚ) ≤ (n : ℚ) * x.den := by
      rw [← hxd]; exact mul_le_mul_of_nonneg_right hx (le_of_lt hd')
    exact_mod_cast this
  have hge : x.den * 2 ^ j ≤ x.num.natAbs := by
    have : (x.den : ℚ) * 2 ^ j ≤ (x.num.natAbs : ℚ) := by
      rw [← hxd, mul_comm]; exact mul_le_mul_of_nonneg_right hj (le_of_lt hd')
    exact_mod_cast this
  have hlt53 : ilog2 x.num.natAbs x.den < ((53 : Nat) : Int) := by
    apply ilog2_lt _ _ _ (by omega)
    calc x.num.natAbs ≤ n * x.den := hle
      _ < 2 ^ 53 * x.den := Nat.mul_lt_mul_of_pos_right hn hden
      _ = x.den * 2 ^ 53 := Nat.mul_comm _ _
  have hgej := ilog2_ge x.num.natAbs x.den j hden hge
  obtain ⟨i, hi, hij⟩ : ∃ i : Nat, max (ilog2 x.num.natAbs x.den) (-1022) - 52 = -(i : Int)
      ∧ i + 1 ≤ 53 - j :=
    ⟨(-(max (ilog2 x.num.natAbs x.den) (-1022) - 52)).toNat, by omega, by omega⟩
  rw [hi]
  have e1 : (-(-(i : Int))).toNat = i := by omega
  have e2 : (-(i : Int)).toNat = 0 := by omega
  rw [e1, e2, pow_zero, Nat.mul_one]
  have hn1 : 1 ≤ n := by
    have h1 : (1 : ℚ) ≤ 2 ^ j := one_le_pow₀ (by norm_num)
    have : (1 : ℚ) ≤ n := le_trans (le_trans h1 hj) hx
    exact_mod_cast this
  have h2i : (0 : ℚ) < 2 ^ i := by positivity
  have hclose2 : ((n : ℚ) - x) * 2 ^ (i + 1) < 1 := by
    have hnx : (0 : ℚ) ≤ (n : ℚ) - x := by linarith
    have hp : (2 : ℚ) ^ (i + 1) ≤ 2 ^ (53 - j) := pow_le_pow_right₀ (by norm_num) hij
    calc ((n : ℚ) - x) * 2 ^ (i + 1) ≤ ((n : ℚ) - x) * 2 ^ (53 - j) :=
          mul_le_mul_of_nonneg_left hp hnx
      _ < 1 := hclose
  have hm : roundHalfEven (x.num.natAbs * 2 ^ i) x.den = n * 2 ^ i := by
    apply roundHalfEven_near _ _ _ hden
    · exact Nat.mul_pos hn1 (by positivity)
    · calc x.num.natAbs * 2 ^ i ≤ n * x.den * 2 ^ i := Nat.mul_le_mul_right _ hle
        _ = n * 2 ^ i * x.den := by ring
    · have h3 : (2 : ℚ) * ((n : ℚ) * 2 ^ i * x.den)
          < 2 * ((x.num.natAbs : ℚ) * 2 ^ i) + x.den := by
        have h4 := mul_lt_mul_of_pos_right hclose2 hd'
        rw [← hxd]
        rw [pow_succ] at h4
        nlinarith
      exact_mod_cast h3
  rw [hm]
  have hy : ((n * 2 ^ i : Nat) : ℚ) * (2 : ℚ) ^ (-(i : Int)) = n := by
    rw [zpow_neg, zpow_natCast]
    push_cast
    field_simp
  rw [hy]
  have hov : ¬ ((2 : ℚ) ^ 1024 ≤ n) := by
    have : (n : ℚ) < 2 ^ 53 := by exact_mod_cast hn
    have : (2 : ℚ) ^ 53 ≤ 2 ^ 1024 := by norm_num
    linarith
  have hneg : ¬ (x < 0) := not_lt.mpr (le_of_lt hpos)
  simp [hov, hneg]

theorem toInt_of_bounds (indefinite : Int) (y : ℚ) (q : Nat) (h1 : (q : ℚ) ≤ y)
    (h2 : y < (q : ℚ) + 1) (hq : q ≤ 2147483647) :
    Double.toInt indefinite (.fin y) = (q : Int) := by
  have h0 : (0 : ℚ) ≤ y := le_trans (Nat.cast_nonneg q) h1
  have hf : ⌊y⌋ = (q : Int) := by
    rw [Int.floor_eq_iff]
    exact ⟨by exact_mod_cast h1, by exact_mod_cast h2⟩
  unfold Double.toInt
  simp only [truncQ_of_nonneg y h0, hf]
  rw [if_pos ⟨by omega, by omega⟩]

theorem lit_values :
    lit_0_3 = .fin (5404319552844595 / 18014398509481984) ∧
    lit_0_7 = .fin (6305039478318694 / 9007199254740992) ∧
    Double.ofInt 1 = .fin 1 := by
  refine ⟨?_, ?_, ?_⟩ <;> decide!

theorem ofInt_natCast (c : Nat) (h : c < 2 ^ 53) : Double.ofInt (c : Int) = .fin (c : ℚ) := by
  unfold Double.ofInt
  rw [Int.cast_natCast]
  exact rnd_natCast c h

/-! ## The two column shares -/

theorem rnd_sixteenths (x : ℚ) (L U : Nat) (hL : (L : ℚ) / 16 ≤ x) (hU : x ≤ (U : ℚ) / 16)
    (hU53 : U < 2 ^ 53) : ∃ y, rnd x = .fin y ∧ (L : ℚ) / 16 ≤ y ∧ y ≤ (U : ℚ) / 16 := by
  have h := rnd_between x L U 4 (by norm_num; exact hL) (by norm_num; exact hU) hU53 (by norm_num)
  obtain ⟨y, hy, h1, h2⟩ := h
  exact ⟨y, hy, by norm_num at h1; exact h1, by norm_num at h2; exact h2⟩

/-- The bar share `ws_col * 0.3`, converted to `int`, is the integer part of
three tenths of the column count. -/
theorem bar_width_eq (indefinite : Int) (c : Nat) (hc : c ≤ 65535) :
    bar_width indefinite c = ((3 * c / 10 : Nat) : Int) := by
  unfold bar_width
  rw [ofInt_natCast c (by omega), lit_values.1]
  show Double.toInt indefinite (rnd ((c : ℚ) * (5404319552844595 / 18014398509481984))) = _
  have hx : (c : ℚ) * (5404319552844595 / 18014398509481984)
      = (3 * (c : ℚ)) / 10 - (c : ℚ) / (10 * 2 ^ 53) := by
    norm_num
    ring
  rw [hx]
  have hqr : 3 * c = 10 * (3 * c / 10) + 3 * c % 10 := (Nat.div_add_mod _ _).symm
  have hr : 3 * c % 10 < 10 := Nat.mod_lt _ (by norm_num)
  generalize 3 * c / 10 = q at hqr ⊢
  generalize 3 * c % 10 = r at hqr hr
  have hqr' : (3 : ℚ) * c = 10 * q + r := by exact_mod_cast hqr
  have hc' : (c : ℚ) ≤ 65535 := by exact_mod_cast hc
  have hc0 : (0 : ℚ) ≤ c := Nat.cast_nonneg c
  have hq : q ≤ 2147483647 := by omega
  by_cases hr0 : r = 0
  · subst hr0
    by_cases hc00 : c = 0
    · subst hc00
      have hq0 : q = 0 := by omega
      subst hq0
      have : rnd (3 * ((0 : Nat) : ℚ) / 10 - ((0 : Nat) : ℚ) / (10 * 2 ^ 53)) = .fin 0 := by
        norm_num [rnd]
      rw [this]
      exact toInt_of_bounds indefinite 0 0 (by norm_num) (by norm_num) (by norm_num)
    · obtain ⟨t, ht⟩ : ∃ t, c = 10 * t := ⟨c / 10, by omega⟩
      have hq3 : q = 3 * t := by omega
      have ht1 : 1 ≤ t := by omega
      have hlo := pow_log2Fuel_le t t ht1
      have hhi := lt_pow_log2Fuel t t (le_refl t)
      have hj12 : log2Fuel t t < 13 := by
        by_contra hcon
        have h13 : 13 ≤ log2Fuel t t := by omega
        have : 2 ^ 13 ≤ 2 ^ log2Fuel t t := Nat.pow_le_pow_right (by norm_num) h13
        omega
      have hxt : 3 * (c : ℚ) / 10 - (c : ℚ) / (10 * 2 ^ 53) = 3 * (t : ℚ) - (t : ℚ) / 2 ^ 53 := by
        rw [ht]; push_cast; ring
      have ht' : (1 : ℚ) ≤ t := by exact_mod_cast ht1
      have hlo' : (2 : ℚ) ^ log2Fuel t t ≤ t := by exact_mod_cast hlo
      have hhi' : (t : ℚ) < 2 ^ (log2Fuel t t + 1) := by exact_mod_cast hhi
      have hnear : rnd (3 * (c : ℚ) / 10 - (c : ℚ) / (10 * 2 ^ 53)) = .fin ((3 * t : Nat) : ℚ) := by
        apply rnd_near_nat _ _ (log2Fuel t t + 1)
        · rw [hxt, pow_succ]
          have : (t : ℚ) / 2 ^ 53 ≤ t := div_le_self (by linarith) (by norm_num)
          linarith
        · rw [hxt]; push_cast
          have : (0 : ℚ) ≤ (t : ℚ) / 2 ^ 53 := by positivity
          linarith
        · omega
        · omega
        · obtain ⟨k, hk⟩ : ∃ k, 53 - (log2Fuel t t + 1) = k := ⟨_, rfl⟩
          rw [hxt, hk]; push_cast
          have e : (3 * (t : ℚ) - (3 * (t : ℚ) - (t : ℚ) / 2 ^ 53)) * 2 ^ k
              = (t : ℚ) * 2 ^ k / 2 ^ 53 := by ring
          rw [e, div_lt_one (by positivity)]
          have hp : (2 : ℚ) ^ 53 = 2 ^ (log2Fuel t t + 1) * 2 ^ k := by
            rw [← pow_add]; congr 1; omega
          rw [hp]
          exact mul_lt_mul_of_pos_right hhi' (by positivity)
      rw [hnear, hq3]
      exact toInt_of_bounds indefinite _ _ (le_refl _) (by linarith) (by omega)
  · have hr1 : 1 ≤ r := by omega
    have hr1' : (1 : ℚ) ≤ r := by exact_mod_cast hr1
    have hr9' : (r : ℚ) ≤ 9 := by
      have : r ≤ 9 := by omega
      exact_mod_cast this
    have hxe : 3 * (c : ℚ) / 10 - (c : ℚ) / (10 * 2 ^ 53)
        = (q : ℚ) + (r : ℚ) / 10 - (c : ℚ) / (10 * 2 ^ 53) := by
      rw [hqr']; ring
    have hsmall : (c : ℚ) / (10 * 2 ^ 53) ≤ 1 / 1000 := by
      rw [div_le_div_iff₀ (by positivity) (by positivity)]
      norm_num
      linarith
    have hsm0 : (0 : ℚ) ≤ (c : ℚ) / (10 * 2 ^ 53) := by positivity
    obtain ⟨y, hy, h1, h2⟩ := rnd_sixteenths (3 * (c : ℚ) / 10 - (c : ℚ) / (10 * 2 ^ 53))
      (16 * q + 1) (16 * q + 15)
      (by rw [hxe]; push_cast; linarith) (by rw [hxe]; push_cast; linarith) (by omega)
    rw [hy]
    push_cast at h1 h2
    exact toInt_of_bounds indefinite y q (by linarith) (by linarith) hq

/-- The text share `ws_col * 0.7 - 1`, converted to `int`, is the integer part
of seven tenths of the column count less one, or one less than that; the
latter only when the column count is a multiple of ten. -/
theorem text_width_eq (indefinite : Int) (c : Nat) (h2 : 2 ≤ c) (hc : c ≤ 65535) :
    (c % 10 ≠ 0 → text_width indefinite c = ((7 * c / 10 : Nat) : Int) - 1) ∧
    (text_width indefinite c = ((7 * c / 10 : Nat) : Int) - 1 ∨
      text_width indefinite c = ((7 * c / 10 : Nat) : Int) - 2) := by
  unfold text_width
  rw [ofInt_natCast c (by omega), lit_values.2.1, lit_values.2.2]
  show (c % 10 ≠ 0 → Double.toInt indefinite (Double.add
      (rnd ((c : ℚ) * (6305039478318694 / 9007199254740992))) (.fin (-1))) = _) ∧
    (Double.toInt indefinite (Double.add
      (rnd ((c : ℚ) * (6305039478318694 / 9007199254740992))) (.fin (-1))) = _ ∨
     Double.toInt indefinite (Double.add
      (rnd ((c : ℚ) * (6305039478318694 / 9007199254740992))) (.fin (-1))) = _)
  have hx : (c : ℚ) * (6305039478318694 / 9007199254740992)
      = (7 * (c : ℚ)) / 10 - (c : ℚ) / (10 * 2 ^ 51) := by
    norm_num
    ring
  rw [hx]
  have hqr : 7 * c = 10 * (7 * c / 10) + 7 * c % 10 := (Nat.div_add_mod _ _).symm
  have hr : 7 * c % 10 < 10 := Nat.mod_lt _ (by norm_num)
  have hrc : c % 10 ≠ 0 → 7 * c % 10 ≠ 0 := by omega
  generalize 7 * c / 10 = q at hqr ⊢
  generalize 7 * c % 10 = r at hqr hr hrc
  have hqr' : (7 : ℚ) * c = 10 * q + r := by exact_mod_cast hqr
  have hc' : (c : ℚ) ≤ 65535 := by exact_mod_cast hc
  have hc0 : (0 : ℚ) ≤ c := Nat.cast_nonneg c
  obtain ⟨p, hp⟩ : ∃ p, q = p + 1 := ⟨q - 1, by omega⟩
  subst hp
  have hpb : p ≤ 2147483647 := by omega
  have hxe : 7 * (c : ℚ) / 10 - (c : ℚ) / (10 * 2 ^ 51)
      = ((p + 1 : Nat) : ℚ) + (r : ℚ) / 10 - (c : ℚ) / (10 * 2 ^ 51) := by
    rw [hqr']; ring
  have hsmall : (c : ℚ) / (10 * 2 ^ 51) ≤ 1 / 1000 := by
    rw [div_le_div_iff₀ (by positivity) (by positivity)]
    norm_num
    linarith
  have hsm0 : (0 : ℚ) ≤ (c : ℚ) / (10 * 2 ^ 51) := by positivity
  have hr9' : (r : ℚ) ≤ 9 := by
    have : r ≤ 9 := by omega
    exact_mod_cast this
  by_cases hr0 : r = 0
  · have hcm : c % 10 = 0 := by
      by_contra hcon
      exact hrc hcon hr0
    subst hr0
    obtain ⟨y1, hy1, h11, h12⟩ := rnd_sixteenths (7 * (c : ℚ) / 10 - (c : ℚ) / (10 * 2 ^ 51))
      (16 * p + 15) (16 * p + 16)
      (by rw [hxe]; push_cast; linarith) (by rw [hxe]; push_cast; linarith) (by omega)
    rw [hy1]
    show (c % 10 ≠ 0 → Double.toInt indefinite (rnd (y1 + -1)) = _) ∧
      (Double.toInt indefinite (rnd (y1 + -1)) = _ ∨ Double.toInt indefinite (rnd (y1 + -1)) = _)
    push_cast at h11 h12
    have hp1 : 1 ≤ p := by omega
    obtain ⟨p2, hp2⟩ : ∃ p2, p = p2 + 1 := ⟨p - 1, by omega⟩
    subst hp2
    obtain ⟨y2, hy2, h21, h22⟩ := rnd_sixteenths (y1 + -1) (16 * p2 + 15) (16 * p2 + 16)
      (by push_cast at h11 ⊢; linarith) (by push_cast at h12 ⊢; linarith) (by omega)
    rw [hy2]
    push_cast at h21 h22 h11 h12
    refine ⟨fun h => absurd hcm h, ?_⟩
    by_cases hy : ((p2 + 1 : Nat) : ℚ) ≤ y2
    · left
      rw [toInt_of_bounds indefinite y2 (p2 + 1) hy (by push_cast; linarith) (by omega)]
      push_cast; ring
    · right
      push_cast at hy
      rw [toInt_of_bounds indefinite y2 p2 (by linarith) (by linarith) (by omega)]
      push_cast; ring
  · have hr1 : 1 ≤ r := by omega
    have hr1' : (1 : ℚ) ≤ r := by exact_mod_cast hr1
    obtain ⟨y1, hy1, h11, h12⟩ := rnd_sixteenths (7 * (c : ℚ) / 10 - (c : ℚ) / (10 * 2 ^ 51))
      (16 * (p + 1) + 1) (16 * (p + 1) + 15)
      (by rw [hxe]; push_cast; linarith) (by rw [hxe]; push_cast; linarith) (by omega)
    rw [hy1]
    show (c % 10 ≠ 0 → Double.toInt indefinite (rnd (y1 + -1)) = _) ∧
      (Double.toInt indefinite (rnd (y1 + -1)) = _ ∨ Double.toInt indefinite (rnd (y1 + -1)) = _)
    push_cast at h11 h12
    obtain ⟨y2, hy2, h21, h22⟩ := rnd_sixteenths (y1 + -1) (16 * p + 1) (16 * p + 15)
      (by push_cast; linarith) (by push_cast; linarith) (by omega)
    rw [hy2]
    push_cast at h21 h22
    have e := toInt_of_bounds indefinite y2 p (by linarith) (by linarith) hpb
    rw [e]
    refine ⟨fun _ => ?_, Or.inl ?_⟩ <;> (push_cast; ring)

/-! ## Spans of the buffer -/

theorem closed_plain : ∀ (s t : List Char), ESC ∉ s →
    spansClosed false (s ++ t) = spansClosed false t := by
  intro s
  induction s with
  | nil => intro t _; rfl
  | cons c cs ih =>
    intro t h
    have hc : c ≠ ESC := fun e => h (by simp [e])
    have hcs : ESC ∉ cs := fun e => h (List.mem_cons_of_mem _ e)
    rw [List.cons_append, spansClosed, if_neg hc, ih t hcs]

theorem closed_in_span : ∀ (cs : List Char) (i : Nat), strchr 'm' cs = some i →
    ∀ t : List Char, spansClosed true (cs.take (i + 1) ++ t) = spansClosed false t := by
  intro cs
  induction cs with
  | nil => intro i h; simp [strchr] at h
  | cons x xs ih =>
    intro i h t
    rw [strchr_cons] at h
    by_cases hx : x = 'm'
    · simp only [hx, if_true, Option.some.injEq] at h
      subst h
      subst hx
      simp [spansClosed]
    · simp only [hx, if_false, Option.map_eq_some'] at h
      obtain ⟨k, hk, rfl⟩ := h
      rw [List.take_succ_cons, List.cons_append, spansClosed,
        show (x != 'm') = true by simp [hx], ih k hk t]

theorem closed_code (code t : List Char) (h : wellFormedCode code = true) :
    spansClosed false (code ++ t) = spansClosed false t := by
  cases code with
  | nil => rfl
  | cons c cs =>
    simp only [wellFormedCode, Bool.and_eq_true, beq_iff_eq] at h
    obtain ⟨hc, hs⟩ := h
    subst hc
    have hlen := strchr_lt_length 'm' cs _ hs
    have hmem : 'm' ∈ cs ++ t :=
      List.mem_append_left _ (List.mem_of_mem_take (strchr_some_mem_take 'm' cs _ hs))
    have e : cs.length - 1 + 1 = cs.length := by omega
    have hin := closed_in_span cs _ hs t
    rw [e, List.take_length] at hin
    rw [List.cons_append, spansClosed, if_pos rfl, hin]
    simp [hmem]

/-- Over well-formed colour sequences every escape byte of a message starts a
span that ends inside the message. -/
theorem closed_formatted (col : Colors) (session : RmSession)
    (state : RmFmtProgressState) (hwf : wellFormedColors col = true) :
    spansClosed false (formatted col session state) = true := by
  simp only [wellFormedColors, Bool.and_eq_true] at hwf
  obtain ⟨⟨⟨hg, hr⟩, hy⟩, hre⟩ := hwf
  have wf : ∀ code, wellFormedCode (cstr code) = true →
      wellFormedCode (MAYBE_COLOR session code) = true := by
    intro code h
    unfold MAYBE_COLOR
    split
    · exact h
    · rfl
  have hG := wf _ hg
  have hR := wf _ hr
  have hY := wf _ hy
  have hRe := wf _ hre
  have plainEnd : ∀ s : List Char, ESC ∉ s → spansClosed false s = true := by
    intro s hs
    have := closed_plain s [] hs
    rw [List.append_nil] at this
    rw [this]
    rfl
  cases state with
  | TRAVERSE =>
    simp only [formatted, traverse_text, List.append_assoc]
    generalize MAYBE_COLOR session col.GREEN = g at hG
    generalize MAYBE_COLOR session col.RED = r at hR
    generalize MAYBE_COLOR session col.RESET = z at hRe
    rw [closed_plain _ _ (by decide), closed_code g _ hG,
      closed_plain _ _ (fmt_LLU_no_ESC _), closed_code z _ hRe,
      closed_plain _ _ (by decide), closed_code r _ hR,
      closed_plain _ _ (fmt_LLU_no_ESC _), closed_code z _ hRe,
      closed_plain _ _ (by decide), closed_code r _ hR,
      closed_plain _ _ (fmt_LLU_no_ESC _), closed_code z _ hRe,
      plainEnd _ (by decide)]
  | PREPROCESS =>
    simp only [formatted, preprocess_text, List.append_assoc]
    generalize MAYBE_COLOR session col.GREEN = g at hG
    generalize MAYBE_COLOR session col.RED = r at hR
    generalize MAYBE_COLOR session col.RESET = z at hRe
    rw [closed_plain _ _ (by decide), closed_code g _ hG,
      closed_plain _ _ (fmt_LLU_no_ESC _), closed_code z _ hRe,
      closed_plain _ _ (by decide), closed_code r _ hR,
      closed_plain _ _ (fmt_LLU_no_ESC _), closed_code z _ hRe,
      plainEnd _ (by decide)]
  | SHREDDER =>
    simp only [formatted, shredder_text, List.append_assoc]
    generalize MAYBE_COLOR session col.GREEN = g at hG
    generalize MAYBE_COLOR session col.RED = r at hR
    generalize MAYBE_COLOR session col.YELLOW = y at hY
    generalize MAYBE_COLOR session col.RESET = z at hRe
    rw [closed_plain _ _ (by decide), closed_code r _ hR,
      closed_plain _ _ (fmt_LLU_no_ESC _), closed_code z _ hRe,
      closed_plain _ _ (by decide), closed_code y _ hY,
      closed_plain _ _ (fmt_LLU_no_ESC _), closed_code z _ hRe,
      closed_plain _ _ (by decide), closed_code g _ hG,
      closed_plain _ _ (fmt_2f_no_ESC _), closed_code z _ hRe,
      closed_plain _ _ (by decide), closed_code g _ hG,
      closed_plain _ _ (fmt_LLU_no_ESC _), closed_code z _ hRe,
      plainEnd _ (by decide)]
  | MERGE =>
    simp only [formatted]
    exact plainEnd _ (by decide)
  | INIT => rfl
  | SUMMARY => rfl

/-- What the loop keeps of a string whose spans are closed ends outside
every span: the spans of what is written after it are not affected. -/
theorem strip_loop_closed (max_len : Int) : ∀ (fuel : Nat) (rest : List Char) (ti tl : Nat),
    rest.length ≤ fuel → spansClosed false rest = true →
    ∀ t : List Char,
      printableMask false ((strip_loop max_len fuel rest ti tl).1 ++ t)
        = printableMask false (strip_loop max_len fuel rest ti tl).1 ++ printableMask false t := by
  intro fuel
  induction fuel with
  | zero =>
    intro rest ti tl hlen _ t
    have : rest = [] := List.length_eq_zero.mp (by omega)
    subst this
    rfl
  | succ fuel ih =>
    intro rest ti tl hlen hcl t
    cases rest with
    | nil => rfl
    | cons c cs =>
      rw [strip_loop_cons]
      split
      · rename_i j hj
        obtain ⟨hc, hs, hjl⟩ := jump_some c cs j hj
        subst hc
        have hd : ((ESC :: cs).drop (j + 1)).length ≤ fuel := by
          rw [List.length_drop]
          simp only [List.length_cons] at hlen hjl ⊢
          omega
        have hcl2 : spansClosed false ((ESC :: cs).drop (j + 1)) = true := by
          have hs2 := hs
          rw [strchr_cons, if_neg (by decide)] at hs2
          simp only [Option.map_eq_some'] at hs2
          obtain ⟨k, hk, rfl⟩ := hs2
          have hin := closed_in_span cs k hk (cs.drop (k + 1))
          rw [List.take_append_drop] at hin
          rw [spansClosed, if_pos rfl] at hcl
          simp only [Bool.and_eq_true] at hcl
          rw [List.drop_succ_cons, ← hin]
          exact hcl.2
        have hih := ih _ ti (((tl : Int) - ((j : Int) + 1)) % 4294967296).toNat hd hcl2 t
        simp only [List.append_assoc]
        rw [mask_span cs j hs, mask_span cs j hs, hih, List.append_assoc]
      · rename_i hj
        obtain ⟨hne, _⟩ := jump_none c cs hj
        have hc : c ≠ ESC := by
          intro e
          subst e
          rw [spansClosed, if_pos rfl] at hcl
          simp only [Bool.and_eq_true, decide_eq_true_eq] at hcl
          exact hne rfl hcl.1
        split
        · rfl
        · have hcl2 : spansClosed false cs = true := by
            rw [spansClosed, if_neg hc] at hcl
            exact hcl
          have hih := ih cs (ti + 1) tl (by simpa using hlen) hcl2 t
          simp only [List.cons_append]
          rw [mask_cons_false, if_neg (fun hh => hc hh.1), mask_cons_false,
            if_neg (fun hh => hc hh.1), hih]
          rfl

/-! ## Width of the redrawn line -/

/-- After formatting with a budget `max_len ≥ 0`, `text_len` is the printable
length of the buffer and does not exceed the budget. -/
theorem format_text_budget (col : Colors) (session : RmSession)
    (self : RmFmtHandlerProgress) (max_len : Int)
    (hst : isRendering self.last_state = true)
    (hfit : (formatted col session self.last_state).length ≤ 1023)
    (h0 : 0 ≤ max_len) :
    (rm_fmt_progress_format_text col session self max_len).text_len
      = printableLen (rm_fmt_progress_format_text col session self max_len).text_buf ∧
    ((printableLen (rm_fmt_progress_format_text col session self max_len).text_buf : Nat) : Int)
      ≤ max_len := by
  have hpl := printableLen_le_length (formatted col session self.last_state)
  by_cases hlt : max_len < (printableLen (formatted col session self.last_state) : Int)
  · obtain ⟨e1, e2⟩ := format_text_text col session self max_len hst hfit
    obtain ⟨c, tail, _, _, h3, h4⟩ := strip_loop_cut max_len (by omega)
      (formatted col session self.last_state).length
      (formatted col session self.last_state) 0 (formatted col session self.last_state).length
      (le_refl _) (by simpa using h0) (by simpa [printableLen] using hlt)
    rw [← e1] at h3
    rw [← e2] at h4
    have h3' : ((printableLen (rm_fmt_progress_format_text col session self max_len).text_buf
        : Nat) : Int) = max_len := by
      unfold printableLen
      simpa using h3
    exact ⟨by omega, by omega⟩
  · obtain ⟨e1, e2⟩ := format_text_keep col session self max_len hst hfit (by omega)
    rw [e1, e2]
    exact ⟨rfl, by omega⟩

/-- The buffer ends outside every span when the colour sequences are well
formed. -/
theorem format_text_closed (col : Colors) (session : RmSession)
    (self : RmFmtHandlerProgress) (max_len : Int)
    (hst : isRendering self.last_state = true)
    (hfit : (formatted col session self.last_state).length ≤ 1023)
    (hwf : wellFormedColors col = true) (t : List Char) :
    printableMask false ((rm_fmt_progress_format_text col session self max_len).text_buf ++ t)
      = printableMask false (rm_fmt_progress_format_text col session self max_len).text_buf
        ++ printableMask false t := by
  rw [(format_text_text col session self max_len hst hfit).1]
  exact strip_loop_closed max_len _ _ 0 _ (le_refl _)
    (closed_formatted col session self.last_state hwf) t

/-- The line of a redraw: the bar, the padding and the message, followed by
the reset sequence; its printable length is the sum of the two widths. -/
theorem redraw_line (col : Colors) (session : RmSession) (env : Env)
    (self : RmFmtHandlerProgress) (state : RmFmtProgressState)
    (hst : isRendering state = true) (hwf : wellFormedColors col = true)
    (hfit : (formatted col session state).length ≤ 1023)
    (hW : 2 ≤ bar_width env.indefinite (columns env self))
    (hT0 : 0 ≤ text_width env.indefinite (columns env self))
    (hT : text_width env.indefinite (columns env self) < 4294967296) :
    ∃ line, (rm_fmt_prog_redraw col session env self state).2 = line ++ [CR] ∧
      (printableLen line : Int)
        = bar_width env.indefinite (columns env self)
          + text_width env.indefinite (columns env self) := by
  have hsum : state ≠ .SUMMARY := by rintro rfl; simp [isRendering] at hst
  have hfst := redraw_fst col session env self state
  generalize hS : ({ (match env.ioctl with
      | some ws => { self with terminal := ws }
      | none => self) with last_state := state } : RmFmtHandlerProgress) = self2 at hfst
  have hl2 : self2.last_state = state := by rw [← hS]
  have hst2 : isRendering self2.last_state = true := by rw [hl2]; exact hst
  have hfit2 : (formatted col session self2.last_state).length ≤ 1023 := by rw [hl2]; exact hfit
  obtain ⟨hlen, hbud⟩ := format_text_budget col session self2
    (text_width env.indefinite (columns env self)) hst2 hfit2 hT0
  have hclosed := format_text_closed col session self2
    (text_width env.indefinite (columns env self)) hst2 hfit2 hwf
  rw [← hfst] at hlen hbud hclosed
  have hreset : wellFormedCode (MAYBE_COLOR session col.RESET) = true := by
    simp only [wellFormedColors, Bool.and_eq_true] at hwf
    unfold MAYBE_COLOR
    split
    · exact hwf.2
    · rfl
  refine ⟨rm_fmt_progress_print_bar env.indefinite
        (rm_fmt_prog_redraw col session env self state).1
        (bar_width env.indefinite (columns env self))
      ++ rm_fmt_progress_print_text (rm_fmt_prog_redraw col session env self state).1
        (text_width env.indefinite (columns env self))
      ++ MAYBE_COLOR session col.RESET, ?_, ?_⟩
  · rw [redraw_snd, if_neg hsum]
    simp only [List.append_assoc, List.append_nil]
  · generalize (rm_fmt_prog_redraw col session env self state).1 = self3 at hlen hbud hclosed
    generalize bar_width env.indefinite (columns env self) = W at hW
    generalize text_width env.indefinite (columns env self) = T at hT0 hT hbud hclosed
    generalize MAYBE_COLOR session col.RESET = z at hreset
    unfold rm_fmt_progress_print_bar rm_fmt_progress_print_text
    have hbar : ESC ∉ ['['] ++ bar_loop
        (Double.toInt env.indefinite (Double.mul (Double.ofInt W) self3.percent))
        (W - 2).toNat 0 ++ [']'] := by
      simp only [List.mem_append, List.mem_singleton, not_or]
      exact ⟨⟨by decide, bar_loop_no_ESC _ _ _⟩, by decide⟩
    have hbarlen : (['['] ++ bar_loop
        (Double.toInt env.indefinite (Double.mul (Double.ofInt W) self3.percent))
        (W - 2).toNat 0 ++ [']']).length = (W - 2).toNat + 2 := by
      rw [bar_loop_eq]
      simp
    generalize ['['] ++ bar_loop
        (Double.toInt env.indefinite (Double.mul (Double.ofInt W) self3.percent))
        (W - 2).toNat 0 ++ [']'] = bar at hbar hbarlen
    have hmod : T % 4294967296 = T := Int.emod_eq_of_lt hT0 hT
    rw [hmod]
    have cT : ∀ (n : Nat) (l : List Bool),
        (List.replicate n true ++ l).count true = n + l.count true := by
      intro n l; rw [List.count_append, List.count_replicate]; simp
    have cF : ∀ (n : Nat), (List.replicate n false).count true = 0 := by
      intro n; rw [List.count_replicate]; simp
    have hz : printableMask false z = List.replicate z.length false := by
      have := mask_code z [] hreset
      simpa [printableMask] using this
    unfold printableLen at hbud hlen ⊢
    by_cases hlt : (self3.text_len : Int) < T
    · rw [if_pos hlt]
      have hpad : ESC ∉ List.replicate ((T - (self3.text_len : Int)) % 4294967296).toNat ' ' := by
        intro h
        have := List.eq_of_mem_replicate h
        exact absurd this (by decide)
      simp only [List.append_assoc]
      rw [mask_plain _ _ hbar, cT, mask_plain _ _ hpad, cT, hclosed, List.count_append, hz, cF,
        hbarlen, List.length_replicate]
      have e : ((T - (self3.text_len : Int)) % 4294967296).toNat
          = (T - (self3.text_len : Int)).toNat := by omega
      rw [e]
      push_cast
      omega
    · rw [if_neg hlt]
      simp only [List.append_assoc, List.nil_append]
      rw [mask_plain _ _ hbar, cT, hclosed, List.count_append, hz, cF, hbarlen]
      push_cast
      omega

/-- C17, counterexample: on a 90-column terminal the line of a redraw has 88
printable characters in front of the carriage return (a bar of 27 and a text
field of 61, because `90 * 0.7` is rounded below 63 in binary floating point
and the integer part of `90 * 0.7 - 1` is 61), not
`floor(3 * 90 / 10) + floor(7 * 90 / 10) - 1 = 89`. -/
theorem C17_counterexample :
    (rm_fmt_prog ansi sample env90 afterInit15 .SHREDDER).toOption.map
        (fun r => (printableLen r.2.dropLast, r.2.getLast?)) = some (88, some CR) ∧
    bar_width env90.indefinite 90 = 27 ∧ text_width env90.indefinite 90 = 61 ∧
    3 * 90 / 10 + 7 * 90 / 10 - 1 = 89 := by
  refine ⟨?_, ?_, ?_, ?_⟩ <;> decide!

/-- C17, amended: for every column count `7 ≤ c ≤ 65535` (the range of
`ws_col`), every rendering phase, snapshot and colour setting with well-formed
colour sequences and a message that fits the buffer, a redraw writes a line
followed by a carriage return; the number of characters of the line outside
escape spans is the bar width plus the text width as the code computes them
in `double`, the bar width being `floor(3c/10)` and the text width
`floor(7c/10) - 1` or one less; so the count is `floor(3c/10) + floor(7c/10) - 1`
or one less, it is the former whenever `c` is not a multiple of ten, and it is
at most `c - 1`. -/
theorem C17_line_width (col : Colors) (session : RmSession) (env : Env)
    (self : RmFmtHandlerProgress) (state : RmFmtProgressState) (c : Nat)
    (hst : isRendering state = true) (hwf : wellFormedColors col = true)
    (hfit : (formatted col session state).length ≤ 1023)
    (hcol : columns env self = c) (h7 : 7 ≤ c) (h65 : c ≤ 65535) :
    ∃ line, (rm_fmt_prog_redraw col session env self state).2 = line ++ [CR] ∧
      (printableLen line : Int) = bar_width env.indefinite c + text_width env.indefinite c ∧
      bar_width env.indefinite c = ((3 * c / 10 : Nat) : Int) ∧
      (text_width env.indefinite c = ((7 * c / 10 : Nat) : Int) - 1 ∨
        text_width env.indefinite c = ((7 * c / 10 : Nat) : Int) - 2) ∧
      (printableLen line = 3 * c / 10 + 7 * c / 10 - 1 ∨
        printableLen line = 3 * c / 10 + 7 * c / 10 - 2) ∧
      (c % 10 ≠ 0 → printableLen line = 3 * c / 10 + 7 * c / 10 - 1) ∧
      printableLen line ≤ c - 1 := by
  have hW := bar_width_eq env.indefinite c h65
  obtain ⟨hT1, hT2⟩ := text_width_eq env.indefinite c (by omega) h65
  subst hcol
  obtain ⟨line, hl1, hl2⟩ := redraw_line col session env self state hst hwf hfit
    (by rw [hW]; omega) (by rcases hT2 with h | h <;> rw [h] <;> omega)
    (by rcases hT2 with h | h <;> rw [h] <;> omega)
  refine ⟨line, hl1, hl2, hW, hT2, ?_, ?_, ?_⟩
  · rcases hT2 with h | h
    · left; rw [hW, h] at hl2; omega
    · right; rw [hW, h] at hl2; omega
  · intro hne
    rw [hW, hT1 hne] at hl2
    omega
  · rcases hT2 with h | h <;> rw [hW, h] at hl2 <;> omega

/-- Witness of C17: the matching phase with colours on an 80-column terminal;
the line has `24 + 55 = 79` printable characters. -/
theorem C17_line_width_witness :
    isRendering .SHREDDER = true ∧ wellFormedColors ansi = true ∧
    (formatted ansi sample .SHREDDER).length ≤ 1023 ∧
    columns env80 afterInit15 = 80 ∧
    ∃ line, (rm_fmt_prog_redraw ansi sample env80 afterInit15 .SHREDDER).2 = line ++ [CR] ∧
      (printableLen line : Int) = bar_width env80.indefinite 80 + text_width env80.indefinite 80 ∧
      bar_width env80.indefinite 80 = ((3 * 80 / 10 : Nat) : Int) ∧
      (text_width env80.indefinite 80 = ((7 * 80 / 10 : Nat) : Int) - 1 ∨
        text_width env80.indefinite 80 = ((7 * 80 / 10 : Nat) : Int) - 2) ∧
      (printableLen line = 3 * 80 / 10 + 7 * 80 / 10 - 1 ∨
        printableLen line = 3 * 80 / 10 + 7 * 80 / 10 - 2) ∧
      (80 % 10 ≠ 0 → printableLen line = 3 * 80 / 10 + 7 * 80 / 10 - 1) ∧
      printableLen line ≤ 80 - 1 :=
  ⟨rfl, by decide, by decide!, rfl,
    C17_line_width ansi sample env80 afterInit15 .SHREDDER 80 rfl (by decide) (by decide!) rfl
      (by decide) (by decide)⟩

/-! ## The default case of the formatter -/

/-- Every call that `rm_fmt_prog` makes to `rm_fmt_progress_format_text` has a
rendering phase in `last_state`: an event either leaves the percentage, the
buffer and `text_len` as they were, or fails on the zero interval, or belongs
to a rendering phase and stores the result of formatting user data whose
`last_state` is that phase. -/
theorem prog_formats_rendering (col : Colors) (session : RmSession) (env : Env)
    (h : RmFmtHandlerProgress) (state : RmFmtProgressState) :
    (∃ r, rm_fmt_prog col session env h state = .ok r ∧ r.1.percent = h.percent ∧
        r.1.text_buf = h.text_buf ∧ r.1.text_len = h.text_len) ∨
    rm_fmt_prog col session env h state = .error .divisionByZero ∨
    (isRendering state = true ∧
      ∃ (h2 : RmFmtHandlerProgress) (w : Int) (out : List Char), h2.last_state = state ∧
        rm_fmt_prog col session env h state
          = .ok (rm_fmt_progress_format_text col session h2 w, out)) := by
  by_cases hI : state = .INIT
  · left
    subst hI
    unfold rm_fmt_prog
    rw [if_pos rfl]
    refine ⟨_, rfl, ?_⟩
    cases session.update_interval_str <;> dsimp only <;> split <;> exact ⟨rfl, rfl, rfl⟩
  by_cases hS : state = .SUMMARY ∨ session.aborted = true
  · left
    unfold rm_fmt_prog
    rw [if_neg hI, if_pos hS]
    exact ⟨_, rfl, rfl, rfl, rfl⟩
  have hr : isRendering state = true := by
    cases state with
    | INIT => exact absurd rfl hI
    | SUMMARY => exact absurd (Or.inl rfl) hS
    | TRAVERSE => rfl
    | PREPROCESS => rfl
    | SHREDDER => rfl
    | MERGE => rfl
  have key : ∀ hh : RmFmtHandlerProgress, ∃ (h2 : RmFmtHandlerProgress) (w : Int),
      h2.last_state = state ∧
      (rm_fmt_prog_redraw col session env hh state).1
        = rm_fmt_progress_format_text col session h2 w :=
    fun hh => ⟨_, _, rfl, redraw_fst col session env hh state⟩
  by_cases hpc : h.last_state ≠ state ∧ h.last_state ≠ .INIT
  · right; right
    obtain ⟨h2, w, hl, e⟩ := key h
    refine ⟨hr, h2, w, LF :: (rm_fmt_prog_redraw col session env h state).2, hl, ?_⟩
    rw [← e]
    unfold rm_fmt_prog
    rw [if_neg hI, if_neg hS, if_pos hpc]
  by_cases h0 : h.update_interval = 0
  · right; left
    unfold rm_fmt_prog
    rw [if_neg hI, if_neg hS, if_neg hpc, if_pos h0]
  by_cases hth : h.update_counter % h.update_interval > 0
  · left
    refine ⟨({ h with update_counter := (h.update_counter + 1) % 4294967296 }, []),
      ?_, rfl, rfl, rfl⟩
    unfold rm_fmt_prog
    rw [if_neg hI, if_neg hS, if_neg hpc, if_neg h0]
    exact if_pos hth
  · right; right
    obtain ⟨h2, w, hl, e⟩ :=
      key { h with update_counter := (h.update_counter + 1) % 4294967296 }
    refine ⟨hr, h2, w, (rm_fmt_prog_redraw col session env
      { h with update_counter := (h.update_counter + 1) % 4294967296 } state).2, hl, ?_⟩
    rw [← e]
    unfold rm_fmt_prog
    rw [if_neg hI, if_neg hS, if_neg hpc, if_neg h0]
    exact if_neg hth

/-- C16, amended: for every prior user data, when
`rm_fmt_progress_format_text` runs with `last_state` outside the four
rendering phases (`INIT` or `SUMMARY`), afterwards the percentage is 0 and the
buffer is empty, of printable length 0, and every other member is as before:
`text_len` keeps its previous value, so it is the printable length of the
(empty) text exactly when it was 0 before the call. The case is a defensive
one: every call that `rm_fmt_prog` makes to the function has a rendering phase
in `last_state`. -/
theorem C16_default_case (col : Colors) (session : RmSession)
    (self : RmFmtHandlerProgress) (max_len : Int)
    (hst : isRendering self.last_state = false) :
    rm_fmt_progress_format_text col session self max_len
      = { self with percent := .fin 0, text_buf := [] } ∧
    (rm_fmt_progress_format_text col session self max_len).percent = .fin 0 ∧
    (rm_fmt_progress_format_text col session self max_len).text_buf = [] ∧
    printableLen (rm_fmt_progress_format_text col session self max_len).text_buf = 0 ∧
    (rm_fmt_progress_format_text col session self max_len).text_len = self.text_len ∧
    ((rm_fmt_progress_format_text col session self max_len).text_len
        = printableLen (rm_fmt_progress_format_text col session self max_len).text_buf
      ↔ self.text_len = 0) ∧
    ∀ (env : Env) (h : RmFmtHandlerProgress) (state : RmFmtProgressState),
      (∃ r, rm_fmt_prog col session env h state = .ok r ∧ r.1.percent = h.percent ∧
          r.1.text_buf = h.text_buf ∧ r.1.text_len = h.text_len) ∨
      rm_fmt_prog col session env h state = .error .divisionByZero ∨
      (isRendering state = true ∧
        ∃ (h2 : RmFmtHandlerProgress) (w : Int) (out : List Char), h2.last_state = state ∧
          rm_fmt_prog col session env h state
            = .ok (rm_fmt_progress_format_text col session h2 w, out)) := by
  have e := format_text_default col session self max_len hst
  rw [e]
  exact ⟨rfl, rfl, rfl, rfl, rfl, Iff.rfl, prog_formats_rendering col session⟩

/-- Witness of C16: the last phase `SUMMARY` on the members left by an earlier
matching line. -/
theorem C16_default_case_witness :
    isRendering ({ PROGRESS_HANDLER_IMPL with
      last_state := .SUMMARY, percent := .fin (1 / 4),
      text_buf := formatted ansi sample .SHREDDER, text_len := 72 }
      : RmFmtHandlerProgress).last_state = false ∧
    (rm_fmt_progress_format_text ansi sample
        { PROGRESS_HANDLER_IMPL with
          last_state := .SUMMARY, percent := .fin (1 / 4),
          text_buf := formatted ansi sample .SHREDDER, text_len := 72 } 54).text_buf = [] ∧
    (rm_fmt_progress_format_text ansi sample
        { PROGRESS_HANDLER_IMPL with
          last_state := .SUMMARY, percent := .fin (1 / 4),
          text_buf := formatted ansi sample .SHREDDER, text_len := 72 } 54).text_len
      = ({ PROGRESS_HANDLER_IMPL with
          last_state := .SUMMARY, percent := .fin (1 / 4),
          text_buf := formatted ansi sample .SHREDDER, text_len := 72 }
          : RmFmtHandlerProgress).text_len :=
  ⟨rfl,
    (C16_default_case ansi sample
      { PROGRESS_HANDLER_IMPL with
        last_state := .SUMMARY, percent := .fin (1 / 4),
        text_buf := formatted ansi sample .SHREDDER, text_len := 72 } 54 rfl).2.2.1,
    (C16_default_case ansi sample
      { PROGRESS_HANDLER_IMPL with
        last_state := .SUMMARY, percent := .fin (1 / 4),
        text_buf := formatted ansi sample .SHREDDER, text_len := 72 } 54 rfl).2.2.2.2.1⟩

end Progressbar
